import Mathlib

/- Verification development for the pyfoma weighted finite-state transducer
   library (src/pyfoma.py).

   Shallow embedding conventions:
   * Python `State` objects become natural-number identifiers; an `FST` record
     carries, per state, its transitions dictionary and final weight.
   * Weights (Python floats over the tropical semiring, non-negative reals
     plus infinity in the intended usage) are modelled as `WithTop Int`:
     exact integers extended with a `Top` element playing the role of
     `float("inf")`.  Addition on `WithTop Int` is top-absorbing, matching
     IEEE `inf + x = inf`.  Every theorem below is parametric in the finite
     weight values, so restricting the reals to the integers loses nothing
     for the properties under study while keeping all arithmetic exact and
     kernel-computable.
   * Python dicts become association lists: assignment keeps the position of
     an existing key and appends a fresh key at the end, like insertion-ordered
     Python dicts.
   * `Transition` objects in the source define no structural equality or hash,
     so Python sets of transitions distinguish members by object identity; a
     per-label bucket is therefore modelled as a `List` to which every
     `add_transition` call appends one (always fresh) element.
-/

namespace Pyfoma

/-- Tropical weights: integers plus a top element standing for the float
infinity of the source. -/
abbrev W : Type := WithTop ℤ

/-- A symbol is an opaque string token. -/
abbrev Sym : Type := String

/-- A transition label: the ordered tuple of per-tape symbols, modelled as a
list of symbols. -/
abbrev Label : Type := List Sym

/-- Association-list lookup, mirroring Python `dict.get`. -/
def alookup {α β : Type} [DecidableEq α] : List (α × β) → α → Option β
  | [], _ => none
  | (k, w) :: rest, key => if k = key then some w else alookup rest key

/-- Association-list assignment, mirroring Python `dict.__setitem__`: an
existing key keeps its position, a fresh key is appended at the end. -/
def aset {α β : Type} [DecidableEq α] : List (α × β) → α → β → List (α × β)
  | [], key, v => [(key, v)]
  | (k, w) :: rest, key, v =>
    if k = key then (key, v) :: rest else (k, w) :: aset rest key v

/-- Embedding of the source's `Transition` class: target state, label and
weight.  The label field is the one stored inside the object; the key under
which the transition sits in a state's dictionary can diverge from it (the
source's `invert` and `project` rewrite only the keys). -/
structure Trs where
  targetstate : Nat
  label : Label
  weight : W
deriving DecidableEq

/-- A state's `transitions` dictionary: label keys mapped to the bucket of
transitions carrying that label.  Buckets are Python sets of `Transition`
objects; absent structural equality those sets discriminate by object
identity, which the embedding renders as a list that each add appends to. -/
abbrev TDict := List (Label × List Trs)

/-- Embedding of `State.add_transition` (src/pyfoma.py lines 1019-1022):
`self.transitions[label] = self.transitions.get(label, set()) | {newtrans}`
with `newtrans` a freshly allocated object, hence always a new set element. -/
def addTransitionD (d : TDict) (other : Nat) (label : Label) (weight : W) : TDict :=
  aset d label (((alookup d label).getD []) ++ [Trs.mk other label weight])

/-- Number of transitions in `d` under key `label` that structurally equal the
triple `(other, label, weight)`. -/
def countTriple (d : TDict) (other : Nat) (label : Label) (weight : W) : Nat :=
  ((alookup d label).getD []).count (Trs.mk other label weight)

/-- Embedding of the source's `FST` container: the set of state ids, the
initial state, the final-state set, each state's final weight (`fw`, defaulting
to infinity as `State.__init__` does), each state's transition dictionary
(`delta`), and the alphabet. -/
structure FST where
  states : List Nat
  initialstate : Nat
  finalstates : List Nat
  fw : List (Nat × W)
  delta : List (Nat × TDict)
  alphabet : List Sym
deriving DecidableEq

/-- A state's final weight; `State.__init__` defaults it to `float("inf")`. -/
def finalweight (A : FST) (s : Nat) : W := (alookup A.fw s).getD ⊤

/-- A state's transitions dictionary inside an FST. -/
def deltaOf (A : FST) (s : Nat) : TDict := (alookup A.delta s).getD []

/-- `add_transition` lifted to the FST record: update state `s`'s dictionary. -/
def addTrans (A : FST) (s other : Nat) (label : Label) (weight : W) : FST :=
  { A with delta := aset A.delta s (addTransitionD (deltaOf A s) other label weight) }

/-- Embedding of `FST.__init__(label, weight)` (src/pyfoma.py lines 312-327):
label `("",)` yields the single-state epsilon acceptor whose initial state is
final with the given weight; any other non-None label yields a two-state
machine with one transition of weight 0 and a final target of weight
`weight`; the alphabet collects the label's symbols. -/
def fstFromLabel (label : Label) (weight : W) : FST :=
  if label = [""] then
    { states := [0], initialstate := 0, finalstates := [0],
      fw := [(0, weight)], delta := [], alphabet := [] }
  else
    { states := [0, 1], initialstate := 0, finalstates := [1],
      fw := [(1, weight)], delta := [(0, addTransitionD [] 1 label 0)],
      alphabet := label.dedup }

/- ------------------------------------------------------------------ -/
/- Regex RANGE operator: the bound check of `{m,n}`                    -/
/- ------------------------------------------------------------------ -/

/-- Python string comparison `a > b` on lists of characters: lexicographic by
code point, a proper nonempty extension of a common run being the greater. -/
def pyListGtChar : List Char → List Char → Bool
  | [], _ => false
  | _ :: _, [] => true
  | a :: as, b :: bs =>
    if b.val < a.val then true
    else if a.val < b.val then false
    else pyListGtChar as bs

/-- Python string comparison `a > b`. -/
def pyStrGt (a b : String) : Bool := pyListGtChar a.data b.data

/-- Python `value.split(",")` on the underlying character list. -/
def splitComma : List Char → List (List Char)
  | [] => [[]]
  | c :: rest =>
    let r := splitComma rest
    if c = ',' then [] :: r
    else (c :: r.headD []) :: r.tail

/-- Embedding of the RANGE handler's error test in `regexparse.compile`
(src/pyfoma.py lines 119-134): the token value is split on `,`; the branches
`{m}`, `{,n}` and `{m,}` raise no range error; the `{m,n}` branch raises
the error when `int(rng[0] > rng[1])` is truthy, i.e. exactly when the two
bound NUMERALS compare greater AS STRINGS. -/
def rangeErrorReported (value : String) : Bool :=
  let rng := splitComma value.data
  if rng.length = 1 then false
  else if rng.headD [] = [] then false
  else if rng.getD 1 [] = [] then false
  else pyListGtChar (rng.headD []) (rng.getD 1 [])

/-- Numeric value of a decimal numeral, as Python `int` reads it. -/
def decVal (s : String) : Nat :=
  s.data.foldl (fun n c => n * 10 + (c.toNat - 48)) 0

/- ------------------------------------------------------------------ -/
/- invert, reverse, project, alphabet harmonization                    -/
/- ------------------------------------------------------------------ -/

/-- The non-delta fields of an FST, bundled: every helper that only adds
transitions leaves this tuple unchanged. -/
def core (A : FST) : List Nat × Nat × List Nat × List (Nat × W) × List Sym :=
  (A.states, A.initialstate, A.finalstates, A.fw, A.alphabet)

/-- One state's dictionary after `invert` (src/pyfoma.py lines 870-874):
`{lbl[::-1]: tr for lbl, tr in s.transitions.items()}`.  Label reversal is
injective, so the comprehension never merges two keys and the key-wise map
is a faithful rendering; the `Transition` objects (with their stored label
fields) are reused untouched, exactly as in the source. -/
def invertDict (d : TDict) : TDict := d.map (fun lt => (lt.1.reverse, lt.2))

/-- Embedding of `FST.invert`: every state's transition dictionary is rekeyed
by tuple reversal; nothing else changes. -/
def invert (A : FST) : FST :=
  { A with delta := A.delta.map (fun sd => (sd.1, invertDict sd.2)) }

/-- All `(state, label, transition)` triples of an FST, as the source's
`FST.all_transitions` enumerates them over `self.states`. -/
def allTransitions (A : FST) : List (Nat × Label × Trs) :=
  A.states.flatMap (fun s =>
    (deltaOf A s).flatMap (fun lt => lt.2.map (fun t => (s, lt.1, t))))

/-- The image of an old state under `reverse`'s fresh-state mapping; the new
initial state takes id 0, old state `s` maps to `s + 1`. -/
def revMap (s : Nat) : Nat := s + 1

/-- The body of `reverse`'s transition loop (src/pyfoma.py lines 900-904):
flip the arc, and when the old target is final also add the fresh initial's
arc weighted by `t.weight + t.targetstate.finalweight`. -/
def revStep (A : FST) (acc : FST) (slt : Nat × Label × Trs) : FST :=
  let acc1 := addTrans acc (revMap slt.2.2.targetstate) (revMap slt.1) slt.2.1 slt.2.2.weight
  if slt.2.2.targetstate ∈ A.finalstates then
    addTrans acc1 0 (revMap slt.1) slt.2.1
      (slt.2.2.weight + finalweight A slt.2.2.targetstate)
  else acc1

/-- Embedding of `FST.reverse` (src/pyfoma.py lines 888-905): fresh initial
state 0; old states shifted by `revMap`; the image of the old initial is
final with weight 0; when the old initial was final, the fresh initial is
additionally final carrying the old initial's final weight; arcs flip via
`revStep`. -/
def reverseF (A : FST) : FST :=
  let finals1 :=
    if A.initialstate ∈ A.finalstates then [revMap A.initialstate] ++ [0]
    else [revMap A.initialstate]
  let fw1 : List (Nat × W) :=
    if A.initialstate ∈ A.finalstates then [(0, finalweight A A.initialstate)] else []
  let base : FST :=
    { states := A.states.map revMap ++ [0], initialstate := 0,
      finalstates := finals1, fw := aset fw1 (revMap A.initialstate) 0,
      delta := [], alphabet := A.alphabet }
  (allTransitions A).foldl (revStep A) base

/-- A Python runtime label value: ordinarily a tuple of symbols, but after
`project` a bare string, since the source writes `lbl[dim]` (tuple indexing
yields the element) rather than `(lbl[dim],)`. -/
inductive PyLabel where
  | tup : List Sym → PyLabel
  | str : Sym → PyLabel
deriving DecidableEq

/-- Python tuple indexing `l[dim]` with negative indices counting from the
end.  An out-of-range index raises IndexError in the source; the empty-string
placeholder stands for that unreachable outcome. -/
def pyIndex (l : List Sym) (dim : Int) : Sym :=
  if 0 ≤ dim then l.getD dim.toNat ""
  else l.getD ((l.length : Int) + dim).toNat ""

/-- A state dictionary whose keys are runtime label values. -/
abbrev PDict := List (PyLabel × List Trs)

/-- A Python dict comprehension over a key-value stream: sequential
assignment, so a repeated key keeps its first position and takes the last
value. -/
def pyDictComp (entries : PDict) : PDict :=
  entries.foldl (fun d kv => aset d kv.1 kv.2) []

/-- One state's dictionary after `project` (src/pyfoma.py lines 882-886):
`{lbl[dim]: tr for lbl, tr in s.transitions.items()}` — each key becomes the
BARE symbol at tape `dim` (a string, not a 1-tuple), and colliding projected
keys merge with the last bucket winning. -/
def projectDict (d : TDict) (dim : Int) : PDict :=
  pyDictComp (d.map (fun lt => (PyLabel.str (pyIndex lt.1 dim), lt.2)))

/-- The FST record after `project`, with runtime-label keys; only the
transition dictionaries change. -/
structure ProjFST where
  states : List Nat
  initialstate : Nat
  finalstates : List Nat
  fw : List (Nat × W)
  delta : List (Nat × PDict)
  alphabet : List Sym
deriving DecidableEq

/-- Embedding of `FST.project`. -/
def project (A : FST) (dim : Int) : ProjFST :=
  { states := A.states, initialstate := A.initialstate,
    finalstates := A.finalstates, fw := A.fw,
    delta := A.delta.map (fun sd => (sd.1, projectDict sd.2 dim)),
    alphabet := A.alphabet }

/-- A state's dictionary inside a projected FST. -/
def pdeltaOf (P : ProjFST) (s : Nat) : PDict := (alookup P.delta s).getD []

/-- Substitute the wildcard: `tuple(lbl if lbl != '.' else sym for lbl in l)`
from `harmonize_alphabet` (src/pyfoma.py line 387). -/
def substDot (l : Label) (sym : Sym) : Label :=
  l.map (fun lbl => if lbl = "." then sym else lbl)

/-- Inner loop of the wildcard expansion: add, for each expansion symbol, the
parallel arc with `.` replaced. -/
def expandSyms (s : Nat) (l : Label) (t : Trs) (acc : FST) (syms : List Sym) : FST :=
  syms.foldl (fun acc2 sym => addTrans acc2 s t.targetstate (substDot l sym) t.weight) acc

/-- Body of `harmonize_alphabet`'s expansion loop over the snapshot
`list(A.all_transitions(A.states))`: arcs carrying `.` on some tape gain the
substituted parallel arcs. -/
def expandStep (syms : List Sym) (acc : FST) (slt : Nat × Label × Trs) : FST :=
  if "." ∈ slt.2.1 then expandSyms slt.1 slt.2.1 slt.2.2 acc syms else acc

/-- The in-place wildcard expansion of `harmonize_alphabet` applied to an
operand: iterate over a snapshot of its transitions, mutating as we go. -/
def expandWild (A : FST) (syms : List Sym) : FST :=
  (allTransitions A).foldl (expandStep syms) A

/-- The condition under which `harmonize_alphabet` expands side `A` against
side `B`: `'.' in A.alphabet and (A.alphabet - {'.'}) != (B.alphabet - {'.'})`
(src/pyfoma.py line 379), with Python set equality. -/
def harmCond (A B : FST) : Prop :=
  "." ∈ A.alphabet ∧ A.alphabet.toFinset.erase "." ≠ B.alphabet.toFinset.erase "."

instance (A B : FST) : Decidable (harmCond A B) := by
  unfold harmCond; infer_instance

/-- The expansion symbols `Aexpand = B.alphabet - A.alphabet - {'.', ''}`. -/
def aexpandSyms (A B : FST) : List Sym :=
  (B.alphabet.filter (fun x =>
    decide (x ∉ A.alphabet) && decide (x ≠ ".") && decide (x ≠ ""))).dedup

/-- The value of the FIRST operand (`self`) after any call of one of the six
`harmonize_alphabet`-decorated binary operations (`concatenate`,
`cross_product`, `compose`, `union`, `intersection`, `difference`).  The
wrapper's first pass (src/pyfoma.py lines 378-388) binds `A = self`; since
`A == other` fails for distinct operand objects, no copy is made and the
expansion mutates `self` in place whenever `harmCond self other` holds.  The
second pass binds `A = other`, for which `A == other` succeeds, so `other` is
always copied before its expansion and the second operand object is never
mutated; the operation bodies themselves only allocate fresh states. -/
def harmonizedSelf (A B : FST) : FST :=
  if harmCond A B then expandWild A (aexpandSyms A B) else A

/- ------------------------------------------------------------------ -/
/- words_cheapest                                                      -/
/- ------------------------------------------------------------------ -/

/-- A heap record of `words_cheapest` (src/pyfoma.py lines 666-678): cost,
monotonically increasing tiebreak counter, the current state (`none` is the
Python `None` exit sentinel pushed when a final state is popped), and the
label sequence so far. -/
structure WEntry where
  cost : W
  cnt : Nat
  st : Option Nat
  seq : List Label
deriving DecidableEq

/-- The heapq ordering on entries: lexicographic on `(cost, cnt)`.  Counters
are unique, so Python never compares the remaining tuple components. -/
def wentLt (a b : WEntry) : Bool :=
  decide (a.cost < b.cost) || (decide (a.cost = b.cost) && decide (a.cnt < b.cnt))

/-- `heapq.heappop`: remove the `(cost, cnt)`-least entry.  The heap is
modelled as an unordered list searched for its minimum. -/
def popMin : List WEntry → Option (WEntry × List WEntry)
  | [] => none
  | e :: rest =>
    match popMin rest with
    | none => some (e, [])
    | some (m, rest') =>
      if wentLt m e then some (m, e :: rest') else some (e, rest)

/-- All `(label, transition)` pairs of one state, in the order
`State.all_transitions` yields them. -/
def transList (A : FST) (s : Nat) : List (Label × Trs) :=
  (deltaOf A s).flatMap (fun lt => lt.2.map (fun t => (lt.1, t)))

/-- The mutable loop state of `words_cheapest`: the counter, the heap, and
the `(cost, word)` pairs yielded so far. -/
structure WCState where
  cntr : Nat
  Q : List WEntry
  yields : List (W × List Label)
deriving DecidableEq

/-- One iteration of the `words_cheapest` loop: pop the cheapest entry; a
popped sentinel yields its pair; a popped state pushes the exit sentinel when
final (cost plus final weight) and pushes every outgoing transition with the
extended sequence.  `none` signals the loop's natural end (empty heap). -/
def wcStep (A : FST) (st : WCState) : Option WCState :=
  match popMin st.Q with
  | none => none
  | some (e, rest) =>
    match e.st with
    | none => some { cntr := st.cntr, Q := rest,
                     yields := st.yields ++ [(e.cost, e.seq)] }
    | some s =>
      let fpush :=
        if s ∈ A.finalstates then
          ([WEntry.mk (e.cost + finalweight A s) st.cntr none e.seq], st.cntr + 1)
        else ([], st.cntr)
      let tl := transList A s
      let pushed := tl.enum.map (fun p =>
        WEntry.mk (e.cost + p.2.2.weight) (fpush.2 + p.1) (some p.2.2.targetstate)
          (e.seq ++ [p.2.1]))
      some { cntr := fpush.2 + tl.length, Q := rest ++ fpush.1 ++ pushed,
             yields := st.yields }

/-- Run the `words_cheapest` loop for at most `fuel` iterations. -/
def wcRun (A : FST) : Nat → WCState → WCState
  | 0, st => st
  | fuel + 1, st =>
    match wcStep A st with
    | none => st
    | some st' => wcRun A fuel st'

/-- The initial loop state: heap `[(0.0, 0, initialstate, [])]`. -/
def wcInit (A : FST) : WCState :=
  { cntr := 1, Q := [WEntry.mk 0 0 (some A.initialstate) []], yields := [] }

/-- The `(cost, word)` pairs yielded by `words_cheapest` within `fuel`
iterations of its loop. -/
def wordsCheapest (A : FST) (fuel : Nat) : List (W × List Label) :=
  (wcRun A fuel (wcInit A)).yields

/-- An FST all of whose transition weights and final weights are finite
(the final-weight clause also demands an explicit entry for every final
state, since a missing entry denotes infinity). -/
def FiniteWeights (A : FST) : Prop :=
  (∀ sd ∈ A.delta, ∀ lt ∈ sd.2, ∀ t ∈ lt.2, t.weight ≠ ⊤) ∧
  (∀ s ∈ A.finalstates, finalweight A s ≠ ⊤)

instance (A : FST) : Decidable (FiniteWeights A) := by
  unfold FiniteWeights; infer_instance

/-- The FST `0 —a/∞→ 1(final, 0)`: the shape `difference` produces for arcs
missing from its first operand, here fed directly to `words_cheapest`. -/
def infArcFST : FST :=
  { states := [0, 1], initialstate := 0, finalstates := [1], fw := [(1, 0)],
    delta := [(0, addTransitionD [] 1 ["a"] ⊤)], alphabet := ["a"] }

/- ------------------------------------------------------------------ -/
/- determinize                                                         -/
/- ------------------------------------------------------------------ -/

/-- A macro-state of the weighted subset construction: the Python frozenset
of `(state, residual weight)` pairs, represented canonically as the
duplicate-free list sorted by `pairLt` so that frozensets with equal
contents compare equal as dictionary keys. -/
abbrev MState := List (Nat × W)

/-- Strict lexicographic order on `(state, residual)` pairs, used only to
canonicalize the set representation. -/
def pairLt (a b : Nat × W) : Bool :=
  decide (a.1 < b.1) || (decide (a.1 = b.1) && decide (a.2 < b.2))

/-- Insert a pair into a sorted duplicate-free list, skipping duplicates. -/
def insPair (x : Nat × W) : MState → MState
  | [] => [x]
  | y :: ys =>
    if x = y then y :: ys
    else if pairLt x y then x :: y :: ys
    else y :: insPair x ys

/-- Canonicalize a pair list into the frozenset representation. -/
def mkMState (l : List (Nat × W)) : MState :=
  l.foldl (fun acc x => insPair x acc) []

/-- Total subtraction on weights, standing for Python float subtraction.  On
finite values it is exact subtraction; when either operand is the infinity
marker, the float result (`inf`, `-inf` or `nan`) is collapsed to the
infinity marker.  This deviation from IEEE arithmetic is confined to the
non-finite cases; theorems whose truth could depend on them carry finiteness
hypotheses. -/
def wsub (a b : W) : W :=
  match a, b with
  | some x, some y => some (x - y)
  | _, _ => ⊤

/-- `residuals[s]` from `residuals = {s: r for s, r in currentQ}`: a Python
dict comprehension keeps the LAST value for a repeated key, hence the lookup
on the reversed pair list. -/
def resOf (curr : List (Nat × W)) (s : Nat) : W := (alookup curr.reverse s).getD 0

/-- `collectlabels[label] = collectlabels.get(label, set()) | {(s, t)}`:
append a member to a label's bucket. -/
def adictApp (d : List (Label × List (Nat × Trs))) (k : Label) (x : Nat × Trs) :
    List (Label × List (Nat × Trs)) :=
  aset d k (((alookup d k).getD []) ++ [x])

/-- The `collectlabels` dictionary of one macro-state (src/pyfoma.py lines
702-706): every member state's transitions grouped by label together with
their source state. -/
def collectLabels (A : FST) (curr : List (Nat × W)) :
    List (Label × List (Nat × Trs)) :=
  curr.foldl (fun acc sr =>
    (deltaOf A sr.1).foldl (fun acc2 lt =>
      lt.2.foldl (fun acc3 t => adictApp acc3 lt.1 (sr.1, t)) acc2) acc) []

/-- `t.weight + residuals[s]` for a bucket member. -/
def wAddRes (curr : List (Nat × W)) (p : Nat × Trs) : W :=
  p.2.weight + resOf curr p.1

/-- `wprime = oplus(t.weight + residuals[s] for s, t in tset)` with the
default `oplus = min` (src/pyfoma.py line 713); buckets are nonempty by
construction, the `Top` for the empty case is unreachable. -/
def wprimeOf (curr : List (Nat × W)) : List (Nat × Trs) → W
  | [] => ⊤
  | x :: xs => xs.foldl (fun m p => min m (wAddRes curr p)) (wAddRes curr x)

/-- The successor macro-state
`frozenset(staterep(t.targetstate, t.weight + residuals[s] - wprime))`
(src/pyfoma.py line 715) with the default `staterep`. -/
def newQOf (curr : List (Nat × W)) (tset : List (Nat × Trs)) (wp : W) : MState :=
  mkMState (tset.map (fun p => (p.2.targetstate, wsub (wAddRes curr p) wp)))

/-- The new macro-state's final weight
`oplus(t.targetstate.finalweight + t.weight + residuals[s] - wprime ...)`
over the members whose target is final (src/pyfoma.py lines 728-729). -/
def finalsWeightOf (A : FST) (curr : List (Nat × W)) (tset : List (Nat × Trs))
    (wp : W) : W :=
  match tset.filter (fun p => decide (p.2.targetstate ∈ A.finalstates)) with
  | [] => ⊤
  | x :: xs =>
    xs.foldl (fun m p => min m (wsub (finalweight A p.2.targetstate + wAddRes curr p) wp))
      (wsub (finalweight A x.2.targetstate + wAddRes curr x) wp)

/-- The mutable state of the subset-construction loop: the
macro-state-to-new-state dictionary `statesets`, the work deque `Q` (our
list head is the deque's right end, where Python both appends and pops), the
fresh-id counter, and the output FST under construction. -/
structure DetSt where
  statesets : List (MState × Nat)
  Q : List MState
  nextId : Nat
  states : List Nat
  finals : List Nat
  fws : List (Nat × W)
  delta : List (Nat × TDict)
deriving DecidableEq

/-- A state's dictionary in a delta association list. -/
def deltaOfD (d : List (Nat × TDict)) (s : Nat) : TDict := (alookup d s).getD []

/-- Processing of one entry of `collectlabels` for the current macro-state
(src/pyfoma.py lines 709-729): compute `wprime` and the successor
macro-state; allocate it if unseen (pushing it on `Q`); add the single arc
`statesets[currentQ] —label/wprime→ statesets[newQ]`; mark the new state
final when some member target is final, assigning its final weight. -/
def detProcessLabel (A : FST) (curr : List (Nat × W)) (srcId : Nat)
    (st : DetSt) (lt : Label × List (Nat × Trs)) : DetSt :=
  let wp := wprimeOf curr lt.2
  let nq := newQOf curr lt.2 wp
  let st1 :=
    match alookup st.statesets nq with
    | none =>
      { st with statesets := st.statesets ++ [(nq, st.nextId)],
                Q := nq :: st.Q,
                nextId := st.nextId + 1,
                states := st.states ++ [st.nextId] }
    | some _ => st
  let tgt := (alookup st1.statesets nq).getD 0
  let st2 := { st1 with
    delta := aset st1.delta srcId
      (addTransitionD (deltaOfD st1.delta srcId) tgt lt.1 wp) }
  if lt.2.any (fun p => decide (p.2.targetstate ∈ A.finalstates)) then
    { st2 with
      finals := if tgt ∈ st2.finals then st2.finals else st2.finals ++ [tgt],
      fws := aset st2.fws tgt (finalsWeightOf A curr lt.2 wp) }
  else st2

/-- One iteration of the determinization worklist loop: pop a macro-state
from the deque's right end and process each collected label. -/
def detStep (A : FST) (st : DetSt) : Option DetSt :=
  match st.Q with
  | [] => none
  | curr :: rest =>
    let srcId := (alookup st.statesets curr).getD 0
    some ((collectLabels A curr).foldl
      (detProcessLabel A curr srcId) { st with Q := rest })

/-- The initial loop state: macro-state `{(initialstate, 0.0)}` mapped to the
new initial state 0; final iff the old initial state is final (src/pyfoma.py
lines 692-699). -/
def detInit (A : FST) : DetSt :=
  let first : MState := {(A.initialstate, (0 : W))}
  { statesets := [(first, 0)], Q := [first], nextId := 1, states := [0],
    finals := if A.initialstate ∈ A.finalstates then [0] else [],
    fws := if A.initialstate ∈ A.finalstates
           then [(0, finalweight A A.initialstate)] else [],
    delta := [] }

/-- Run the determinization loop for at most `fuel` iterations (weighted
determinization need not terminate; the source loops until `Q` empties). -/
def detRun (A : FST) : Nat → DetSt → DetSt
  | 0, st => st
  | f + 1, st =>
    match detStep A st with
    | none => st
    | some st' => detRun A f st'

/-- The accumulated result of `determinize()` after `fuel` iterations. -/
def determinizeFuel (A : FST) (fuel : Nat) : DetSt :=
  detRun A fuel (detInit A)

/-- The number of transitions under label `l` going out of state `s` in the
determinization output. -/
def detTransCount (st : DetSt) (s : Nat) (l : Label) : Nat :=
  ((alookup (deltaOfD st.delta s) l).getD []).length

/-- The worklist invariant of the subset construction: the accumulated output
is deterministic; every enqueued macro-state is registered and its new state
has no outgoing transitions yet; registered ids and the delta keys stay below
the allocation counter; ids and the queue are duplicate-free. -/
def DetInv (st : DetSt) : Prop :=
  (∀ s l, detTransCount st s l ≤ 1) ∧
  (∀ q ∈ st.Q, ∃ i, alookup st.statesets q = some i ∧
      alookup st.delta i = none) ∧
  (∀ p ∈ st.delta, p.1 < st.nextId) ∧
  (∀ p ∈ st.statesets, p.2 < st.nextId) ∧
  (st.statesets.map Prod.snd).Nodup ∧
  st.Q.Nodup

/-- The invariant holding between label-processing steps while one
macro-state (whose new state id is `srcId`) is being expanded. -/
def DetMid (srcId : Nat) (st : DetSt) : Prop :=
  (∀ s l, s ≠ srcId → detTransCount st s l ≤ 1) ∧
  (∀ b ∈ deltaOfD st.delta srcId, b.2.length ≤ 1) ∧
  (∀ q ∈ st.Q, ∃ i, alookup st.statesets q = some i ∧
      alookup st.delta i = none ∧ i ≠ srcId) ∧
  (∀ p ∈ st.delta, p.1 < st.nextId) ∧
  (∀ p ∈ st.statesets, p.2 < st.nextId) ∧
  (st.statesets.map Prod.snd).Nodup ∧
  st.Q.Nodup ∧ srcId < st.nextId

/- ------------------------------------------------------------------ -/
/- dijkstra, Tarjan's scc, push_weights                                -/
/- ------------------------------------------------------------------ -/

/-- All target states of a state's transitions. -/
def targetsOf (A : FST) (s : Nat) : List Nat :=
  (deltaOf A s).flatMap (fun lt => lt.2.map (fun t => t.targetstate))

/-- `State.all_targets` (src/pyfoma.py lines 1030-1032): the SET of targets;
the duplicate-free list models the Python set. -/
def allTargetsSet (A : FST) (s : Nat) : List Nat := (targetsOf A s).dedup

/-- `State.all_targets_cheapest` (src/pyfoma.py lines 1043-1049): map every
target to the minimum outgoing weight toward it, defaulting to infinity. -/
def allTargetsCheapest (A : FST) (s : Nat) : List (Nat × W) :=
  (deltaOf A s).foldl (fun acc lt =>
    lt.2.foldl (fun acc2 t =>
      aset acc2 t.targetstate
        (min ((alookup acc2 t.targetstate).getD ⊤) t.weight)) acc) []

/-- Reachability in the transition graph. -/
inductive Reach (A : FST) : Nat → Nat → Prop
  | refl : ∀ s, Reach A s s
  | head : ∀ s t u, t ∈ targetsOf A s → Reach A t u → Reach A s u

/-- Mutual reachability: membership in the same strongly connected
component. -/
def SCCeq (A : FST) (u v : Nat) : Prop := Reach A u v ∧ Reach A v u

/-- A heap record of `dijkstra` (src/pyfoma.py lines 636-651): cost, unique
tiebreak counter, and the state (`none` is the Python `None` exit sentinel
pushed when a final state is popped). -/
structure DEntry where
  cost : W
  cnt : Nat
  st : Option Nat
deriving DecidableEq

/-- `heapq.heappop` for dijkstra entries. -/
def popMinD : List DEntry → Option (DEntry × List DEntry)
  | [] => none
  | e :: rest =>
    match popMinD rest with
    | none => some (e, [])
    | some (m, rest') =>
      if decide (m.cost < e.cost) ||
         (decide (m.cost = e.cost) && decide (m.cnt < e.cnt)) then
        some (m, e :: rest')
      else some (e, rest)

/-- The mutable state of the dijkstra loop. -/
structure DijSt where
  explored : List Nat
  q : List DEntry
  cntr : Nat
deriving DecidableEq

/-- Run the dijkstra loop: pop the cheapest entry; the first popped `None`
sentinel's cost is the answer; a popped state is marked explored, pushes the
exit sentinel when final, and relaxes its unexplored cheapest targets.  An
empty heap returns infinity, exhausted fuel returns `none` (no answer). -/
def dijRun (A : FST) : Nat → DijSt → Option W
  | 0, _ => none
  | fuel + 1, st =>
    match popMinD st.q with
    | none => some ⊤
    | some (e, rest) =>
      match e.st with
      | none => some e.cost
      | some s =>
        let explored1 := if s ∈ st.explored then st.explored else st.explored ++ [s]
        let fpush :=
          if s ∈ A.finalstates then
            ([DEntry.mk (e.cost + finalweight A s) st.cntr none], st.cntr + 1)
          else ([], st.cntr)
        let tg := (allTargetsCheapest A s).filter (fun p => decide (p.1 ∉ explored1))
        let pushed := tg.enum.map (fun q =>
          DEntry.mk (q.2.2 + e.cost) (fpush.2 + q.1) (some q.2.1))
        dijRun A fuel { explored := explored1, q := rest ++ fpush.1 ++ pushed,
                        cntr := fpush.2 + tg.length }

/-- `FST.dijkstra(state, all_targets_cheapest)`: cheapest cost from `state`
to any final state; the heap starts with `(0.0, 0, state)` and the start
state is pre-explored. -/
def dijkstraFuel (A : FST) (s : Nat) (fuel : Nat) : Option W :=
  dijRun A fuel { explored := [s], q := [DEntry.mk 0 0 (some s)], cntr := 1 }

/-- `FST.dijkstra_all()`: every state's dijkstra potential; `none` when any
single run exhausts its fuel. -/
def dijkstraAll (A : FST) (fuel : Nat) : Option (List (Nat × W)) :=
  A.states.foldr (fun s acc =>
    match acc, dijkstraFuel A s fuel with
    | some l, some w => some ((s, w) :: l)
    | _, _ => none) (some [])

/-- The mutable state of Tarjan's algorithm (src/pyfoma.py lines 503-544):
the running index, the discovery indices, the lowlinks, the stack `S` (list
head = Python's right end, where it pushes and pops), the `onstack` set and
the accumulated components. -/
structure TarjanSt where
  index : Nat
  indices : List (Nat × Nat)
  lowlink : List (Nat × Nat)
  S : List Nat
  onstack : List Nat
  sccs : List (List Nat)
deriving DecidableEq

/-- Pop stack elements down to and including `v`, returning the popped
component and the remaining stack (the `while True` loop of
`_strongconnect`). -/
def popSccFrom (v : Nat) : List Nat → List Nat × List Nat
  | [] => ([], [])
  | x :: rest =>
    if x = v then ([x], rest)
    else
      let p := popSccFrom v rest
      (x :: p.1, p.2)

/-- The recursion of `_strongconnect`, with explicit fuel standing for the
Python call stack.  `Sum.inl v` performs one visit of `v`; `Sum.inr (ts, v)`
runs the target loop of `v` over the remaining target list `ts`. -/
def tarjanGo (A : FST) : Nat → Sum Nat (List Nat × Nat) → TarjanSt → Option TarjanSt
  | 0, _, _ => none
  | fuel + 1, Sum.inl v, ts =>
    let ts1 : TarjanSt :=
      { index := ts.index + 1,
        indices := aset ts.indices v ts.index,
        lowlink := aset ts.lowlink v ts.index,
        S := v :: ts.S,
        onstack := if v ∈ ts.onstack then ts.onstack else v :: ts.onstack,
        sccs := ts.sccs }
    match tarjanGo A fuel (Sum.inr (allTargetsSet A v, v)) ts1 with
    | none => none
    | some ts2 =>
      if (alookup ts2.lowlink v).getD 0 = (alookup ts2.indices v).getD 0 then
        let p := popSccFrom v ts2.S
        some { ts2 with
                 S := p.2,
                 onstack := ts2.onstack.filter (fun x => decide (x ∉ p.1)),
                 sccs := p.1 :: ts2.sccs }
      else some ts2
  | _ + 1, Sum.inr ([], _), ts => some ts
  | fuel + 1, Sum.inr (t :: rest, v), ts =>
    match alookup ts.indices t with
    | none =>
      match tarjanGo A fuel (Sum.inl t) ts with
      | none => none
      | some ts' =>
        let lv := min ((alookup ts'.lowlink v).getD 0) ((alookup ts'.lowlink t).getD 0)
        tarjanGo A fuel (Sum.inr (rest, v)) { ts' with lowlink := aset ts'.lowlink v lv }
    | some it =>
      if t ∈ ts.onstack then
        let lv := min ((alookup ts.lowlink v).getD 0) it
        tarjanGo A fuel (Sum.inr (rest, v)) { ts with lowlink := aset ts.lowlink v lv }
      else tarjanGo A fuel (Sum.inr (rest, v)) ts

/-- `FST.scc()`: run `_strongconnect` from every not-yet-indexed state and
collect the components. -/
def sccFuel (A : FST) (fuel : Nat) : Option (List (List Nat)) :=
  (A.states.foldl (fun acc s =>
    match acc with
    | none => none
    | some ts =>
      if (alookup ts.indices s).isSome then some ts
      else tarjanGo A fuel (Sum.inl s) ts)
    (some { index := 0, indices := [], lowlink := [], S := [], onstack := [],
            sccs := [] })).map (fun ts => ts.sccs)

/-- The potential function read off `dijkstra_all`'s dictionary. -/
def pushPhi (potentials : List (Nat × W)) (s : Nat) : W :=
  (alookup potentials s).getD ⊤

/-- The first pass of `push_weights` on arcs (src/pyfoma.py lines 549-550):
every transition of every state in `self.states` gets
`weight + (phi(target) - phi(source))`. -/
def phase1Delta (A : FST) (phi : Nat → W) : List (Nat × TDict) :=
  A.delta.map (fun sd =>
    if sd.1 ∈ A.states then
      (sd.1, sd.2.map (fun lt => (lt.1, lt.2.map (fun t =>
        Trs.mk t.targetstate t.label
          (t.weight + wsub (phi t.targetstate) (phi sd.1))))))
    else sd)

/-- The first pass of `push_weights` on final weights (lines 551-552). -/
def phase1Fw (A : FST) (phi : Nat → W) : List (Nat × W) :=
  A.finalstates.foldl
    (fun fw f => aset fw f (wsub ((alookup fw f).getD ⊤) (phi f))) A.fw

/-- The residual pass on arcs (lines 556-559): arcs leaving the initial
state's component gain the residual. -/
def phase2Delta (d : List (Nat × TDict)) (M : List Nat) (r : W) :
    List (Nat × TDict) :=
  d.map (fun sd =>
    if sd.1 ∈ M then
      (sd.1, sd.2.map (fun lt => (lt.1, lt.2.map (fun t =>
        if t.targetstate ∈ M then t
        else Trs.mk t.targetstate t.label (t.weight + r)))))
    else sd)

/-- The residual pass on final weights (lines 560-561): final states inside
the initial state's component gain the residual. -/
def phase2Fw (fw : List (Nat × W)) (A : FST) (M : List Nat) (r : W) :
    List (Nat × W) :=
  A.finalstates.foldl
    (fun acc f =>
      if f ∈ M then aset acc f (((alookup acc f).getD ⊤) + r) else acc) fw

/-- Embedding of `FST.push_weights` (src/pyfoma.py lines 546-562): compute
the dijkstra potentials, shift every arc and final weight by them, and when
the initial state's residual potential is nonzero distribute it over the
exits and internal finals of the initial state's strongly connected
component.  `none` when a fuel-bounded subcomputation fails to finish. -/
def pushWeightsFuel (A : FST) (fuel : Nat) : Option FST :=
  match dijkstraAll A fuel with
  | none => none
  | some potentials =>
    let phi := pushPhi potentials
    let d1 := phase1Delta A phi
    let f1 := phase1Fw A phi
    let r := phi A.initialstate
    if r ≠ 0 then
      match sccFuel A fuel with
      | none => none
      | some comps =>
        match comps.find? (fun c => decide (A.initialstate ∈ c)) with
        | none => none
        | some M =>
          some { A with delta := phase2Delta d1 M r, fw := phase2Fw f1 A M r }
    else some { A with delta := d1, fw := f1 }

/-- A reference to one concrete transition: source state, dictionary key and
position inside the label's bucket.  `push_weights` transforms weights in
place, so a path in the input FST denotes the corresponding path in the
output by the same references. -/
structure Step where
  src : Nat
  lbl : Label
  idx : Nat
deriving DecidableEq

/-- The transition a step refers to. -/
def stepTrans (A : FST) (stp : Step) : Option Trs :=
  (alookup (deltaOf A stp.src) stp.lbl).bind (fun b => b.get? stp.idx)

/-- A valid path from `s` to `t` along the given steps. -/
def IsPath (A : FST) : Nat → List Step → Nat → Prop
  | s, [], t => s = t
  | s, stp :: rest, t =>
    stp.src = s ∧ ∃ tr, stepTrans A stp = some tr ∧ IsPath A tr.targetstate rest t

/-- The accumulated arc cost of a path (infinite when a step is dangling). -/
def pathCost (A : FST) : List Step → W
  | [] => 0
  | stp :: rest => (((stepTrans A stp).map Trs.weight).getD ⊤) + pathCost A rest

/-- The data-model closure invariant of the source (§3 of its documentation):
the initial state is owned and every transition's source and target state
belong to the FST's state set. -/
def Closed (A : FST) : Prop :=
  A.initialstate ∈ A.states ∧
  ∀ sd ∈ A.delta, sd.1 ∈ A.states ∧ ∀ lt ∈ sd.2, ∀ t ∈ lt.2, t.targetstate ∈ A.states

instance (A : FST) : Decidable (Closed A) := by
  unfold Closed; infer_instance

/-- A two-state cycle through the initial state with a final state on the
cycle: the smallest FST exercising the residual branch of `push_weights`. -/
def Acyc : FST :=
  { states := [0, 1], initialstate := 0, finalstates := [1],
    fw := [(1, 0)],
    delta := [(0, [(["a"], [Trs.mk 1 ["a"] 1])]),
              (1, [(["b"], [Trs.mk 0 ["b"] 1])])],
    alphabet := ["a", "b"] }

/- ------------------------------------------------------------------ -/
/- The regex compiler's VARIABLE and OPTIONAL handlers                 -/
/- ------------------------------------------------------------------ -/

/-- A fresh state id for an FST (source: fresh `State()` allocation). -/
def freshId (A : FST) : Nat := A.states.foldr max 0 + 1

/-- Embedding of `FST.optional` (src/pyfoma.py lines 764-777), an IN-PLACE
mutator: when the initial state is already final the object is returned
unchanged; otherwise a fresh state mirroring the initial state's outgoing
transitions becomes the new initial state and is made final with weight 0. -/
def optionalF (A : FST) : FST :=
  if A.initialstate ∈ A.finalstates then A
  else
    let newinit := freshId A
    let d0 := (transList A A.initialstate).foldl
      (fun d lt => addTransitionD d lt.2.targetstate lt.1 lt.2.weight) []
    { states := A.states ++ [newinit], initialstate := newinit,
      finalstates := A.finalstates ++ [newinit],
      fw := aset A.fw newinit 0,
      delta := aset A.delta newinit d0,
      alphabet := A.alphabet }

/-- The compiler tokens relevant to the claim about `regexparse.compile`'s
variable handling: `$x` (push `defined[x]`), postfix `?` (mutate the top of
the stack in place), and a literal symbol (allocate a fresh FST). -/
inductive RToken where
  | VARIABLE : String → RToken
  | OPTIONAL : RToken
  | SYMBOL : String → RToken
deriving DecidableEq

/-- The compiler's object heap: Python object identities (references) mapped
to the FST objects they denote.  `defined` maps variable names to references
into this heap. -/
abbrev Heap := List (Nat × FST)

/-- The compiler's mutable state: the heap and the operand stack (a stack of
argument lists of references; the head of our list is Python's `stack[-1]`). -/
structure CompSt where
  heap : Heap
  stack : List (List Nat)
deriving DecidableEq

/-- A fresh heap reference. -/
def freshRef (h : Heap) : Nat := (h.map Prod.fst).foldr max 0 + 1

/-- One step of the postfix evaluator of `regexparse.compile` restricted to
the three handlers above, faithful to src/pyfoma.py lines 117-118 (OPTIONAL:
`_peek(stack).optional()` mutates the object on top IN PLACE), 140-141
(SYMBOL: push a freshly allocated FST) and 144-147 (VARIABLE: push
`self.defined[value]` itself — the reference, NOT a copy).  `none` models a
raised syntax error. -/
def compStep (defined : List (String × Nat)) (st : CompSt) (tok : RToken) :
    Option CompSt :=
  match tok with
  | RToken.SYMBOL v =>
    let r := freshRef st.heap
    some { heap := st.heap ++ [(r, fstFromLabel [v] 0)], stack := [r] :: st.stack }
  | RToken.VARIABLE v =>
    match alookup defined v with
    | none => none
    | some r => some { heap := st.heap, stack := [r] :: st.stack }
  | RToken.OPTIONAL =>
    match st.stack with
    | [] => none
    | args :: _ =>
      match args with
      | [] => none
      | r :: _ =>
        match alookup st.heap r with
        | none => none
        | some A => some { heap := aset st.heap r (optionalF A), stack := st.stack }

/-- Run the evaluator over a parsed token list. -/
def compRun (defined : List (String × Nat)) : List RToken → CompSt → Option CompSt
  | [], st => some st
  | t :: ts, st =>
    match compStep defined st t with
    | none => none
    | some st' => compRun defined ts st'

/- ------------------------------------------------------------------ -/
/- Invariants of Tarjan's algorithm                                    -/
/- ------------------------------------------------------------------ -/

/-- A state already emitted into some collected component. -/
def TEmitted (ts : TarjanSt) (x : Nat) : Prop := ∃ c ∈ ts.sccs, x ∈ c

/-- Discovery index of a state (0 if not yet discovered). -/
def idxv (ts : TarjanSt) (x : Nat) : Nat := (alookup ts.indices x).getD 0

/-- Lowlink of a state (0 if not yet discovered). -/
def lowv (ts : TarjanSt) (x : Nat) : Nat := (alookup ts.lowlink x).getD 0

/-- The well-formedness invariant of Tarjan's algorithm state.  `G` lists
the "gray" states: those whose target loop has not yet finished.  The
invariant captures, at any instant: the stack bookkeeping, the injective
discovery numbering, the partition of discovered states into stacked and
emitted, the stack's index ordering and mutual-reachability structure, the
lowlink witnesses, and the soundness and maximality of every emitted
component. -/
structure TWF (A : FST) (G : List Nat) (ts : TarjanSt) : Prop where
  nodupS : ts.S.Nodup
  onsync : ∀ x, x ∈ ts.onstack ↔ x ∈ ts.S
  stackIdx : ∀ x ∈ ts.S, (alookup ts.indices x).isSome
  idxBound : ∀ x i, alookup ts.indices x = some i → i < ts.index
  idxInj : ∀ x y i, alookup ts.indices x = some i →
    alookup ts.indices y = some i → x = y
  sccIdx : ∀ c ∈ ts.sccs, ∀ x ∈ c, (alookup ts.indices x).isSome
  stackNotEm : ∀ x ∈ ts.S, ¬ TEmitted ts x
  idxCases : ∀ x, (alookup ts.indices x).isSome → x ∈ ts.S ∨ TEmitted ts x
  orderS : List.Chain' (fun a b => idxv ts b < idxv ts a) ts.S
  reachS : ∀ x ∈ ts.S, ∀ y ∈ ts.S, idxv ts x ≤ idxv ts y → Reach A x y
  lowWit : ∀ x ∈ ts.S, lowv ts x ≤ idxv ts x ∧
    ∃ y ∈ ts.S, idxv ts y = lowv ts x ∧ Reach A x y
  emClosed : ∀ c ∈ ts.sccs, ∀ x ∈ c, ∀ t ∈ targetsOf A x, TEmitted ts t
  sccPair : ∀ c ∈ ts.sccs, ∀ x ∈ c, ∀ y ∈ c, SCCeq A x y
  sccMax : ∀ c ∈ ts.sccs, ∀ x ∈ c, ∀ z, SCCeq A x z → z ∈ c
  blackStrict : ∀ x ∈ ts.S, x ∉ G → lowv ts x < idxv ts x
  blackTarg : ∀ x ∈ ts.S, x ∉ G → ∀ t ∈ targetsOf A x,
    (alookup ts.indices t).isSome ∧ (t ∈ ts.S → lowv ts x ≤ idxv ts t)

/-- The frame facts shared by one visit or one target loop: the counter
only grows, discovery indices and the old stack and components persist,
and states pushed meanwhile were undiscovered before. -/
structure TFrame (ts out : TarjanSt) : Prop where
  ctrMono : ts.index ≤ out.index
  idxMono : ∀ x i, alookup ts.indices x = some i → alookup out.indices x = some i
  idxNew : ∀ x i, alookup out.indices x = some i →
    alookup ts.indices x = some i ∨ ts.index ≤ i
  sccExt : ∃ new, out.sccs = new ++ ts.sccs
  stackExt : ∃ pushed, out.S = pushed ++ ts.S ∧
    ∀ x ∈ pushed, alookup ts.indices x = none

/-- Postcondition of one full visit (`Sum.inl v`) of an undiscovered `v`
relative to the gray list `G` of its strict ancestors. -/
structure VisitPost (A : FST) (G : List Nat) (ts : TarjanSt) (v : Nat)
    (out : TarjanSt) : Prop where
  wf : TWF A G out
  frame : TFrame ts out
  lowFrame : ∀ x, (alookup ts.indices x).isSome →
    alookup out.lowlink x = alookup ts.lowlink x
  vIdx : alookup out.indices v = some ts.index
  branch : (out.S = ts.S ∧ TEmitted out v ∧ lowv out v = ts.index) ∨
    (∃ pushed, out.S = pushed ++ v :: ts.S ∧
      (∀ x ∈ pushed, alookup ts.indices x = none) ∧
      (∀ x ∈ pushed, lowv out v ≤ lowv out x) ∧
      lowv out v < idxv out v)

/-- Postcondition of the target loop of `v` (`Sum.inr (targs, v)`), where
`n0` is `v`'s discovery index. -/
structure LoopPost (A : FST) (G : List Nat) (ts : TarjanSt) (v n0 : Nat)
    (out : TarjanSt) : Prop where
  wf : TWF A (v :: G) out
  frame : TFrame ts out
  lowFrame : ∀ x, (alookup ts.indices x).isSome → x ≠ v →
    alookup out.lowlink x = alookup ts.lowlink x
  vIn : v ∈ out.S
  vIdxKeep : alookup out.indices v = some n0
  targDone : ∀ t ∈ allTargetsSet A v, (alookup out.indices t).isSome ∧
    (t ∈ out.S → lowv out v ≤ idxv out t)
  lowAcc : ∀ x ∈ out.S, n0 ≤ idxv out x → lowv out v ≤ lowv out x

/- ================================================================== -/
/- Theorems                                                            -/
/- ================================================================== -/

/-- Double label reversal restores a state dictionary. -/
theorem invertDict_invertDict (d : TDict) : invertDict (invertDict d) = d := by
  induction d with
  | nil => rfl
  | cons hd tl ih =>
    obtain ⟨l, b⟩ := hd
    simp only [invertDict, List.map_cons, List.reverse_reverse] at ih ⊢
    exact congrArg _ ih

/-- Double label reversal restores the whole delta field. -/
theorem invertDelta_invertDelta (ds : List (Nat × TDict)) :
    (ds.map (fun sd => (sd.1, invertDict sd.2))).map
      (fun sd => (sd.1, invertDict sd.2)) = ds := by
  induction ds with
  | nil => rfl
  | cons hd tl ih =>
    obtain ⟨s, d⟩ := hd
    simp only [List.map_cons, invertDict_invertDict] at ih ⊢
    exact congrArg _ ih

/-- C8: inversion is an involution — `invert(invert(A))` restores every
state's transition mapping (and every other field) exactly, because `invert`
only rekeys each dictionary by tuple reversal. -/
theorem C8_invert_involution (A : FST) : invert (invert A) = A := by
  cases A with
  | mk st init fin fw delta alph =>
    simp only [invert, invertDelta_invertDelta]

/-- `addTrans` touches only the transition dictionaries. -/
theorem core_addTrans (A : FST) (s o : Nat) (l : Label) (w : W) :
    core (addTrans A s o l w) = core A := rfl

/-- The wildcard-substitution inner loop touches only transitions. -/
theorem core_expandSyms (s : Nat) (l : Label) (t : Trs) (syms : List Sym)
    (acc : FST) : core (expandSyms s l t acc syms) = core acc := by
  induction syms generalizing acc with
  | nil => rfl
  | cons hd tl ih =>
    simp only [expandSyms, List.foldl_cons] at ih ⊢
    exact (ih _).trans rfl

/-- The wildcard-expansion step touches only transitions. -/
theorem core_expandStep (syms : List Sym) (acc : FST) (x : Nat × Label × Trs) :
    core (expandStep syms acc x) = core acc := by
  unfold expandStep
  split
  · exact core_expandSyms _ _ _ _ _
  · rfl

/-- The wildcard-expansion loop touches only transitions. -/
theorem core_foldl_expandStep (syms : List Sym) (l : List (Nat × Label × Trs))
    (acc : FST) : core (l.foldl (expandStep syms) acc) = core acc := by
  induction l generalizing acc with
  | nil => rfl
  | cons hd tl ih => exact (ih _).trans (core_expandStep syms acc hd)

/-- The whole wildcard expansion touches only transitions. -/
theorem core_expandWild (A : FST) (syms : List Sym) :
    core (expandWild A syms) = core A :=
  core_foldl_expandStep syms (allTransitions A) A

/-- The reversal step touches only transitions. -/
theorem core_revStep (A acc : FST) (x : Nat × Label × Trs) :
    core (revStep A acc x) = core acc := by
  unfold revStep
  split <;> rfl

/-- The reversal loop touches only transitions. -/
theorem core_foldl_revStep (A : FST) (l : List (Nat × Label × Trs)) (acc : FST) :
    core (l.foldl (revStep A) acc) = core acc := by
  induction l generalizing acc with
  | nil => rfl
  | cons hd tl ih => exact (ih _).trans (core_revStep A acc hd)

/-- The final-state list of `reverse`'s result, read off the construction. -/
theorem reverseF_finalstates (A : FST) :
    (reverseF A).finalstates =
      (if A.initialstate ∈ A.finalstates then [revMap A.initialstate] ++ [0]
       else [revMap A.initialstate]) := by
  unfold reverseF
  exact congrArg (fun c => c.2.2.1) (core_foldl_revStep A _ _)

/-- C5 counterexample: on the one-state epsilon acceptor, whose initial state
is final, `reverse` marks BOTH the image of the old initial and the fresh
initial as final — the result does not have the image of the old initial as
its sole final state. -/
theorem C5_counterexample :
    (reverseF (fstFromLabel [""] 0)).finalstates.toFinset ≠
      {revMap (fstFromLabel [""] 0).initialstate} := by decide

/-- C5 (amended): when A's initial state is NOT final, `reverse(A)` has
exactly one final state, the image of A's old initial; when it is final, the
fresh initial state is additionally final. -/
theorem C5_reverse_single_final (A : FST)
    (h : A.initialstate ∉ A.finalstates) :
    (reverseF A).finalstates.toFinset = {revMap A.initialstate} := by
  rw [reverseF_finalstates, if_neg h]
  rfl

/-- Witness for C5 at the one-arc acceptor of `a`. -/
theorem C5_witness :
    (fstFromLabel ["a"] 0).initialstate ∉ (fstFromLabel ["a"] 0).finalstates ∧
    (reverseF (fstFromLabel ["a"] 0)).finalstates.toFinset =
      {revMap (fstFromLabel ["a"] 0).initialstate} :=
  ⟨by decide, C5_reverse_single_final _ (by decide)⟩

/-- Key lemma: after `aset d k v`, looking up `k` returns `v`. -/
theorem alookup_aset_self {α β : Type} [DecidableEq α]
    (d : List (α × β)) (k : α) (v : β) : alookup (aset d k v) k = some v := by
  induction d with
  | nil => simp [aset, alookup]
  | cons hd tl ih =>
    obtain ⟨k', v'⟩ := hd
    by_cases h : k' = k
    · simp [aset, h, alookup]
    · simp [aset, h, alookup, ih]

/-- Helper: two consecutive `add_transition` calls with the same arguments
grow the count of that triple in its label bucket by exactly two. -/
theorem countTriple_addTwice (d : TDict) (other : Nat) (label : Label) (w : W) :
    countTriple (addTransitionD (addTransitionD d other label w) other label w)
      other label w = countTriple d other label w + 2 := by
  unfold countTriple addTransitionD
  rw [alookup_aset_self, alookup_aset_self]
  simp [List.count_append]

/-- Keys of `aset d k v` are the keys of `d`, possibly with `k` appended. -/
theorem mem_keys_aset {α β : Type} [DecidableEq α] (d : List (α × β)) (k k' : α)
    (v : β) :
    k' ∈ (aset d k v).map Prod.fst → k' ∈ d.map Prod.fst ∨ k' = k := by
  induction d with
  | nil =>
    intro h
    simp only [aset, List.map_cons, List.map_nil, List.mem_singleton] at h
    exact Or.inr h
  | cons hd tl ih =>
    obtain ⟨k0, v0⟩ := hd
    intro h
    by_cases hk : k0 = k
    · have he : aset ((k0, v0) :: tl) k v = (k, v) :: tl := by simp [aset, hk]
      rw [he] at h
      simp only [List.map_cons, List.mem_cons] at h
      rcases h with h1 | h1
      · exact Or.inr h1
      · exact Or.inl (by simp [h1])
    · have he : aset ((k0, v0) :: tl) k v = (k0, v0) :: aset tl k v := by
        simp [aset, hk]
      rw [he] at h
      simp only [List.map_cons, List.mem_cons] at h
      rcases h with h1 | h1
      · exact Or.inl (by simp [h1])
      · rcases ih h1 with h2 | h2
        · exact Or.inl (by simp [h2])
        · exact Or.inr h2

/-- Keys surviving a Python dict comprehension come from the key stream. -/
theorem mem_keys_pyDictComp_aux (entries : PDict) (d0 : PDict) (k : PyLabel) :
    k ∈ (entries.foldl (fun d kv => aset d kv.1 kv.2) d0).map Prod.fst →
      k ∈ d0.map Prod.fst ∨ k ∈ entries.map Prod.fst := by
  induction entries generalizing d0 with
  | nil => exact fun h => Or.inl h
  | cons hd tl ih =>
    intro h
    simp only [List.foldl_cons] at h
    rcases ih _ h with h' | h'
    · rcases mem_keys_aset _ _ _ _ h' with h'' | h''
      · exact Or.inl h''
      · exact Or.inr (by simp [h''])
    · exact Or.inr (List.mem_cons_of_mem _ h')

/-- Looking up in a delta map whose dictionaries were rewritten state-wise. -/
theorem alookup_map_snd {α β γ : Type} [DecidableEq α] (d : List (α × β))
    (g : β → γ) (key : α) :
    alookup (d.map (fun sd => (sd.1, g sd.2))) key = (alookup d key).map g := by
  induction d with
  | nil => rfl
  | cons hd tl ih =>
    obtain ⟨k0, v0⟩ := hd
    by_cases hk : k0 = key
    · simp [alookup, hk]
    · simp [alookup, hk, ih]

/-- C7 counterexample: projecting the transducer for `a:b` onto its last tape
turns the label `("a","b")` into the bare string `"b"`, which is not the
1-tuple `("b",)` the claim asserts. -/
theorem C7_counterexample :
    (projectDict (deltaOf (fstFromLabel ["a", "b"] 0) 0) (-1)).map Prod.fst =
      [PyLabel.str "b"] ∧
    PyLabel.str "b" ≠ PyLabel.tup ["b"] := by decide

/-- C7 (amended): after `project(dim)` every transition label is the BARE
symbol at tape `dim` of some original label (with `dim = -1` selecting the
last tape) — a string, not a fixed-length tuple of symbols. -/
theorem C7_project_labels (A : FST) (dim : Int) (s : Nat) (k : PyLabel)
    (h : k ∈ (pdeltaOf (project A dim) s).map Prod.fst) :
    ∃ l ∈ (deltaOf A s).map Prod.fst, k = PyLabel.str (pyIndex l dim) := by
  have hd : pdeltaOf (project A dim) s = projectDict (deltaOf A s) dim := by
    show (alookup (A.delta.map (fun sd => (sd.1, projectDict sd.2 dim))) s).getD []
        = projectDict ((alookup A.delta s).getD []) dim
    induction A.delta with
    | nil => rfl
    | cons hd0 tl ih =>
      obtain ⟨k0, d0⟩ := hd0
      by_cases hk : k0 = s
      · simp [alookup, hk]
      · simp [alookup, hk, ih]
  rw [hd] at h
  unfold projectDict pyDictComp at h
  rcases mem_keys_pyDictComp_aux _ _ _ h with h' | h'
  · simp at h'
  · simp only [List.map_map, List.mem_map] at h'
    obtain ⟨lt, hmem, hk⟩ := h'
    exact ⟨lt.1, List.mem_map_of_mem _ hmem, hk.symm⟩

/-- Witness for C7 at the `a:b` transducer and `dim = -1`. -/
theorem C7_witness :
    PyLabel.str "b" ∈
      (pdeltaOf (project (fstFromLabel ["a", "b"] 0) (-1)) 0).map Prod.fst ∧
    ∃ l ∈ (deltaOf (fstFromLabel ["a", "b"] 0) 0).map Prod.fst,
      PyLabel.str "b" = PyLabel.str (pyIndex l (-1)) :=
  ⟨by decide, C7_project_labels _ _ _ _ (by decide)⟩

/-- C2 counterexample: for `self` the wildcard acceptor (alphabet contains
`.`) and `other` the acceptor of `a`, the harmonization pass inside every
decorated binary operation expands `self`'s wildcard arcs IN PLACE: the
operand object is not identical before and after the call. -/
theorem C2_counterexample :
    harmonizedSelf (fstFromLabel ["."] 0) (fstFromLabel ["a"] 0) ≠
      fstFromLabel ["."] 0 := by decide

/-- C2 (amended): binary operations never mutate the second operand (the
wrapper copies it before expansion), and never change the first operand's
state set, initial state, final states, final weights or alphabet; but the
first operand's transition dictionaries are expanded in place when its
alphabet contains `.` and the operands' non-wildcard alphabets differ —
only when that wildcard condition fails is the first operand left intact. -/
theorem C2_operand_mutation (A B : FST) :
    (harmonizedSelf A B).states = A.states ∧
    (harmonizedSelf A B).initialstate = A.initialstate ∧
    (harmonizedSelf A B).finalstates = A.finalstates ∧
    (harmonizedSelf A B).fw = A.fw ∧
    (harmonizedSelf A B).alphabet = A.alphabet ∧
    (¬ harmCond A B → harmonizedSelf A B = A) := by
  have hc : core (harmonizedSelf A B) = core A := by
    unfold harmonizedSelf
    split
    · exact core_expandWild _ _
    · rfl
  refine ⟨congrArg (fun c => c.1) hc, congrArg (fun c => c.2.1) hc,
    congrArg (fun c => c.2.2.1) hc, congrArg (fun c => c.2.2.2.1) hc,
    congrArg (fun c => c.2.2.2.2) hc, fun h => ?_⟩
  unfold harmonizedSelf
  exact if_neg h

/-- Witness for C2 at two wildcard-free operands. -/
theorem C2_witness :
    harmonizedSelf (fstFromLabel ["a"] 0) (fstFromLabel ["b"] 0) =
      fstFromLabel ["a"] 0 :=
  (C2_operand_mutation (fstFromLabel ["a"] 0) (fstFromLabel ["b"] 0)).2.2.2.2.2
    (by decide)

/-- A successful association-list lookup locates a member pair. -/
theorem alookup_mem {α β : Type} [DecidableEq α] (d : List (α × β)) (k : α)
    (v : β) : alookup d k = some v → (k, v) ∈ d := by
  induction d with
  | nil => intro h; simp [alookup] at h
  | cons hd tl ih =>
    obtain ⟨k0, v0⟩ := hd
    intro h
    by_cases hk : k0 = k
    · rw [alookup, if_pos hk] at h
      obtain rfl : v0 = v := by injection h
      simp [← hk]
    · rw [alookup, if_neg hk] at h
      exact List.mem_cons_of_mem _ (ih h)

/-- Every transition enumerated for a state carries a weight from the FST's
delta field. -/
theorem transList_weight_ne_top (A : FST)
    (hF : ∀ sd ∈ A.delta, ∀ lt ∈ sd.2, ∀ t ∈ lt.2, t.weight ≠ ⊤) (s : Nat) :
    ∀ p ∈ transList A s, p.2.weight ≠ ⊤ := by
  intro p hp
  unfold transList deltaOf at hp
  cases hal : alookup A.delta s with
  | none => rw [hal] at hp; simp at hp
  | some d =>
    rw [hal] at hp
    simp only [Option.getD_some, List.mem_flatMap, List.mem_map] at hp
    obtain ⟨lt, hlt, t, ht, rfl⟩ := hp
    exact hF (s, d) (alookup_mem _ _ _ hal) lt hlt t ht

/-- The popped entry is a member of the heap. -/
theorem popMin_mem (l : List WEntry) (e : WEntry) (rest : List WEntry) :
    popMin l = some (e, rest) → e ∈ l := by
  induction l generalizing e rest with
  | nil => intro h; simp [popMin] at h
  | cons hd tl ih =>
    intro h
    unfold popMin at h
    split at h
    · simp only [Option.some.injEq, Prod.mk.injEq] at h
      obtain ⟨rfl, rfl⟩ := h
      simp
    · rename_i m rest' hm
      split at h
      · simp only [Option.some.injEq, Prod.mk.injEq] at h
        obtain ⟨rfl, rfl⟩ := h
        exact List.mem_cons_of_mem _ (ih _ _ hm)
      · simp only [Option.some.injEq, Prod.mk.injEq] at h
        obtain ⟨rfl, rfl⟩ := h
        simp

/-- The remaining heap after a pop is contained in the original heap. -/
theorem popMin_rest_mem (l : List WEntry) (e : WEntry) (rest : List WEntry) :
    popMin l = some (e, rest) → ∀ x ∈ rest, x ∈ l := by
  induction l generalizing e rest with
  | nil => intro h; simp [popMin] at h
  | cons hd tl ih =>
    intro h x hx
    unfold popMin at h
    split at h
    · simp only [Option.some.injEq, Prod.mk.injEq] at h
      obtain ⟨rfl, rfl⟩ := h
      simp at hx
    · rename_i m rest' hm
      split at h
      · simp only [Option.some.injEq, Prod.mk.injEq] at h
        obtain ⟨rfl, rfl⟩ := h
        rcases List.mem_cons.mp hx with h1 | h1
        · simp [h1]
        · exact List.mem_cons_of_mem _ (ih _ _ hm x h1)
      · simp only [Option.some.injEq, Prod.mk.injEq] at h
        obtain ⟨rfl, rfl⟩ := h
        exact List.mem_cons_of_mem _ hx

/-- A pair drawn from `enum` has its payload in the underlying list. -/
theorem mem_of_mem_enumFrom {α : Type} (l : List α) (n : Nat) (p : Nat × α) :
    p ∈ l.enumFrom n → p.2 ∈ l := by
  induction l generalizing n with
  | nil => intro h; simp [List.enumFrom] at h
  | cons hd tl ih =>
    intro h
    rcases List.mem_cons.mp h with h1 | h1
    · simp [h1]
    · exact List.mem_cons_of_mem _ (ih _ h1)

/-- One `words_cheapest` iteration keeps all heap costs and yielded costs
finite, provided the FST's weights are finite. -/
theorem wcStep_finite (A : FST) (hF : FiniteWeights A) (st st' : WCState)
    (hQ : ∀ e ∈ st.Q, e.cost ≠ ⊤) (hY : ∀ y ∈ st.yields, y.1 ≠ ⊤)
    (h : wcStep A st = some st') :
    (∀ e ∈ st'.Q, e.cost ≠ ⊤) ∧ (∀ y ∈ st'.yields, y.1 ≠ ⊤) := by
  unfold wcStep at h
  split at h
  · simp at h
  · rename_i e rest hpop
    have he : e.cost ≠ ⊤ := hQ e (popMin_mem _ _ _ hpop)
    have hrest : ∀ x ∈ rest, x.cost ≠ ⊤ :=
      fun x hx => hQ x (popMin_rest_mem _ _ _ hpop x hx)
    split at h
    · simp only [Option.some.injEq] at h
      subst h
      refine ⟨hrest, fun y hy => ?_⟩
      rcases List.mem_append.mp hy with h1 | h1
      · exact hY y h1
      · simp only [List.mem_singleton] at h1; rw [h1]; exact he
    · rename_i s hst
      simp only [Option.some.injEq] at h
      subst h
      refine ⟨fun x hx => ?_, hY⟩
      simp only [List.append_assoc, List.mem_append] at hx
      rcases hx with h1 | h1 | h1
      · exact hrest x h1
      · by_cases hs : s ∈ A.finalstates
        · simp only [if_pos hs, List.mem_singleton] at h1
          rw [h1]
          exact WithTop.add_ne_top.mpr ⟨he, hF.2 s hs⟩
        · simp [if_neg hs] at h1
      · simp only [List.mem_map] at h1
        obtain ⟨q, hq, rfl⟩ := h1
        have hw : q.2.2.weight ≠ ⊤ :=
          transList_weight_ne_top A hF.1 s q.2
            (mem_of_mem_enumFrom _ _ _ hq)
        exact WithTop.add_ne_top.mpr ⟨he, hw⟩

/-- The `words_cheapest` loop preserves finiteness of all yielded costs. -/
theorem wcRun_finite (A : FST) (hF : FiniteWeights A) :
    ∀ (fuel : Nat) (st : WCState), (∀ e ∈ st.Q, e.cost ≠ ⊤) →
      (∀ y ∈ st.yields, y.1 ≠ ⊤) → ∀ y ∈ (wcRun A fuel st).yields, y.1 ≠ ⊤ := by
  intro fuel
  induction fuel with
  | zero => intro st _ hY; exact hY
  | succ n ih =>
    intro st hQ hY
    unfold wcRun
    cases hstep : wcStep A st with
    | none => exact hY
    | some st' =>
      obtain ⟨hQ', hY'⟩ := wcStep_finite A hF st st' hQ hY hstep
      exact ih st' hQ' hY'

/-- C4 counterexample: on the FST `0 —a/∞→ 1(final/0)` — exactly the arc
shape `difference` routes through its infinite-weight sink transitions —
`words_cheapest` yields the pair `(∞, [("a",)])`: a pair of infinite cost IS
emitted. -/
theorem C4_counterexample :
    ((⊤ : W), [["a"]]) ∈ wordsCheapest infArcFST 3 := by decide

/-- C4 (amended): for every FST whose transition weights and final weights
are all finite, no pair yielded by `words_cheapest` ever has cost infinity
(every heap entry's cost stays a finite sum of finite weights). -/
theorem C4_words_cheapest_finite (A : FST) (fuel : Nat)
    (hF : FiniteWeights A) : ∀ y ∈ wordsCheapest A fuel, y.1 ≠ ⊤ := by
  have h0 : ∀ e ∈ (wcInit A).Q, e.cost ≠ ⊤ := by
    intro e he
    simp only [wcInit, List.mem_singleton] at he
    rw [he]
    exact WithTop.zero_ne_top
  exact wcRun_finite A hF fuel (wcInit A) h0 (by simp [wcInit])

/-- Witness for C4 at the one-arc acceptor of `a` with four loop steps. -/
theorem C4_witness :
    FiniteWeights (fstFromLabel ["a"] 0) ∧
    ((⊤ : W), [["a"]]) ∉ wordsCheapest (fstFromLabel ["a"] 0) 4 :=
  ⟨by decide, fun hmem =>
    C4_words_cheapest_finite (fstFromLabel ["a"] 0) 4 (by decide) _ hmem rfl⟩

/-- C1 (code bug): the source checks the `{m,n}` range bounds with
`int(rng[0] > rng[1])`, a string comparison.  At `{9,10}` the error is
reported although 9 <= 10, and at `{10,9}` it is not reported although
10 > 9; the claim's integer comparison disagrees with `rangeErrorReported`
at both inputs. -/
theorem C1_range_check_compares_strings :
    rangeErrorReported "9,10" = true ∧ decVal "9" ≤ decVal "10" ∧
    rangeErrorReported "10,9" = false ∧ decVal "10" > decVal "9" := by
  refine ⟨by decide, by decide, by decide, by decide⟩

/-- C3 counterexample: adding the transition `(5, ("a",), 0)` twice to a fresh
state leaves two structurally equal transitions in the `("a",)` bucket, not
one: the source's `Transition` has no structural equality, so the per-label
set keeps both identity-distinct objects. -/
theorem C3_counterexample :
    countTriple (addTransitionD (addTransitionD [] 5 ["a"] (0 : W)) 5 ["a"] 0)
      5 ["a"] 0 = 2 := by decide

/-- C3 (amended): transition equality in the source is by object identity, so
duplicate triples are possible: for every state dictionary, target, label and
weight, calling `add_transition(t, l, w)` twice adds exactly two transitions
with the triple `(t, l, w)` to the label-`l` bucket. -/
theorem C3_add_transition_duplicates (d : TDict) (other : Nat) (label : Label)
    (w : W) :
    countTriple (addTransitionD (addTransitionD d other label w) other label w)
      other label w = countTriple d other label w + 2 :=
  countTriple_addTwice d other label w

/-- Looking up a key other than the assigned one is unaffected by `aset`. -/
theorem alookup_aset_ne {α β : Type} [DecidableEq α] (d : List (α × β))
    (k k' : α) (v : β) (h : k' ≠ k) : alookup (aset d k v) k' = alookup d k' := by
  have hne : ¬ k = k' := fun he => h he.symm
  induction d with
  | nil => simp only [aset, alookup, if_neg hne]
  | cons hd tl ih =>
    obtain ⟨k0, v0⟩ := hd
    by_cases hk : k0 = k
    · have e : aset ((k0, v0) :: tl) k v = (k, v) :: tl := by simp [aset, hk]
      rw [e]
      simp only [alookup, if_neg hne]
      have hne0 : ¬ k0 = k' := by rw [hk]; exact hne
      rw [if_neg hne0]
    · have e : aset ((k0, v0) :: tl) k v = (k0, v0) :: aset tl k v := by
        simp [aset, hk]
      rw [e]
      simp only [alookup]
      by_cases hk' : k0 = k'
      · rw [if_pos hk', if_pos hk']
      · rw [if_neg hk', if_neg hk', ih]

/-- Members of `aset d k v` are members of `d` or the assigned pair. -/
theorem mem_aset_or {α β : Type} [DecidableEq α] (d : List (α × β)) (k : α)
    (v : β) (x : α × β) : x ∈ aset d k v → x ∈ d ∨ x = (k, v) := by
  induction d with
  | nil => intro h; simp [aset] at h; exact Or.inr h
  | cons hd tl ih =>
    obtain ⟨k0, v0⟩ := hd
    intro h
    by_cases hk : k0 = k
    · simp only [aset, if_pos hk, List.mem_cons] at h
      rcases h with h1 | h1
      · exact Or.inr h1
      · exact Or.inl (List.mem_cons_of_mem _ h1)
    · simp only [aset, if_neg hk, List.mem_cons] at h
      rcases h with h1 | h1
      · exact Or.inl (by simp [h1])
      · rcases ih h1 with h2 | h2
        · exact Or.inl (List.mem_cons_of_mem _ h2)
        · exact Or.inr h2

/-- A successful lookup survives appending on the right. -/
theorem alookup_append_of_some {α β : Type} [DecidableEq α] (d e : List (α × β))
    (k : α) (v : β) (h : alookup d k = some v) : alookup (d ++ e) k = some v := by
  induction d with
  | nil => simp [alookup] at h
  | cons hd tl ih =>
    obtain ⟨k0, v0⟩ := hd
    by_cases hk : k0 = k
    · rw [alookup, if_pos hk] at h
      simp only [List.cons_append, alookup, if_pos hk]
      exact h
    · rw [alookup, if_neg hk] at h
      simp only [List.cons_append, alookup, if_neg hk]
      exact ih h

/-- A failed lookup defers to the appended tail. -/
theorem alookup_append_of_none {α β : Type} [DecidableEq α] (d e : List (α × β))
    (k : α) (h : alookup d k = none) : alookup (d ++ e) k = alookup e k := by
  induction d with
  | nil => simp
  | cons hd tl ih =>
    obtain ⟨k0, v0⟩ := hd
    by_cases hk : k0 = k
    · rw [alookup, if_pos hk] at h; exact absurd h (by simp)
    · rw [alookup, if_neg hk] at h
      simp only [List.cons_append, alookup, if_neg hk]
      exact ih h

/-- On an association list whose keys are all below a bound, looking up the
bound fails. -/
theorem alookup_none_of_bound {β : Type} (d : List (Nat × β)) (n : Nat)
    (h : ∀ p ∈ d, p.1 < n) : alookup d n = none := by
  cases hal : alookup d n with
  | none => rfl
  | some v => exact absurd (h _ (alookup_mem _ _ _ hal)) (lt_irrefl n)

/-- With duplicate-free values, the pairs of an association list are
determined by their value. -/
theorem eq_of_mem_map_snd_nodup {α β : Type} (d : List (α × β))
    (h : (d.map Prod.snd).Nodup) (k1 k2 : α) (v : β)
    (h1 : (k1, v) ∈ d) (h2 : (k2, v) ∈ d) : k1 = k2 := by
  induction d with
  | nil => simp at h1
  | cons hd tl ih =>
    obtain ⟨kh, vh⟩ := hd
    simp only [List.map_cons, List.nodup_cons] at h
    rcases List.mem_cons.mp h1 with e1 | e1 <;>
      rcases List.mem_cons.mp h2 with e2 | e2
    · have a1 : k1 = kh := congrArg Prod.fst e1
      have a2 : k2 = kh := congrArg Prod.fst e2
      rw [a1, a2]
    · have hv : vh = v := (congrArg Prod.snd e1).symm
      refine absurd ?_ h.1
      rw [hv]
      exact List.mem_map_of_mem Prod.snd e2
    · have hv : vh = v := (congrArg Prod.snd e2).symm
      refine absurd ?_ h.1
      rw [hv]
      exact List.mem_map_of_mem Prod.snd e1
    · exact ih h.2 e1 e2

/-- Generic `foldl` invariant preservation. -/
theorem foldl_pred {α β : Type} (p : β → Prop) (f : β → α → β)
    (hf : ∀ b x, p b → p (f b x)) :
    ∀ (l : List α) (b : β), p b → p (l.foldl f b) := by
  intro l
  induction l with
  | nil => exact fun b hb => hb
  | cons hd tl ih => exact fun b hb => ih _ (hf b hd hb)

/-- `aset` preserves duplicate-freeness of the key list. -/
theorem keys_nodup_aset {α β : Type} [DecidableEq α] (d : List (α × β)) (k : α)
    (v : β) (h : (d.map Prod.fst).Nodup) : ((aset d k v).map Prod.fst).Nodup := by
  induction d with
  | nil => simp [aset]
  | cons hd tl ih =>
    obtain ⟨k0, v0⟩ := hd
    simp only [List.map_cons, List.nodup_cons] at h
    by_cases hk : k0 = k
    · have e : aset ((k0, v0) :: tl) k v = (k, v) :: tl := by simp [aset, hk]
      rw [e]
      simp only [List.map_cons, List.nodup_cons]
      rw [← hk]
      exact h
    · have e : aset ((k0, v0) :: tl) k v = (k0, v0) :: aset tl k v := by
        simp [aset, hk]
      rw [e]
      simp only [List.map_cons, List.nodup_cons]
      refine ⟨fun hmem => ?_, ih h.2⟩
      rcases mem_keys_aset tl k k0 v hmem with h1 | h1
      · exact h.1 h1
      · exact hk h1

/-- Characterization of `detProcessLabel` when the successor macro-state is
already registered: only the source state's dictionary changes. -/
theorem detProcessLabel_eq_hit (A : FST) (curr : List (Nat × W)) (srcId : Nat)
    (st : DetSt) (lt : Label × List (Nat × Trs)) (j : Nat)
    (hm : alookup st.statesets (newQOf curr lt.2 (wprimeOf curr lt.2)) = some j) :
    (detProcessLabel A curr srcId st lt).statesets = st.statesets ∧
    (detProcessLabel A curr srcId st lt).Q = st.Q ∧
    (detProcessLabel A curr srcId st lt).nextId = st.nextId ∧
    (detProcessLabel A curr srcId st lt).delta =
      aset st.delta srcId
        (addTransitionD (deltaOfD st.delta srcId) j lt.1 (wprimeOf curr lt.2)) := by
  refine ⟨?_, ?_, ?_, ?_⟩ <;>
    · simp only [detProcessLabel, hm, Option.getD_some]
      by_cases hc : (lt.2.any fun p => decide (p.2.targetstate ∈ A.finalstates)) = true <;>
        simp [hc]

/-- Characterization of `detProcessLabel` when the successor macro-state is
fresh: it is registered under the next id, pushed on the deque, and the
source state gains the arc toward it. -/
theorem detProcessLabel_eq_miss (A : FST) (curr : List (Nat × W)) (srcId : Nat)
    (st : DetSt) (lt : Label × List (Nat × Trs))
    (hm : alookup st.statesets (newQOf curr lt.2 (wprimeOf curr lt.2)) = none) :
    (detProcessLabel A curr srcId st lt).statesets =
      st.statesets ++ [(newQOf curr lt.2 (wprimeOf curr lt.2), st.nextId)] ∧
    (detProcessLabel A curr srcId st lt).Q =
      newQOf curr lt.2 (wprimeOf curr lt.2) :: st.Q ∧
    (detProcessLabel A curr srcId st lt).nextId = st.nextId + 1 ∧
    (detProcessLabel A curr srcId st lt).delta =
      aset st.delta srcId
        (addTransitionD (deltaOfD st.delta srcId) st.nextId lt.1
          (wprimeOf curr lt.2)) := by
  have ht : alookup
      (st.statesets ++ [(newQOf curr lt.2 (wprimeOf curr lt.2), st.nextId)])
      (newQOf curr lt.2 (wprimeOf curr lt.2)) = some st.nextId := by
    rw [alookup_append_of_none _ _ _ hm]
    simp [alookup]
  refine ⟨?_, ?_, ?_, ?_⟩ <;>
    · simp only [detProcessLabel, hm, ht, Option.getD_some]
      by_cases hc : (lt.2.any fun p => decide (p.2.targetstate ∈ A.finalstates)) = true <;>
        simp [hc]

/-- Processing one collected label preserves the mid-expansion invariant and
leaves the source state's other label buckets untouched. -/
theorem detProcessLabel_inv (A : FST) (curr : List (Nat × W)) (srcId : Nat)
    (st : DetSt) (lt : Label × List (Nat × Trs))
    (hnew : alookup (deltaOfD st.delta srcId) lt.1 = none)
    (hmid : DetMid srcId st) :
    DetMid srcId (detProcessLabel A curr srcId st lt) ∧
    (∀ l', l' ≠ lt.1 →
      alookup (deltaOfD (detProcessLabel A curr srcId st lt).delta srcId) l' =
        alookup (deltaOfD st.delta srcId) l') := by
  unfold DetMid at hmid ⊢
  obtain ⟨m1, m2, m3, m4, m5, m6, m7, m8⟩ := hmid
  have hadd : ∀ tgt, addTransitionD (deltaOfD st.delta srcId) tgt lt.1
      (wprimeOf curr lt.2) =
      aset (deltaOfD st.delta srcId) lt.1
        [Trs.mk tgt lt.1 (wprimeOf curr lt.2)] := by
    intro tgt
    unfold addTransitionD
    rw [hnew]
    rfl
  cases hm : alookup st.statesets (newQOf curr lt.2 (wprimeOf curr lt.2)) with
  | some j =>
    obtain ⟨hss, hQ, hnid, hdel⟩ := detProcessLabel_eq_hit A curr srcId st lt j hm
    rw [hadd j] at hdel
    have hd2 : deltaOfD (detProcessLabel A curr srcId st lt).delta srcId =
        aset (deltaOfD st.delta srcId) lt.1
          [Trs.mk j lt.1 (wprimeOf curr lt.2)] := by
      unfold deltaOfD
      rw [hdel, alookup_aset_self]
      rfl
    refine ⟨⟨?_, ?_, ?_, ?_, ?_, ?_, ?_, ?_⟩, ?_⟩
    · intro s l hs
      unfold detTransCount deltaOfD
      rw [hdel, alookup_aset_ne _ _ _ _ hs]
      exact m1 s l hs
    · intro b hb
      rw [hd2] at hb
      rcases mem_aset_or _ _ _ _ hb with h1 | h1
      · exact m2 b h1
      · rw [h1]; simp
    · intro q hq
      rw [hQ] at hq
      obtain ⟨i, hli, hdi, hisrc⟩ := m3 q hq
      refine ⟨i, ?_, ?_, hisrc⟩
      · rw [hss]; exact hli
      · rw [hdel, alookup_aset_ne _ _ _ _ hisrc]; exact hdi
    · intro p hp
      rw [hdel] at hp
      rw [hnid]
      rcases mem_aset_or _ _ _ _ hp with h1 | h1
      · exact m4 p h1
      · rw [h1]; exact m8
    · intro p hp
      rw [hss] at hp
      rw [hnid]
      exact m5 p hp
    · rw [hss]; exact m6
    · rw [hQ]; exact m7
    · rw [hnid]; exact m8
    · intro l' hl'
      rw [hd2, alookup_aset_ne _ _ _ _ hl']
  | none =>
    obtain ⟨hss, hQ, hnid, hdel⟩ := detProcessLabel_eq_miss A curr srcId st lt hm
    rw [hadd st.nextId] at hdel
    have hd2 : deltaOfD (detProcessLabel A curr srcId st lt).delta srcId =
        aset (deltaOfD st.delta srcId) lt.1
          [Trs.mk st.nextId lt.1 (wprimeOf curr lt.2)] := by
      unfold deltaOfD
      rw [hdel, alookup_aset_self]
      rfl
    have hne_src : st.nextId ≠ srcId := ne_of_gt m8
    refine ⟨⟨?_, ?_, ?_, ?_, ?_, ?_, ?_, ?_⟩, ?_⟩
    · intro s l hs
      unfold detTransCount deltaOfD
      rw [hdel, alookup_aset_ne _ _ _ _ hs]
      exact m1 s l hs
    · intro b hb
      rw [hd2] at hb
      rcases mem_aset_or _ _ _ _ hb with h1 | h1
      · exact m2 b h1
      · rw [h1]; simp
    · intro q hq
      rw [hQ] at hq
      rcases List.mem_cons.mp hq with h1 | h1
      · refine ⟨st.nextId, ?_, ?_, hne_src⟩
        · rw [hss, h1]
          rw [alookup_append_of_none _ _ _ hm]
          simp [alookup]
        · rw [hdel, alookup_aset_ne _ _ _ _ hne_src]
          exact alookup_none_of_bound _ _ m4
      · obtain ⟨i, hli, hdi, hisrc⟩ := m3 q h1
        refine ⟨i, ?_, ?_, hisrc⟩
        · rw [hss]; exact alookup_append_of_some _ _ _ _ hli
        · rw [hdel, alookup_aset_ne _ _ _ _ hisrc]; exact hdi
    · intro p hp
      rw [hdel] at hp
      rw [hnid]
      rcases mem_aset_or _ _ _ _ hp with h1 | h1
      · exact Nat.lt_succ_of_lt (m4 p h1)
      · rw [h1]; exact Nat.lt_succ_of_lt m8
    · intro p hp
      rw [hss] at hp
      rw [hnid]
      rcases List.mem_append.mp hp with h1 | h1
      · exact Nat.lt_succ_of_lt (m5 p h1)
      · simp only [List.mem_singleton] at h1
        rw [h1]
        exact Nat.lt_succ_self _
    · rw [hss, List.map_append]
      refine List.Nodup.append m6 (by simp) ?_
      intro a ha hb
      simp only [List.map_cons, List.map_nil, List.mem_singleton] at hb
      obtain ⟨p, hp, he⟩ := List.mem_map.mp ha
      rw [hb] at he
      exact absurd he (ne_of_lt (m5 p hp))
    · rw [hQ]
      refine List.nodup_cons.mpr ⟨?_, m7⟩
      intro hmem
      obtain ⟨i, hli, _, _⟩ := m3 _ hmem
      rw [hm] at hli
      exact absurd hli (by simp)
    · rw [hnid]; exact Nat.lt_succ_of_lt m8
    · intro l' hl'
      rw [hd2, alookup_aset_ne _ _ _ _ hl']

/-- The whole label fold preserves the mid-expansion invariant. -/
theorem detFold_inv (A : FST) (curr : List (Nat × W)) (srcId : Nat) :
    ∀ (cls : List (Label × List (Nat × Trs))) (st : DetSt),
      (cls.map Prod.fst).Nodup →
      (∀ lt ∈ cls, alookup (deltaOfD st.delta srcId) lt.1 = none) →
      DetMid srcId st →
      DetMid srcId (cls.foldl (detProcessLabel A curr srcId) st) := by
  intro cls
  induction cls with
  | nil => exact fun st _ _ h => h
  | cons hd tl ih =>
    intro st hnd hnone hmid
    simp only [List.foldl_cons]
    obtain ⟨hmid', hother⟩ := detProcessLabel_inv A curr srcId st hd
      (hnone hd (by simp)) hmid
    simp only [List.map_cons, List.nodup_cons] at hnd
    refine ih _ hnd.2 ?_ hmid'
    intro lt' hlt'
    have hne : lt'.1 ≠ hd.1 := by
      intro he
      exact hnd.1 (he ▸ List.mem_map_of_mem Prod.fst hlt')
    rw [hother lt'.1 hne]
    exact hnone lt' (List.mem_cons_of_mem _ hlt')

/-- The `collectlabels` dictionary has duplicate-free keys. -/
theorem collectLabels_keys_nodup (A : FST) (curr : List (Nat × W)) :
    ((collectLabels A curr).map Prod.fst).Nodup := by
  unfold collectLabels
  refine foldl_pred
    (fun d : List (Label × List (Nat × Trs)) => (d.map Prod.fst).Nodup)
    _ ?_ _ _ (by simp)
  intro b x hb
  refine foldl_pred
    (fun d : List (Label × List (Nat × Trs)) => (d.map Prod.fst).Nodup)
    _ ?_ _ _ hb
  intro b2 x2 hb2
  refine foldl_pred
    (fun d : List (Label × List (Nat × Trs)) => (d.map Prod.fst).Nodup)
    _ ?_ _ _ hb2
  intro b3 x3 hb3
  unfold adictApp
  exact keys_nodup_aset _ _ _ hb3

/-- One worklist iteration preserves the global invariant. -/
theorem detStep_inv (A : FST) (st st' : DetSt) (hInv : DetInv st)
    (h : detStep A st = some st') : DetInv st' := by
  unfold DetInv at hInv
  obtain ⟨i1, i2, i3, i4, i5, i6⟩ := hInv
  unfold detStep at h
  split at h
  · simp at h
  · rename_i curr rest hQ
    simp only [Option.some.injEq] at h
    subst h
    obtain ⟨i0, hl0, hd0⟩ := i2 curr (by rw [hQ]; simp)
    have hsrc : (alookup st.statesets curr).getD 0 = i0 := by rw [hl0]; rfl
    rw [hsrc]
    have hcne : curr ∉ rest := by
      have h6 := i6
      rw [hQ] at h6
      exact (List.nodup_cons.mp h6).1
    have hmid0 : DetMid i0 { st with Q := rest } := by
      unfold DetMid
      refine ⟨fun s l _ => i1 s l, ?_, ?_, fun p hp => i3 p hp,
        fun p hp => i4 p hp, i5, ?_, ?_⟩
      · intro b hb
        unfold deltaOfD at hb
        rw [hd0] at hb
        simp at hb
      · intro q hq
        have hqm : q ∈ st.Q := by rw [hQ]; exact List.mem_cons_of_mem _ hq
        obtain ⟨i, hli, hdi⟩ := i2 q hqm
        refine ⟨i, hli, hdi, fun he => ?_⟩
        have hq1 : (q, i0) ∈ st.statesets := by
          rw [← he]
          exact alookup_mem _ _ _ hli
        have hq2 : (curr, i0) ∈ st.statesets := alookup_mem _ _ _ hl0
        have hqc : q = curr := eq_of_mem_map_snd_nodup st.statesets i5 q curr i0 hq1 hq2
        exact hcne (hqc ▸ hq)
      · have h6 := i6
        rw [hQ] at h6
        exact (List.nodup_cons.mp h6).2
      · exact i4 _ (alookup_mem _ _ _ hl0)
    have hnone0 : ∀ lt ∈ collectLabels A curr,
        alookup (deltaOfD ({ st with Q := rest } : DetSt).delta i0) lt.1 = none := by
      intro lt _
      show alookup (deltaOfD st.delta i0) lt.1 = none
      unfold deltaOfD
      rw [hd0]
      rfl
    have hfold := detFold_inv A curr i0 (collectLabels A curr)
      { st with Q := rest } (collectLabels_keys_nodup A curr) hnone0 hmid0
    unfold DetMid at hfold
    obtain ⟨f1, f2, f3, f4, f5, f6, f7, _⟩ := hfold
    unfold DetInv
    refine ⟨?_, ?_, f4, f5, f6, f7⟩
    · intro s l
      by_cases hs : s = i0
      · subst hs
        unfold detTransCount
        cases hb : alookup (deltaOfD ((collectLabels A curr).foldl
            (detProcessLabel A curr s) { st with Q := rest }).delta s) l with
        | none => simp
        | some bkt =>
          simp only [Option.getD_some]
          exact f2 (l, bkt) (alookup_mem _ _ _ hb)
      · exact f1 s l hs
    · intro q hq
      obtain ⟨i, ha, hb, _⟩ := f3 q hq
      exact ⟨i, ha, hb⟩

/-- The determinization loop preserves the global invariant. -/
theorem detRun_inv (A : FST) :
    ∀ (fuel : Nat) (st : DetSt), DetInv st → DetInv (detRun A fuel st) := by
  intro fuel
  induction fuel with
  | zero => exact fun st h => h
  | succ n ih =>
    intro st h
    unfold detRun
    cases hs : detStep A st with
    | none => exact h
    | some st' => exact ih st' (detStep_inv A st st' h hs)

/-- The initial loop state satisfies the global invariant. -/
theorem detInit_inv (A : FST) : DetInv (detInit A) := by
  unfold DetInv
  simp only [detInit]
  refine ⟨?_, ?_, ?_, ?_, ?_, ?_⟩
  · intro s l
    unfold detTransCount deltaOfD
    simp [alookup]
  · intro q hq
    simp only [List.mem_singleton] at hq
    refine ⟨0, ?_, rfl⟩
    rw [hq]
    simp [alookup]
  · intro p hp
    simp at hp
  · intro p hp
    simp only [List.mem_singleton] at hp
    rw [hp]
    exact Nat.lt_succ_self 0
  · simp
  · simp

/-- C6: every state of the determinization output has at most one outgoing
transition per label, at every stage of the (fuel-bounded) subset
construction loop — the result is deterministic on labels. -/
theorem C6_determinize_deterministic (A : FST) (fuel : Nat) (s : Nat)
    (l : Label) : detTransCount (determinizeFuel A fuel) s l ≤ 1 := by
  have h := detRun_inv A fuel (detInit A) (detInit_inv A)
  unfold DetInv at h
  exact h.1 s l

/-- Member-aware `foldl` invariant preservation. -/
theorem foldl_pred_mem {α β : Type} (p : β → Prop) (f : β → α → β)
    (l : List α) (hf : ∀ b, ∀ x ∈ l, p b → p (f b x)) :
    ∀ b, p b → p (l.foldl f b) := by
  induction l with
  | nil => exact fun b hb => hb
  | cons hd tl ih =>
    intro b hb
    exact ih (fun b' x hx hb' => hf b' x (List.mem_cons_of_mem _ hx) hb') _
      (hf b hd (by simp) hb)

/-- The popped dijkstra entry is a member of the heap. -/
theorem popMinD_mem (l : List DEntry) (e : DEntry) (rest : List DEntry) :
    popMinD l = some (e, rest) → e ∈ l := by
  induction l generalizing e rest with
  | nil => intro h; simp [popMinD] at h
  | cons hd tl ih =>
    intro h
    unfold popMinD at h
    split at h
    · simp only [Option.some.injEq, Prod.mk.injEq] at h
      obtain ⟨rfl, rfl⟩ := h
      simp
    · rename_i m rest' hm
      split at h
      · simp only [Option.some.injEq, Prod.mk.injEq] at h
        obtain ⟨rfl, rfl⟩ := h
        exact List.mem_cons_of_mem _ (ih _ _ hm)
      · simp only [Option.some.injEq, Prod.mk.injEq] at h
        obtain ⟨rfl, rfl⟩ := h
        simp

/-- The remaining dijkstra heap after a pop is contained in the original. -/
theorem popMinD_rest_mem (l : List DEntry) (e : DEntry) (rest : List DEntry) :
    popMinD l = some (e, rest) → ∀ x ∈ rest, x ∈ l := by
  induction l generalizing e rest with
  | nil => intro h; simp [popMinD] at h
  | cons hd tl ih =>
    intro h x hx
    unfold popMinD at h
    split at h
    · simp only [Option.some.injEq, Prod.mk.injEq] at h
      obtain ⟨rfl, rfl⟩ := h
      simp at hx
    · rename_i m rest' hm
      split at h
      · simp only [Option.some.injEq, Prod.mk.injEq] at h
        obtain ⟨rfl, rfl⟩ := h
        rcases List.mem_cons.mp hx with h1 | h1
        · simp [h1]
        · exact List.mem_cons_of_mem _ (ih _ _ hm x h1)
      · simp only [Option.some.injEq, Prod.mk.injEq] at h
        obtain ⟨rfl, rfl⟩ := h
        exact List.mem_cons_of_mem _ hx

/-- An empty pop means an empty heap. -/
theorem popMinD_none_nil (l : List DEntry) : popMinD l = none → l = [] := by
  cases l with
  | nil => intro _; rfl
  | cons a b =>
    intro h
    unfold popMinD at h
    split at h
    · simp at h
    · split at h <;> simp at h

/-- Every heap member either is the popped entry or survives into the rest. -/
theorem popMinD_mem_rest (l : List DEntry) (e : DEntry) (rest : List DEntry) :
    popMinD l = some (e, rest) → ∀ y ∈ l, y = e ∨ y ∈ rest := by
  induction l generalizing e rest with
  | nil => intro h; simp [popMinD] at h
  | cons hd tl ih =>
    intro h y hy
    unfold popMinD at h
    split at h
    · rename_i hm
      simp only [Option.some.injEq, Prod.mk.injEq] at h
      obtain ⟨rfl, rfl⟩ := h
      rcases List.mem_cons.mp hy with h1 | h1
      · exact Or.inl h1
      · rw [popMinD_none_nil tl hm] at h1
        simp at h1
    · rename_i m rest' hm
      split at h
      · simp only [Option.some.injEq, Prod.mk.injEq] at h
        obtain ⟨rfl, rfl⟩ := h
        rcases List.mem_cons.mp hy with h1 | h1
        · exact Or.inr (by simp [h1])
        · rcases ih _ _ hm y h1 with h2 | h2
          · exact Or.inl h2
          · exact Or.inr (List.mem_cons_of_mem _ h2)
      · simp only [Option.some.injEq, Prod.mk.injEq] at h
        obtain ⟨rfl, rfl⟩ := h
        rcases List.mem_cons.mp hy with h1 | h1
        · exact Or.inl h1
        · exact Or.inr h1

/-- Values accumulated by `all_targets_cheapest` stay finite on an FST with
finite transition weights. -/
theorem atc_vals_finite (A : FST)
    (hF : ∀ sd ∈ A.delta, ∀ lt ∈ sd.2, ∀ t ∈ lt.2, t.weight ≠ ⊤) (s : Nat) :
    ∀ p ∈ allTargetsCheapest A s, p.2 ≠ ⊤ := by
  have hbkt : ∀ lt ∈ deltaOf A s, ∀ t ∈ lt.2, t.weight ≠ ⊤ := by
    intro lt hlt t ht
    unfold deltaOf at hlt
    cases hal : alookup A.delta s with
    | none => rw [hal] at hlt; simp at hlt
    | some d =>
      rw [hal] at hlt
      exact hF (s, d) (alookup_mem _ _ _ hal) lt hlt t ht
  unfold allTargetsCheapest
  refine foldl_pred_mem (fun acc : List (Nat × W) => ∀ p ∈ acc, p.2 ≠ ⊤)
    _ _ ?_ _ (by simp)
  intro b lt hlt hb
  refine foldl_pred_mem (fun acc : List (Nat × W) => ∀ p ∈ acc, p.2 ≠ ⊤)
    _ _ ?_ _ hb
  intro b2 t ht hb2 p hp
  rcases mem_aset_or _ _ _ _ hp with h1 | h1
  · exact hb2 p h1
  · rw [h1]
    have hw : t.weight ≠ ⊤ := hbkt lt hlt t ht
    intro hmin
    exact hw (top_le_iff.mp (hmin ▸ min_le_right _ t.weight))

/-- Every member of a list appears in its enumeration. -/
theorem mem_enumFrom_of_mem {α : Type} (l : List α) (x : α) :
    x ∈ l → ∀ n, ∃ i, (i, x) ∈ l.enumFrom n := by
  induction l with
  | nil => intro h; simp at h
  | cons hd tl ih =>
    intro h n
    rcases List.mem_cons.mp h with h1 | h1
    · refine ⟨n, ?_⟩
      show (n, x) ∈ (n, hd) :: tl.enumFrom (n + 1)
      rw [h1]
      simp
    · obtain ⟨i, hi⟩ := ih h1 (n + 1)
      refine ⟨i, ?_⟩
      show (i, x) ∈ (n, hd) :: tl.enumFrom (n + 1)
      exact List.mem_cons_of_mem _ hi

/-- Reachability stays inside a target-closed set. -/
theorem reach_mem_closed (A : FST) (E : List Nat)
    (hcl : ∀ x ∈ E, ∀ t ∈ targetsOf A x, t ∈ E) :
    ∀ u v, Reach A u v → u ∈ E → v ∈ E := by
  intro u v h
  induction h with
  | refl s => exact fun h => h
  | head s t u hts _ ih => exact fun hs => ih (hcl s hs t hts)

/-- A valid path witnesses reachability. -/
theorem path_reach (A : FST) : ∀ (π : List Step) (s t : Nat),
    IsPath A s π t → Reach A s t := by
  intro π
  induction π with
  | nil =>
    intro s t h
    unfold IsPath at h
    rw [h]
    exact Reach.refl t
  | cons stp rest ih =>
    intro s t h
    unfold IsPath at h
    obtain ⟨hsrc, tr, htr, hrest⟩ := h
    refine Reach.head s tr.targetstate t ?_ (ih _ _ hrest)
    unfold stepTrans at htr
    cases hal : alookup (deltaOf A stp.src) stp.lbl with
    | none => rw [hal] at htr; simp at htr
    | some b =>
      rw [hal] at htr
      have hget : b.get? stp.idx = some tr := htr
      have hmem : tr ∈ b := List.get?_mem hget
      unfold targetsOf
      rw [← hsrc]
      unfold deltaOf
      rcases hal2 : alookup A.delta stp.src with _ | d
      · unfold deltaOf at hal
        rw [hal2] at hal
        simp [alookup] at hal
      · unfold deltaOf at hal
        rw [hal2] at hal
        simp only [Option.getD_some] at hal ⊢
        simp only [List.mem_flatMap, List.mem_map]
        exact ⟨(stp.lbl, b), alookup_mem _ _ _ hal, tr, hmem, rfl⟩

/-- Keys survive `aset`. -/
theorem keys_aset_sup {α β : Type} [DecidableEq α] (d : List (α × β))
    (k k' : α) (v : β) (h : k ∈ d.map Prod.fst) :
    k ∈ (aset d k' v).map Prod.fst := by
  induction d with
  | nil => simp at h
  | cons hd tl ih =>
    obtain ⟨k0, v0⟩ := hd
    by_cases hk : k0 = k'
    · have e : aset ((k0, v0) :: tl) k' v = (k', v) :: tl := by simp [aset, hk]
      rw [e]
      simp only [List.map_cons, List.mem_cons] at h ⊢
      rcases h with h1 | h1
      · exact Or.inl (by rw [h1, hk])
      · exact Or.inr h1
    · have e : aset ((k0, v0) :: tl) k' v = (k0, v0) :: aset tl k' v := by
        simp [aset, hk]
      rw [e]
      simp only [List.map_cons, List.mem_cons] at h ⊢
      rcases h with h1 | h1
      · exact Or.inl h1
      · exact Or.inr (ih h1)

/-- The assigned key is present after `aset`. -/
theorem key_mem_aset_self {α β : Type} [DecidableEq α] (d : List (α × β))
    (k : α) (v : β) : k ∈ (aset d k v).map Prod.fst := by
  induction d with
  | nil => simp [aset]
  | cons hd tl ih =>
    obtain ⟨k0, v0⟩ := hd
    by_cases hk : k0 = k
    · have e : aset ((k0, v0) :: tl) k v = (k, v) :: tl := by simp [aset, hk]
      rw [e]
      simp
    · have e : aset ((k0, v0) :: tl) k v = (k0, v0) :: aset tl k v := by
        simp [aset, hk]
      rw [e]
      simp only [List.map_cons, List.mem_cons]
      exact Or.inr ih

/-- A fold reaches a persistent property once some list element forces it. -/
theorem foldl_reaches {α β : Type} (p : β → Prop) (f : β → α → β)
    (hkeep : ∀ b x, p b → p (f b x)) :
    ∀ (l : List α) (b : β),
      (p b ∨ ∃ x ∈ l, ∀ b', p (f b' x)) → p (l.foldl f b) := by
  intro l
  induction l with
  | nil =>
    intro b hb
    rcases hb with hb | ⟨x, hx, _⟩
    · exact hb
    · simp at hx
  | cons hd tl ih =>
    intro b hb
    rcases hb with hb | ⟨x, hx, hstrong⟩
    · exact ih _ (Or.inl (hkeep b hd hb))
    · rcases List.mem_cons.mp hx with h1 | h1
      · exact ih _ (Or.inl (h1 ▸ hstrong b))
      · exact ih _ (Or.inr ⟨x, h1, hstrong⟩)

/-- Every target of a state appears among the keys of
`all_targets_cheapest`. -/
theorem atc_keys_complete (A : FST) (s t : Nat) (h : t ∈ targetsOf A s) :
    ∃ wv, (t, wv) ∈ allTargetsCheapest A s := by
  unfold targetsOf at h
  simp only [List.mem_flatMap, List.mem_map] at h
  obtain ⟨lt, hlt, tr, htr, htgt⟩ := h
  have hkey : t ∈ (allTargetsCheapest A s).map Prod.fst := by
    unfold allTargetsCheapest
    refine foldl_reaches (fun acc : List (Nat × W) => t ∈ acc.map Prod.fst)
      _ ?_ _ _ (Or.inr ⟨lt, hlt, ?_⟩)
    · intro b x hb
      refine foldl_pred (fun acc : List (Nat × W) => t ∈ acc.map Prod.fst)
        _ ?_ _ _ hb
      intro b2 x2 hb2
      exact keys_aset_sup _ _ _ _ hb2
    · intro b'
      refine foldl_reaches (fun acc : List (Nat × W) => t ∈ acc.map Prod.fst)
        _ ?_ _ _ (Or.inr ⟨tr, htr, ?_⟩)
      · intro b2 x2 hb2
        exact keys_aset_sup _ _ _ _ hb2
      · intro b2
        rw [← htgt]
        exact key_mem_aset_self _ _ _
  obtain ⟨p, hp, hpe⟩ := List.mem_map.mp hkey
  exact ⟨p.2, by rw [← hpe]; exact hp⟩

/-- The dijkstra loop invariant: on an FST with finite weights, if some
final state is reachable from a permanently explored start, a completed run
returns a finite cost.  The invariant tracks: all heap costs finite; every
explored state either still has a pending heap entry or all its targets are
explored or pending; every explored final state has a pending exit sentinel
or its own pending entry. -/
theorem dijRun_finite (A : FST)
    (hFd : ∀ sd ∈ A.delta, ∀ lt ∈ sd.2, ∀ t ∈ lt.2, t.weight ≠ ⊤)
    (hFf : ∀ g ∈ A.finalstates, finalweight A g ≠ ⊤)
    (s f : Nat) (hf : f ∈ A.finalstates) (hreach : Reach A s f) :
    ∀ (fuel : Nat) (st : DijSt),
      (∀ e ∈ st.q, e.cost ≠ ⊤) →
      (∀ x ∈ st.explored, (∃ e ∈ st.q, e.st = some x) ∨
        (∀ t ∈ targetsOf A x, t ∈ st.explored ∨ ∃ e ∈ st.q, e.st = some t)) →
      (∀ g ∈ A.finalstates, g ∈ st.explored →
        (∃ e ∈ st.q, e.st = none) ∨ (∃ e ∈ st.q, e.st = some g)) →
      s ∈ st.explored →
      ∀ w, dijRun A fuel st = some w → w ≠ ⊤ := by
  intro fuel
  induction fuel with
  | zero => intro st _ _ _ _ w h; simp [dijRun] at h
  | succ n ih =>
    intro st h1 h2 h3 h4 w h
    unfold dijRun at h
    split at h
    · rename_i hpop
      exfalso
      have hqnil : st.q = [] := popMinD_none_nil _ hpop
      have hclosed : ∀ x ∈ st.explored, ∀ t ∈ targetsOf A x, t ∈ st.explored := by
        intro x hx t ht
        rcases h2 x hx with hc | hc
        · obtain ⟨e0, he0, _⟩ := hc
          rw [hqnil] at he0
          simp at he0
        · rcases hc t ht with hc2 | hc2
          · exact hc2
          · obtain ⟨e0, he0, _⟩ := hc2
            rw [hqnil] at he0
            simp at he0
      have hfE : f ∈ st.explored := reach_mem_closed A st.explored hclosed s f hreach h4
      rcases h3 f hf hfE with hc | hc <;>
        · obtain ⟨e0, he0, _⟩ := hc
          rw [hqnil] at he0
          simp at he0
    · rename_i e rest hpop
      split at h
      · rename_i hst
        simp only [Option.some.injEq] at h
        rw [← h]
        exact h1 e (popMinD_mem _ _ _ hpop)
      · rename_i x hst
        have hemem : e ∈ st.q := popMinD_mem _ _ _ hpop
        have hecost : e.cost ≠ ⊤ := h1 e hemem
        have hrestq : ∀ y ∈ rest, y ∈ st.q := popMinD_rest_mem _ _ _ hpop
        have hsplitq : ∀ y ∈ st.q, y = e ∨ y ∈ rest := popMinD_mem_rest _ _ _ hpop
        refine ih _ ?_ ?_ ?_ ?_ w h
        · -- heap costs stay finite
          intro y hy
          dsimp only at hy
          set E1 := (if x ∈ st.explored then st.explored else st.explored ++ [x])
            with hE1def
          set FP := (if x ∈ A.finalstates then
              ([DEntry.mk (e.cost + finalweight A x) st.cntr none], st.cntr + 1)
            else (([] : List DEntry), st.cntr)) with hFPdef
          set TG := List.filter (fun p => decide (p.1 ∉ E1))
            (allTargetsCheapest A x) with hTGdef
          rcases List.mem_append.mp hy with hy12 | hy3
          case inl =>
            rcases List.mem_append.mp hy12 with hy1 | hy2
            · exact h1 y (hrestq y hy1)
            by_cases hxf : x ∈ A.finalstates
            · rw [hFPdef, if_pos hxf] at hy2
              simp only [List.mem_singleton] at hy2
              rw [hy2]
              exact WithTop.add_ne_top.mpr ⟨hecost, hFf x hxf⟩
            · rw [hFPdef, if_neg hxf] at hy2
              simp at hy2
          case inr =>
            obtain ⟨q, hq, hqe⟩ := List.mem_map.mp hy3
            rw [← hqe]
            have hq2 : q.2 ∈ TG := mem_of_mem_enumFrom _ _ _ hq
            have hq3 : q.2 ∈ allTargetsCheapest A x := (List.mem_filter.mp hq2).1
            exact WithTop.add_ne_top.mpr ⟨atc_vals_finite A hFd x q.2 hq3, hecost⟩
        · -- explored coverage
          intro y hy
          dsimp only at hy ⊢
          set E1 := (if x ∈ st.explored then st.explored else st.explored ++ [x])
            with hE1def
          set FP := (if x ∈ A.finalstates then
              ([DEntry.mk (e.cost + finalweight A x) st.cntr none], st.cntr + 1)
            else (([] : List DEntry), st.cntr)) with hFPdef
          set TG := List.filter (fun p => decide (p.1 ∉ E1))
            (allTargetsCheapest A x) with hTGdef
          set PU := List.map (fun q =>
            DEntry.mk (q.2.2 + e.cost) (FP.2 + q.1) (some q.2.1)) TG.enum with hPUdef
          have hsubE1 : ∀ z, z ∈ st.explored → z ∈ E1 := by
            intro z hz
            rw [hE1def]
            split <;> simp [hz]
          have hxE1 : x ∈ E1 := by
            rw [hE1def]
            split
            · assumption
            · simp
          have hcovx : ∀ t ∈ targetsOf A x, t ∈ E1 ∨
              ∃ e' ∈ rest ++ FP.1 ++ PU, e'.st = some t := by
            intro t ht
            by_cases htE : t ∈ E1
            · exact Or.inl htE
            · obtain ⟨wv, hwv⟩ := atc_keys_complete A x t ht
              have htg : (t, wv) ∈ TG := by
                rw [hTGdef]
                refine List.mem_filter.mpr ⟨hwv, ?_⟩
                simpa using htE
              obtain ⟨i, hi⟩ := mem_enumFrom_of_mem _ _ htg 0
              refine Or.inr ⟨DEntry.mk (wv + e.cost) (FP.2 + i) (some t), ?_, rfl⟩
              refine List.mem_append_right _ ?_
              rw [hPUdef]
              exact List.mem_map.mpr ⟨(i, (t, wv)), hi, rfl⟩
          have hyE1 : y ∈ st.explored ∨ y = x := by
            rw [hE1def] at hy
            revert hy
            split
            · exact fun hy => Or.inl hy
            · intro hy
              rcases List.mem_append.mp hy with h5 | h5
              · exact Or.inl h5
              · simp only [List.mem_singleton] at h5
                exact Or.inr h5
          rcases hyE1 with hyold | rfl
          · rcases h2 y hyold with ⟨ey, heyq, heys⟩ | hcov
            · rcases hsplitq ey heyq with heq | hey'
              · rw [heq, hst] at heys
                injection heys with hxy
                rw [← hxy]
                exact Or.inr fun t ht => hcovx t ht
              · exact Or.inl ⟨ey, List.mem_append_left _ (List.mem_append_left _ hey'), heys⟩
            · refine Or.inr fun t ht => ?_
              rcases hcov t ht with hc1 | ⟨et, hetq, hets⟩
              · exact Or.inl (hsubE1 t hc1)
              · rcases hsplitq et hetq with heq | het'
                · rw [heq, hst] at hets
                  injection hets with hxt
                  rw [← hxt]
                  exact Or.inl hxE1
                · exact Or.inr ⟨et, List.mem_append_left _ (List.mem_append_left _ het'), hets⟩
          · exact Or.inr fun t ht => hcovx t ht
        · -- explored finals keep a sentinel or their own entry
          intro g hg hgE
          dsimp only at hgE ⊢
          set E1 := (if x ∈ st.explored then st.explored else st.explored ++ [x])
            with hE1def
          set FP := (if x ∈ A.finalstates then
              ([DEntry.mk (e.cost + finalweight A x) st.cntr none], st.cntr + 1)
            else (([] : List DEntry), st.cntr)) with hFPdef
          have hfpmem : x ∈ A.finalstates →
              DEntry.mk (e.cost + finalweight A x) st.cntr none ∈ FP.1 := by
            intro hxf
            rw [hFPdef, if_pos hxf]
            simp
          have hgE1 : g ∈ st.explored ∨ g = x := by
            rw [hE1def] at hgE
            revert hgE
            split
            · exact fun hgE => Or.inl hgE
            · intro hgE
              rcases List.mem_append.mp hgE with h5 | h5
              · exact Or.inl h5
              · simp only [List.mem_singleton] at h5
                exact Or.inr h5
          rcases hgE1 with hgold | rfl
          · rcases h3 g hg hgold with ⟨en, hen, hens⟩ | ⟨eg, heg, hegs⟩
            · rcases hsplitq en hen with heq | hen'
              · rw [heq, hst] at hens
                simp at hens
              · exact Or.inl ⟨en, List.mem_append_left _ (List.mem_append_left _ hen'), hens⟩
            · rcases hsplitq eg heg with heq | heg'
              · rw [heq, hst] at hegs
                injection hegs with hxg
                refine Or.inl ⟨DEntry.mk (e.cost + finalweight A x) st.cntr none, ?_, rfl⟩
                refine List.mem_append_left _ (List.mem_append_right _ ?_)
                exact hfpmem (by rw [hxg]; exact hg)
              · exact Or.inr ⟨eg, List.mem_append_left _ (List.mem_append_left _ heg'), hegs⟩
          · refine Or.inl ⟨DEntry.mk (e.cost + finalweight A g) st.cntr none, ?_, rfl⟩
            refine List.mem_append_left _ (List.mem_append_right _ ?_)
            exact hfpmem hg
        · -- the start stays explored
          dsimp only
          split <;> simp [h4]

/-- A completed `dijkstra` run returns a finite cost whenever some final
state is reachable from the start, on an FST with finite weights. -/
theorem dijkstraFuel_finite (A : FST) (hF : FiniteWeights A) (s f : Nat)
    (hf : f ∈ A.finalstates) (hreach : Reach A s f) (fuel : Nat) (w : W)
    (h : dijkstraFuel A s fuel = some w) : w ≠ ⊤ := by
  refine dijRun_finite A hF.1 hF.2 s f hf hreach fuel _ ?_ ?_ ?_ ?_ w h
  · intro e he
    simp only [List.mem_singleton] at he
    rw [he]
    exact WithTop.zero_ne_top
  · intro x hx
    simp only [List.mem_singleton] at hx
    exact Or.inl ⟨DEntry.mk 0 0 (some s), by simp, by rw [hx]⟩
  · intro g _ hgE
    simp only [List.mem_singleton] at hgE
    exact Or.inr ⟨DEntry.mk 0 0 (some s), by simp, by rw [hgE]⟩
  · simp

/-- A completed `dijkstra_all` run records, for every state, its completed
single-source result. -/
theorem dijkstraAll_spec (A : FST) (fuel : Nat) :
    ∀ (pots : List (Nat × W)), dijkstraAll A fuel = some pots →
      ∀ s ∈ A.states, ∃ w, alookup pots s = some w ∧
        dijkstraFuel A s fuel = some w := by
  unfold dijkstraAll
  induction A.states with
  | nil =>
    intro pots h s hs
    simp at hs
  | cons hd tl ih =>
    intro pots h s hs
    simp only [List.foldr_cons] at h
    split at h
    · rename_i l w hfold hdij
      simp only [Option.some.injEq] at h
      rcases List.mem_cons.mp hs with h1 | h1
      · refine ⟨w, ?_, by rw [h1]; exact hdij⟩
        rw [← h, h1, alookup, if_pos rfl]
      · by_cases hsd : hd = s
        · refine ⟨w, ?_, by rw [← hsd]; exact hdij⟩
          rw [← h, alookup, if_pos hsd]
        · obtain ⟨w', hl', hd'⟩ := ih l hfold s h1
          refine ⟨w', ?_, hd'⟩
          rw [← h, alookup, if_neg hsd]
          exact hl'
    · simp at h

/-- The potential of a final-reaching state is finite after a completed
`dijkstra_all`. -/
theorem phi_finite (A : FST) (hF : FiniteWeights A) (fuel : Nat)
    (pots : List (Nat × W)) (hall : dijkstraAll A fuel = some pots)
    (s f : Nat) (hs : s ∈ A.states) (hf : f ∈ A.finalstates)
    (hreach : Reach A s f) : pushPhi pots s ≠ ⊤ := by
  obtain ⟨w, hl, hd⟩ := dijkstraAll_spec A fuel pots hall s hs
  unfold pushPhi
  rw [hl]
  simp only [Option.getD_some]
  exact dijkstraFuel_finite A hF s f hf hreach fuel w hd

/-- Lookup through the first `push_weights` pass. -/
theorem alookup_phase1 (A : FST) (phi : Nat → W) (s : Nat) (hs : s ∈ A.states) :
    alookup (phase1Delta A phi) s = (alookup A.delta s).map (fun d =>
      d.map (fun lt => (lt.1, lt.2.map (fun t =>
        Trs.mk t.targetstate t.label
          (t.weight + wsub (phi t.targetstate) (phi s)))))) := by
  unfold phase1Delta
  induction A.delta with
  | nil => rfl
  | cons hd tl ih =>
    obtain ⟨k0, d0⟩ := hd
    simp only [List.map_cons]
    by_cases hk : k0 = s
    · rw [hk, if_pos hs]
      simp [alookup]
    · by_cases hk0 : k0 ∈ A.states
      · rw [if_pos hk0]
        simp only [alookup, if_neg hk]
        exact ih
      · rw [if_neg hk0]
        simp only [alookup, if_neg hk]
        exact ih

/-- Lookup through the residual `push_weights` pass. -/
theorem alookup_phase2 (d : List (Nat × TDict)) (M : List Nat) (r : W) (s : Nat) :
    alookup (phase2Delta d M r) s = (alookup d s).map (fun dd =>
      if s ∈ M then
        dd.map (fun lt => (lt.1, lt.2.map (fun t =>
          if t.targetstate ∈ M then t
          else Trs.mk t.targetstate t.label (t.weight + r))))
      else dd) := by
  unfold phase2Delta
  induction d with
  | nil => rfl
  | cons hd tl ih =>
    obtain ⟨k0, d0⟩ := hd
    simp only [List.map_cons]
    by_cases hk : k0 = s
    · subst hk
      by_cases hM : k0 ∈ M
      · rw [if_pos hM]
        simp [alookup, hM]
      · rw [if_neg hM]
        simp [alookup, hM]
    · by_cases hM : k0 ∈ M
      · rw [if_pos hM]
        simp only [alookup, if_neg hk]
        exact ih
      · rw [if_neg hM]
        simp only [alookup, if_neg hk]
        exact ih

/-- The per-arc effect of the full `push_weights` transform (residual
branch): potentials shift every arc, and arcs leaving `M` also gain `r`. -/
theorem stepTrans_push (A B : FST) (phi : Nat → W) (M : List Nat) (r : W)
    (hB : B.delta = phase2Delta (phase1Delta A phi) M r)
    (stp : Step) (tr : Trs) (hs : stp.src ∈ A.states)
    (h : stepTrans A stp = some tr) :
    stepTrans B stp = some (
      if stp.src ∈ M then
        (if tr.targetstate ∈ M then
          Trs.mk tr.targetstate tr.label
            (tr.weight + wsub (phi tr.targetstate) (phi stp.src))
        else
          Trs.mk tr.targetstate tr.label
            ((tr.weight + wsub (phi tr.targetstate) (phi stp.src)) + r))
      else
        Trs.mk tr.targetstate tr.label
          (tr.weight + wsub (phi tr.targetstate) (phi stp.src))) := by
  unfold stepTrans deltaOf at h ⊢
  rw [hB, alookup_phase2, alookup_phase1 A phi _ hs]
  cases hal : alookup A.delta stp.src with
  | none => rw [hal] at h; simp [alookup] at h
  | some dd =>
    rw [hal] at h
    rw [Option.getD_some] at h
    cases hb : alookup dd stp.lbl with
    | none => rw [hb] at h; simp at h
    | some bkt =>
      rw [hb] at h
      have hget : bkt.get? stp.idx = some tr := h
      simp only [Option.map_some', Option.getD_some]
      by_cases hsM : stp.src ∈ M
      · rw [if_pos hsM]
        rw [alookup_map_snd, alookup_map_snd, hb]
        simp only [Option.map_some']
        show (List.get? _ stp.idx) = _
        rw [List.get?_map, List.get?_map, hget]
        simp only [Option.map_some']
        by_cases htM : tr.targetstate ∈ M <;> simp [hsM, htM]
      · rw [if_neg hsM]
        rw [alookup_map_snd]
        rw [hb]
        simp only [Option.map_some']
        show (List.get? _ stp.idx) = _
        rw [List.get?_map, hget]
        simp only [Option.map_some']
        rw [if_neg hsM]

/-- The per-arc effect of `push_weights` when no residual remains:
only the potential shift is applied. -/
theorem stepTrans_push0 (A B : FST) (phi : Nat → W)
    (hB : B.delta = phase1Delta A phi)
    (stp : Step) (tr : Trs) (hs : stp.src ∈ A.states)
    (h : stepTrans A stp = some tr) :
    stepTrans B stp = some (Trs.mk tr.targetstate tr.label
      (tr.weight + wsub (phi tr.targetstate) (phi stp.src))) := by
  unfold stepTrans deltaOf at h ⊢
  rw [hB, alookup_phase1 A phi _ hs]
  cases hal : alookup A.delta stp.src with
  | none => rw [hal] at h; simp [alookup] at h
  | some dd =>
    rw [hal] at h
    rw [Option.getD_some] at h
    cases hb : alookup dd stp.lbl with
    | none => rw [hb] at h; simp at h
    | some bkt =>
      rw [hb] at h
      have hget : bkt.get? stp.idx = some tr := h
      simp only [Option.map_some', Option.getD_some]
      rw [alookup_map_snd, hb]
      simp only [Option.map_some']
      show (List.get? _ stp.idx) = _
      rw [List.get?_map, hget]
      simp only [Option.map_some']

/-- A fold of key-local updates leaves other keys untouched. -/
theorem foldl_lookup_not_mem (f : List (Nat × W) → Nat → List (Nat × W))
    (hstep : ∀ acc x k, k ≠ x → alookup (f acc x) k = alookup acc k) :
    ∀ (l : List Nat) (acc : List (Nat × W)) (k : Nat), k ∉ l →
      alookup (l.foldl f acc) k = alookup acc k := by
  intro l
  induction l with
  | nil => intro acc k _; rfl
  | cons x rest ih =>
    intro acc k hk
    simp only [List.mem_cons, not_or] at hk
    rw [List.foldl_cons, ih _ _ hk.2, hstep _ _ _ hk.1]

/-- Lookup through the final-weight shift fold of `push_weights`:
each final state's entry becomes its base value minus its potential. -/
theorem fwFold1_lookup (phi : Nat → W) (base : List (Nat × W)) :
    ∀ (l : List Nat) (acc : List (Nat × W)), l.Nodup →
      (∀ g ∈ l, alookup acc g = alookup base g) →
      ∀ f ∈ l,
        alookup (l.foldl
          (fun fw s => aset fw s (wsub ((alookup fw s).getD ⊤) (phi s))) acc) f
          = some (wsub ((alookup base f).getD ⊤) (phi f)) := by
  intro l
  induction l with
  | nil => intro acc _ _ f hf; cases hf
  | cons x rest ih =>
    intro acc hnd hbase f hf
    have hndr : rest.Nodup := (List.nodup_cons.mp hnd).2
    have hxr : x ∉ rest := (List.nodup_cons.mp hnd).1
    rw [List.foldl_cons]
    rcases List.mem_cons.mp hf with hfx | hfr
    · subst hfx
      rw [foldl_lookup_not_mem _ (fun acc x k hk => alookup_aset_ne acc x k _ hk)
            rest _ f hxr]
      rw [alookup_aset_self, hbase f (List.mem_cons_self _ _)]
    · refine ih _ hndr ?_ f hfr
      intro g hg
      have hgx : g ≠ x := fun e => hxr (e ▸ hg)
      rw [alookup_aset_ne _ _ _ _ hgx, hbase g (List.mem_cons_of_mem _ hg)]

/-- Lookup through the residual final-weight fold of `push_weights`:
finals inside the initial component gain `r`, the rest keep their value. -/
theorem fwFold2_lookup (M : List Nat) (r : W) (base : List (Nat × W)) :
    ∀ (l : List Nat) (acc : List (Nat × W)), l.Nodup →
      (∀ g ∈ l, alookup acc g = alookup base g) →
      ∀ f ∈ l,
        alookup (l.foldl
          (fun fw s => if s ∈ M then
              aset fw s (((alookup fw s).getD ⊤) + r) else fw) acc) f
          = if f ∈ M then some (((alookup base f).getD ⊤) + r)
            else alookup base f := by
  intro l
  induction l with
  | nil => intro acc _ _ f hf; cases hf
  | cons x rest ih =>
    intro acc hnd hbase f hf
    have hndr : rest.Nodup := (List.nodup_cons.mp hnd).2
    have hxr : x ∉ rest := (List.nodup_cons.mp hnd).1
    rw [List.foldl_cons]
    have hstep : ∀ (acc : List (Nat × W)) (y k : Nat), k ≠ y →
        alookup (if y ∈ M then
          aset acc y (((alookup acc y).getD ⊤) + r) else acc) k = alookup acc k := by
      intro acc y k hk
      by_cases hy : y ∈ M
      · rw [if_pos hy, alookup_aset_ne _ _ _ _ hk]
      · rw [if_neg hy]
    rcases List.mem_cons.mp hf with hfx | hfr
    · subst hfx
      rw [foldl_lookup_not_mem _ hstep rest _ f hxr]
      by_cases hfM : f ∈ M
      · rw [if_pos hfM, if_pos hfM, alookup_aset_self,
            hbase f (List.mem_cons_self _ _)]
      · rw [if_neg hfM, if_neg hfM, hbase f (List.mem_cons_self _ _)]
    · refine (ih _ hndr ?_ f hfr)
      intro g hg
      have hgx : g ≠ x := fun e => hxr (e ▸ hg)
      rw [hstep _ _ _ hgx, hbase g (List.mem_cons_of_mem _ hg)]

/-- Decomposing a successful step lookup into its dictionary entries. -/
theorem stepTrans_decomp (A : FST) (stp : Step) (tr : Trs)
    (h : stepTrans A stp = some tr) :
    ∃ dd bkt, alookup A.delta stp.src = some dd ∧
      alookup dd stp.lbl = some bkt ∧ tr ∈ bkt ∧
      tr.targetstate ∈ targetsOf A stp.src := by
  unfold stepTrans deltaOf at h
  cases hal : alookup A.delta stp.src with
  | none => rw [hal] at h; simp [alookup] at h
  | some dd =>
    rw [hal, Option.getD_some] at h
    cases hb : alookup dd stp.lbl with
    | none => rw [hb] at h; simp at h
    | some bkt =>
      rw [hb] at h
      have hget : bkt.get? stp.idx = some tr := h
      have hmem : tr ∈ bkt := List.get?_mem hget
      refine ⟨dd, bkt, rfl, hb, hmem, ?_⟩
      unfold targetsOf deltaOf
      rw [hal, Option.getD_some]
      exact List.mem_flatMap.mpr
        ⟨(stp.lbl, bkt), alookup_mem dd stp.lbl bkt hb,
          List.mem_map.mpr ⟨tr, hmem, rfl⟩⟩

/-- In a closed FST every traversed arc keeps us inside the state set. -/
theorem stepTrans_closed (A : FST) (hC : Closed A) (stp : Step) (tr : Trs)
    (h : stepTrans A stp = some tr) :
    stp.src ∈ A.states ∧ tr.targetstate ∈ A.states := by
  obtain ⟨dd, bkt, hal, hb, hmem, _⟩ := stepTrans_decomp A stp tr h
  have hsd : (stp.src, dd) ∈ A.delta := alookup_mem _ _ _ hal
  have hlt : (stp.lbl, bkt) ∈ dd := alookup_mem _ _ _ hb
  obtain ⟨hsrc, htgt⟩ := hC.2 _ hsd
  exact ⟨hsrc, htgt _ hlt _ hmem⟩

/-- Reachability extends along one more arc. -/
theorem reach_snoc (A : FST) (a b c : Nat) (hab : Reach A a b)
    (hbc : c ∈ targetsOf A b) : Reach A a c := by
  induction hab with
  | refl s => exact Reach.head s c c hbc (Reach.refl c)
  | head s t u ht _ ih => exact Reach.head s t c ht (ih hbc)

/-- The endpoint of a path starting inside the state set stays inside. -/
theorem path_end_mem (A : FST) (hC : Closed A) :
    ∀ (π : List Step) (s f : Nat), IsPath A s π f → s ∈ A.states →
      f ∈ A.states := by
  intro π
  induction π with
  | nil => intro s f h hs; exact h ▸ hs
  | cons stp rest ih =>
    intro s f h _
    obtain ⟨_, tr, htr, hrest⟩ := h
    exact ih tr.targetstate f hrest (stepTrans_closed A hC stp tr htr).2

/-- Once a path leaves a set `M` that forbids reentry from reachable
states, it never returns; in particular its endpoint stays outside. -/
theorem noReentry_along (A : FST) (M : List Nat)
    (hNoRe : ∀ u v, Reach A A.initialstate u → u ∉ M →
      v ∈ targetsOf A u → v ∉ M) :
    ∀ (π : List Step) (x f : Nat), IsPath A x π f →
      Reach A A.initialstate x → x ∉ M → f ∉ M := by
  intro π
  induction π with
  | nil => intro x f h _ hx; exact h ▸ hx
  | cons stp rest ih =>
    intro x f h hreach hx
    obtain ⟨hsrc, tr, htr, hrest⟩ := h
    subst hsrc
    obtain ⟨_, _, _, _, _, htgtOf⟩ := stepTrans_decomp A stp tr htr
    have htM : tr.targetstate ∉ M := hNoRe stp.src tr.targetstate hreach hx htgtOf
    exact ih tr.targetstate f hrest (reach_snoc A _ _ _ hreach htgtOf) htM

/-- Saturated subtraction agrees with integer subtraction on finite values. -/
theorem wsub_coe (a b : ℤ) : wsub (a : W) (b : W) = ((a - b : ℤ) : W) := rfl

/-- Rearranging a finite shift across a possibly infinite sum. -/
theorem wgroup (w c : W) (a b d : ℤ) (h : a + b = d) :
    (w + (a : W)) + (c + (b : W)) = (w + c) + ((d : ℤ) : W) := by
  rw [add_add_add_comm, ← WithTop.coe_add, h]

/-- Folding two finite additions on the right of a possibly infinite sum. -/
theorem waddshift (c : W) (a b d : ℤ) (h : a + b = d) :
    (c + (a : W)) + (b : W) = c + ((d : ℤ) : W) := by
  rw [add_assoc, ← WithTop.coe_add, h]

/-- Telescoping of `push_weights` with a residual: along any path to `f`,
the transformed cost differs from the original by the potential difference
plus the residual exactly when the path starts inside `M` and ends
outside. -/
theorem pathCost_push_telescope (A B : FST) (phi : Nat → W) (M : List Nat)
    (r : W) (hB : B.delta = phase2Delta (phase1Delta A phi) M r)
    (hC : Closed A)
    (hNoRe : ∀ u v, Reach A A.initialstate u → u ∉ M →
      v ∈ targetsOf A u → v ∉ M)
    (f : Nat) (gf : ℤ) (hgf : phi f = (gf : W)) (ri : ℤ) (hr : r = (ri : W))
    (hphi : ∀ x, x ∈ A.states → Reach A x f → ∃ g : ℤ, phi x = (g : W)) :
    ∀ (π : List Step) (s : Nat), IsPath A s π f → Reach A A.initialstate s →
      ∀ gs : ℤ, phi s = (gs : W) →
      pathCost B π = pathCost A π +
        ((gf - gs + (if s ∈ M ∧ f ∉ M then ri else 0) : ℤ) : W) := by
  intro π
  induction π with
  | nil =>
    intro s hpath _ gs hgs
    have hsf : s = f := hpath
    have hgg : gs = gf := by
      rw [hsf] at hgs; rw [hgs] at hgf; exact_mod_cast hgf
    have hnot : ¬(s ∈ M ∧ f ∉ M) := fun hp => hp.2 (hsf ▸ hp.1)
    rw [if_neg hnot, hgg]
    simp [pathCost]
  | cons stp rest ih =>
    intro s hpath hreach gs hgs
    obtain ⟨hsrc, tr, htr, hrest⟩ := hpath
    subst hsrc
    have hcl := stepTrans_closed A hC stp tr htr
    obtain ⟨_, _, _, _, _, htgtOf⟩ := stepTrans_decomp A stp tr htr
    have hreach_t : Reach A A.initialstate tr.targetstate :=
      reach_snoc A _ _ _ hreach htgtOf
    have hreach_tf : Reach A tr.targetstate f := path_reach A rest _ f hrest
    obtain ⟨gt, hgt⟩ := hphi tr.targetstate hcl.2 hreach_tf
    have harc := stepTrans_push A B phi M r hB stp tr hcl.1 htr
    have hIH := ih tr.targetstate hrest hreach_t gt hgt
    show ((stepTrans B stp).map Trs.weight).getD ⊤ + pathCost B rest
        = ((stepTrans A stp).map Trs.weight).getD ⊤ + pathCost A rest + _
    rw [harc, htr, hIH]
    simp only [Option.map_some', Option.getD_some]
    rw [hgt, hgs, wsub_coe]
    by_cases hsM : stp.src ∈ M
    · by_cases htM : tr.targetstate ∈ M
      · rw [if_pos hsM, if_pos htM]
        have hcr : (if tr.targetstate ∈ M ∧ f ∉ M then ri else 0)
            = (if stp.src ∈ M ∧ f ∉ M then ri else 0) := by
          simp [hsM, htM]
        rw [hcr]
        exact wgroup tr.weight (pathCost A rest) _ _ _ (by ring)
      · rw [if_pos hsM, if_neg htM]
        have hfM : f ∉ M :=
          noReentry_along A M hNoRe rest tr.targetstate f hrest hreach_t htM
        have hcrt : (if tr.targetstate ∈ M ∧ f ∉ M then ri else 0) = 0 := by
          simp [htM]
        have hcrs : (if stp.src ∈ M ∧ f ∉ M then ri else 0) = ri := by
          simp [hsM, hfM]
        rw [hcrt, hcrs, hr, waddshift tr.weight _ _ (gt - gs + ri) (by ring)]
        exact wgroup tr.weight (pathCost A rest) _ _ _ (by ring)
    · rw [if_neg hsM]
      have htM : tr.targetstate ∉ M :=
        hNoRe stp.src tr.targetstate hreach hsM htgtOf
      have hcrt : (if tr.targetstate ∈ M ∧ f ∉ M then ri else 0) = 0 := by
        simp [htM]
      have hcrs : (if stp.src ∈ M ∧ f ∉ M then ri else 0) = 0 := by
        simp [hsM]
      rw [hcrt, hcrs]
      exact wgroup tr.weight (pathCost A rest) _ _ _ (by ring)

/-- Telescoping of `push_weights` without a residual: the transformed cost
is the original plus the potential difference of the endpoints. -/
theorem pathCost_push0_telescope (A B : FST) (phi : Nat → W)
    (hB : B.delta = phase1Delta A phi) (hC : Closed A)
    (f : Nat) (gf : ℤ) (hgf : phi f = (gf : W))
    (hphi : ∀ x, x ∈ A.states → Reach A x f → ∃ g : ℤ, phi x = (g : W)) :
    ∀ (π : List Step) (s : Nat), IsPath A s π f →
      ∀ gs : ℤ, phi s = (gs : W) →
      pathCost B π = pathCost A π + ((gf - gs : ℤ) : W) := by
  intro π
  induction π with
  | nil =>
    intro s hpath gs hgs
    have hsf : s = f := hpath
    subst hsf
    have hgg : gs = gf := by
      rw [hgs] at hgf; exact_mod_cast hgf
    subst hgg
    simp [pathCost]
  | cons stp rest ih =>
    intro s hpath gs hgs
    obtain ⟨hsrc, tr, htr, hrest⟩ := hpath
    subst hsrc
    have hcl := stepTrans_closed A hC stp tr htr
    have hreach_tf : Reach A tr.targetstate f := path_reach A rest _ f hrest
    obtain ⟨gt, hgt⟩ := hphi tr.targetstate hcl.2 hreach_tf
    have harc := stepTrans_push0 A B phi hB stp tr hcl.1 htr
    have hIH := ih tr.targetstate hrest gt hgt
    show ((stepTrans B stp).map Trs.weight).getD ⊤ + pathCost B rest
        = ((stepTrans A stp).map Trs.weight).getD ⊤ + pathCost A rest + _
    rw [harc, htr, hIH]
    simp only [Option.map_some', Option.getD_some]
    rw [hgt, hgs, wsub_coe]
    exact wgroup tr.weight (pathCost A rest) _ _ _ (by ring)

/-- Folding three finite summands on the right of a possibly infinite sum. -/
theorem wfinish (c : W) (a b e t : ℤ) (h : a + (b + e) = t) :
    (c + (a : W)) + ((b : W) + (e : W)) = c + (t : W) := by
  rw [add_assoc, ← WithTop.coe_add b e, ← WithTop.coe_add, h]

/-- `push_weights` preserves total path weight, given the soundness and
maximality of the computed strongly connected components. -/
theorem C9_core (A B : FST) (fuel : Nat)
    (hF : FiniteWeights A) (hC : Closed A) (hN : A.finalstates.Nodup)
    (hsound : ∀ comps, sccFuel A fuel = some comps →
      ∀ c ∈ comps, ∀ x ∈ c, ∀ y ∈ c, SCCeq A x y)
    (hcomplete : ∀ comps, sccFuel A fuel = some comps →
      ∀ c ∈ comps, ∀ x ∈ c, ∀ y, SCCeq A x y → y ∈ c)
    (hpw : pushWeightsFuel A fuel = some B)
    (π : List Step) (f : Nat)
    (hpath : IsPath A A.initialstate π f) (hf : f ∈ A.finalstates) :
    pathCost B π + finalweight B f = pathCost A π + finalweight A f := by
  have hreach_f : Reach A A.initialstate f := path_reach A π _ f hpath
  have hfst : f ∈ A.states := path_end_mem A hC π _ f hpath hC.1
  unfold pushWeightsFuel at hpw
  split at hpw
  · exact absurd hpw (by simp)
  rename_i pots heq
  have hphiF : ∀ x, x ∈ A.states → Reach A x f →
      ∃ g : ℤ, pushPhi pots x = (g : W) := by
    intro x hx hr
    have hne := phi_finite A hF fuel pots heq x f hx hf hr
    obtain ⟨g, hg⟩ := WithTop.ne_top_iff_exists.mp hne
    exact ⟨g, hg.symm⟩
  obtain ⟨gf, hgf⟩ := hphiF f hfst (Reach.refl f)
  obtain ⟨g0, hg0⟩ := hphiF A.initialstate hC.1 hreach_f
  have hfwA := hF.2 f hf
  obtain ⟨fwi, hfwi⟩ := WithTop.ne_top_iff_exists.mp hfwA
  dsimp only at hpw
  split at hpw
  · -- residual branch: r ≠ 0
    rename_i hr0
    split at hpw
    · exact absurd hpw (by simp)
    rename_i comps hscc
    split at hpw
    · exact absurd hpw (by simp)
    rename_i M hfind
    have hB := (Option.some.injEq _ _).mp hpw
    have hMcomps : M ∈ comps := List.mem_of_find?_eq_some hfind
    have hinitM : A.initialstate ∈ M := by
      have := List.find?_some hfind
      simpa using this
    have hNoRe : ∀ u v, Reach A A.initialstate u → u ∉ M →
        v ∈ targetsOf A u → v ∉ M := by
      intro u v hru huM hv hvM
      have hscc_iv : SCCeq A A.initialstate v :=
        hsound comps hscc M hMcomps A.initialstate hinitM v hvM
      have hui : Reach A u A.initialstate :=
        Reach.head u v _ hv hscc_iv.2
      exact huM (hcomplete comps hscc M hMcomps A.initialstate hinitM u
        ⟨hru, hui⟩)
    have hBdelta : B.delta = phase2Delta (phase1Delta A (pushPhi pots)) M
        (pushPhi pots A.initialstate) := by rw [← hB]
    have hBfw : B.fw = phase2Fw (phase1Fw A (pushPhi pots)) A M
        (pushPhi pots A.initialstate) := by rw [← hB]
    have hcost := pathCost_push_telescope A B (pushPhi pots) M _ hBdelta hC
      hNoRe f gf hgf g0 hg0 hphiF π A.initialstate hpath
      (Reach.refl A.initialstate) g0 hg0
    have hfw1 := fwFold1_lookup (pushPhi pots) A.fw A.finalstates A.fw hN
      (fun _ _ => rfl) f hf
    have hfw2 := fwFold2_lookup M (pushPhi pots A.initialstate)
      (phase1Fw A (pushPhi pots)) A.finalstates (phase1Fw A (pushPhi pots))
      hN (fun _ _ => rfl) f hf
    have hsubval : wsub ((alookup A.fw f).getD ⊤) (pushPhi pots f)
        = ((fwi - gf : ℤ) : W) := by
      have : (alookup A.fw f).getD ⊤ = ((fwi : ℤ) : W) := by
        unfold finalweight at hfwi; exact hfwi.symm
      rw [this, hgf, wsub_coe]
    have hfwB : finalweight B f =
        (if f ∈ M then ((fwi - gf : ℤ) : W) + pushPhi pots A.initialstate
         else ((fwi - gf : ℤ) : W)) := by
      unfold finalweight
      rw [hBfw]
      unfold phase2Fw
      have hfw1f : alookup (phase1Fw A (pushPhi pots)) f
          = some (wsub ((alookup A.fw f).getD ⊤) (pushPhi pots f)) := hfw1
      rw [hfw2, hfw1f, Option.getD_some, hsubval]
      by_cases hfM : f ∈ M
      · rw [if_pos hfM, if_pos hfM, Option.getD_some]
      · rw [if_neg hfM, if_neg hfM, Option.getD_some]
    have hfwAval : finalweight A f = ((fwi : ℤ) : W) := hfwi.symm
    rw [hcost, hfwB, hfwAval, hg0]
    by_cases hfM : f ∈ M
    · rw [if_pos hfM]
      have hcr : (if A.initialstate ∈ M ∧ f ∉ M then g0 else 0) = 0 := by
        simp [hfM]
      rw [hcr]
      exact wfinish (pathCost A π) _ _ _ _ (by ring)
    · rw [if_neg hfM]
      have hcr : (if A.initialstate ∈ M ∧ f ∉ M then g0 else 0) = g0 := by
        simp [hinitM, hfM]
      rw [hcr]
      exact waddshift (pathCost A π) _ _ _ (by ring)
  · -- no residual: r = 0
    rename_i hr0
    have hB := (Option.some.injEq _ _).mp hpw
    have hr0' : pushPhi pots A.initialstate = 0 := by
      by_contra hne; exact hr0 hne
    have hg00 : (g0 : W) = ((0 : ℤ) : W) := by
      rw [← hg0, hr0']; rfl
    have hg0z : g0 = 0 := by exact_mod_cast hg00
    have hBdelta : B.delta = phase1Delta A (pushPhi pots) := by rw [← hB]
    have hBfw : B.fw = phase1Fw A (pushPhi pots) := by rw [← hB]
    have hcost := pathCost_push0_telescope A B (pushPhi pots) hBdelta hC
      f gf hgf hphiF π A.initialstate hpath g0 hg0
    have hfw1 := fwFold1_lookup (pushPhi pots) A.fw A.finalstates A.fw hN
      (fun _ _ => rfl) f hf
    have hsubval : wsub ((alookup A.fw f).getD ⊤) (pushPhi pots f)
        = ((fwi - gf : ℤ) : W) := by
      have : (alookup A.fw f).getD ⊤ = ((fwi : ℤ) : W) := by
        unfold finalweight at hfwi; exact hfwi.symm
      rw [this, hgf, wsub_coe]
    have hfwB : finalweight B f = ((fwi - gf : ℤ) : W) := by
      unfold finalweight
      rw [hBfw]
      unfold phase1Fw
      rw [hfw1, Option.getD_some, hsubval]
    have hfwAval : finalweight A f = ((fwi : ℤ) : W) := hfwi.symm
    rw [hcost, hfwB, hfwAval, hg0z]
    exact waddshift (pathCost A π) _ _ _ (by ring)

/-- C10: compiling the token stream of the regex `$x?` against
`defined = {x ↦ the acceptor of a}` mutates the FST stored in `defined`:
the VARIABLE handler pushes the stored object itself onto the compile stack
without copying, and the OPTIONAL handler then calls `optional()` on that
very object, so the heap slot `defined['x']` refers to afterwards holds
`optionalF A`, which differs from the original `A`. -/
theorem C10_regex_mutates_defined :
    (compRun [("x", 0)] [RToken.VARIABLE "x", RToken.OPTIONAL]
        { heap := [(0, fstFromLabel ["a"] 0)], stack := [] }) =
      some { heap := [(0, optionalF (fstFromLabel ["a"] 0))], stack := [[0]] } ∧
    optionalF (fstFromLabel ["a"] 0) ≠ fstFromLabel ["a"] 0 := by decide

/-- Reachability is transitive. -/
theorem reach_trans (A : FST) (a b c : Nat) (hab : Reach A a b)
    (hbc : Reach A b c) : Reach A a c := by
  induction hab with
  | refl s => exact hbc
  | head s t u ht _ ih => exact Reach.head s t c ht (ih hbc)

/-- Mutual reachability is symmetric. -/
theorem sccEq_symm (A : FST) (a b : Nat) (h : SCCeq A a b) : SCCeq A b a :=
  ⟨h.2, h.1⟩

/-- Mutual reachability is transitive. -/
theorem sccEq_trans (A : FST) (a b c : Nat) (h1 : SCCeq A a b)
    (h2 : SCCeq A b c) : SCCeq A a c :=
  ⟨reach_trans A a b c h1.1 h2.1, reach_trans A c b a h2.2 h1.2⟩

/-- A chain survives replacing its relation by one that agrees on the
chain's members. -/
theorem chain_ext_mem {α : Type} (R R2 : α → α → Prop) :
    ∀ l : List α, (∀ a ∈ l, ∀ b ∈ l, R a b → R2 a b) →
      List.Chain' R l → List.Chain' R2 l := by
  intro l
  induction l with
  | nil => intro _ _; exact List.chain'_nil
  | cons x rest ih =>
    intro hagree hch
    cases rest with
    | nil => exact List.chain'_singleton x
    | cons y rest2 =>
      rw [List.chain'_cons] at hch ⊢
      refine ⟨hagree x (by simp) y (by simp) hch.1, ?_⟩
      exact ih (fun a ha b hb hr => hagree a (by simp [ha]) b (by simp [hb]) hr)
        hch.2

/-- A chain restricts to any suffix. -/
theorem chain_suffix {α : Type} (R : α → α → Prop) :
    ∀ (P l : List α), List.Chain' R (P ++ l) → List.Chain' R l := by
  intro P
  induction P with
  | nil => intro l h; exact h
  | cons x rest ih =>
    intro l h
    exact ih l (List.Chain'.tail h)

/-- `popSccFrom` splits the stack at the first occurrence of `v`. -/
theorem popSccFrom_eq (v : Nat) :
    ∀ (P R : List Nat), v ∉ P → popSccFrom v (P ++ v :: R) = (P ++ [v], R) := by
  intro P
  induction P with
  | nil => intro R _; simp [popSccFrom]
  | cons x rest ih =>
    intro R hv
    simp only [List.mem_cons, not_or] at hv
    have hne : ¬ x = v := fun e => hv.1 e.symm
    simp only [List.cons_append, popSccFrom, if_neg hne]
    show (x :: (popSccFrom v (rest ++ v :: R)).1,
      (popSccFrom v (rest ++ v :: R)).2) = _
    rw [ih R hv.2]

/-- Emission is monotone under component extension. -/
theorem temitted_mono (ts out : TarjanSt) (hext : ∃ new, out.sccs = new ++ ts.sccs)
    (x : Nat) (h : TEmitted ts x) : TEmitted out x := by
  obtain ⟨new, hnew⟩ := hext
  obtain ⟨c, hc, hx⟩ := h
  exact ⟨c, by rw [hnew]; exact List.mem_append_right _ hc, hx⟩

/-- The identity frame. -/
theorem tframe_refl (ts : TarjanSt) : TFrame ts ts :=
  ⟨le_refl _, fun _ _ h => h, fun _ _ h => Or.inl h, ⟨[], rfl⟩,
    ⟨[], rfl, by intro x hx; cases hx⟩⟩

/-- Frames compose. -/
theorem tframe_trans (a b c : TarjanSt) (h1 : TFrame a b) (h2 : TFrame b c) :
    TFrame a c := by
  refine ⟨le_trans h1.ctrMono h2.ctrMono, ?_, ?_, ?_, ?_⟩
  · intro x i h; exact h2.idxMono x i (h1.idxMono x i h)
  · intro x i h
    rcases h2.idxNew x i h with h' | h'
    · exact h1.idxNew x i h'
    · exact Or.inr (le_trans h1.ctrMono h')
  · obtain ⟨n1, e1⟩ := h1.sccExt
    obtain ⟨n2, e2⟩ := h2.sccExt
    exact ⟨n2 ++ n1, by rw [e2, e1, List.append_assoc]⟩
  · obtain ⟨p1, e1, hp1⟩ := h1.stackExt
    obtain ⟨p2, e2, hp2⟩ := h2.stackExt
    refine ⟨p2 ++ p1, by rw [e2, e1, List.append_assoc], ?_⟩
    intro x hx
    rcases List.mem_append.mp hx with hx' | hx'
    · cases hal : alookup a.indices x with
      | none => rfl
      | some i =>
        have := h1.idxMono x i hal
        rw [hp2 x hx'] at this
        cases this
    · exact hp1 x hx'

/-- Every stack state discovered at or after the current root `v` reaches
`v`: by strong induction on the discovery index, following the lowlink
witness chain, which either drops below `v` (and then the stack order
invariant closes the gap) or strictly descends. -/
theorem stack_reaches_root (A : FST) (G : List Nat) (v n0 : Nat)
    (ts : TarjanSt) (hwf : TWF A (v :: G) ts) (hv : v ∈ ts.S)
    (hvidx : alookup ts.indices v = some n0)
    (hG : ∀ g ∈ G, ∃ i, alookup ts.indices g = some i ∧ i < n0) :
    ∀ x ∈ ts.S, n0 ≤ idxv ts x → Reach A x v := by
  have hvx : idxv ts v = n0 := by unfold idxv; rw [hvidx]; rfl
  suffices H : ∀ N, ∀ x ∈ ts.S, n0 ≤ idxv ts x → idxv ts x < N → Reach A x v by
    intro x hx hn
    exact H (idxv ts x + 1) x hx hn (Nat.lt_succ_self _)
  intro N
  induction N with
  | zero => intro x _ _ h; omega
  | succ N ih =>
    intro x hx hn hlt
    by_cases hxv : x = v
    · subst hxv; exact Reach.refl x
    · have hxG : x ∉ v :: G := by
        intro hmem
        rcases List.mem_cons.mp hmem with h | h
        · exact hxv h
        · obtain ⟨i, hi, hib⟩ := hG x h
          have : idxv ts x = i := by unfold idxv; rw [hi]; rfl
          omega
      have hstrict := hwf.blackStrict x hx hxG
      obtain ⟨hle, y, hyS, hyidx, hreach⟩ := hwf.lowWit x hx
      rcases lt_or_ge (idxv ts y) n0 with hy | hy
      · have hyv : Reach A y v := hwf.reachS y hyS v hv (by omega)
        exact reach_trans A x y v hreach hyv
      · have hyv : Reach A y v := ih y hyS hy (by omega)
        exact reach_trans A x y v hreach hyv

/-- Decreasing a gray state's lowlink to a value that keeps a stack
witness preserves the invariant. -/
theorem twf_update_low (A : FST) (G : List Nat) (ts : TarjanSt) (v nl : Nat)
    (hwf : TWF A G ts) (hvG : v ∈ G) (hle : nl ≤ idxv ts v)
    (hwit : ∃ y ∈ ts.S, idxv ts y = nl ∧ Reach A v y) :
    TWF A G { ts with lowlink := aset ts.lowlink v nl } := by
  have hlv : lowv { ts with lowlink := aset ts.lowlink v nl } v = nl := by
    unfold lowv; simp [alookup_aset_self]
  have hlo : ∀ x, x ≠ v →
      lowv { ts with lowlink := aset ts.lowlink v nl } x = lowv ts x := by
    intro x hx; unfold lowv
    rw [show alookup (aset ts.lowlink v nl) x = alookup ts.lowlink x from
      alookup_aset_ne _ _ _ _ hx]
  refine { hwf with lowWit := ?_, blackStrict := ?_, blackTarg := ?_ }
  · intro x hx
    by_cases hxv : x = v
    · subst hxv
      rw [hlv]
      exact ⟨hle, hwit⟩
    · rw [hlo x hxv]
      exact hwf.lowWit x hx
  · intro x hx hxG
    have hxv : x ≠ v := fun e => hxG (e ▸ hvG)
    rw [hlo x hxv]
    exact hwf.blackStrict x hx hxG
  · intro x hx hxG t ht
    have hxv : x ≠ v := fun e => hxG (e ▸ hvG)
    rw [hlo x hxv]
    exact hwf.blackTarg x hx hxG t ht

/-- Reading the discovery index from a lookup. -/
theorem idxv_eq (ts : TarjanSt) (x i : Nat)
    (h : alookup ts.indices x = some i) : idxv ts x = i := by
  unfold idxv; rw [h]; rfl

/-- Pushing an undiscovered state at the start of its visit preserves the
invariant, with the new state turning gray. -/
theorem twf_push (A : FST) (G : List Nat) (ts ts1 : TarjanSt) (v : Nat)
    (hwf : TWF A G ts) (hvnew : alookup ts.indices v = none)
    (hentry : ∀ x ∈ ts.S, Reach A x v)
    (hts1 : ts1 =
      { index := ts.index + 1,
        indices := aset ts.indices v ts.index,
        lowlink := aset ts.lowlink v ts.index,
        S := v :: ts.S,
        onstack := v :: ts.onstack,
        sccs := ts.sccs }) :
    TWF A (v :: G) ts1 := by
  have hvS : v ∉ ts.S := by
    intro h
    have := hwf.stackIdx v h
    rw [hvnew] at this
    cases this
  have hS1 : ts1.S = v :: ts.S := by rw [hts1]
  have hI1 : ts1.indices = aset ts.indices v ts.index := by rw [hts1]
  have hL1 : ts1.lowlink = aset ts.lowlink v ts.index := by rw [hts1]
  have hO1 : ts1.onstack = v :: ts.onstack := by rw [hts1]
  have hC1 : ts1.sccs = ts.sccs := by rw [hts1]
  have hN1 : ts1.index = ts.index + 1 := by rw [hts1]
  have hSne : ∀ x ∈ ts.S, x ≠ v := fun x hx e => hvS (e ▸ hx)
  have hio : ∀ x, x ≠ v → alookup ts1.indices x = alookup ts.indices x := by
    intro x hx; rw [hI1]; exact alookup_aset_ne _ _ _ _ hx
  have his : alookup ts1.indices v = some ts.index := by
    rw [hI1]; exact alookup_aset_self _ _ _
  have hlo : ∀ x, x ≠ v → alookup ts1.lowlink x = alookup ts.lowlink x := by
    intro x hx; rw [hL1]; exact alookup_aset_ne _ _ _ _ hx
  have hls : alookup ts1.lowlink v = some ts.index := by
    rw [hL1]; exact alookup_aset_self _ _ _
  have hiv : ∀ x, x ≠ v → idxv ts1 x = idxv ts x := by
    intro x hx; unfold idxv; rw [hio x hx]
  have hivv : idxv ts1 v = ts.index := idxv_eq _ _ _ his
  have hlv : ∀ x, x ≠ v → lowv ts1 x = lowv ts x := by
    intro x hx; unfold lowv; rw [hlo x hx]
  have hlvv : lowv ts1 v = ts.index := by unfold lowv; rw [hls]; rfl
  have hem1 : ∀ x, TEmitted ts1 x ↔ TEmitted ts x := by
    intro x; unfold TEmitted; rw [hC1]
  have hSidx : ∀ x ∈ ts.S, ∃ i, alookup ts.indices x = some i ∧ i < ts.index := by
    intro x hx
    obtain ⟨i, hi⟩ := Option.isSome_iff_exists.mp (hwf.stackIdx x hx)
    exact ⟨i, hi, hwf.idxBound x i hi⟩
  refine ⟨?_, ?_, ?_, ?_, ?_, ?_, ?_, ?_, ?_, ?_, ?_, ?_, ?_, ?_, ?_, ?_⟩
  · rw [hS1]; exact List.nodup_cons.mpr ⟨hvS, hwf.nodupS⟩
  · intro x
    rw [hS1, hO1]
    simp only [List.mem_cons]
    exact or_congr Iff.rfl (hwf.onsync x)
  · intro x hx
    rw [hS1] at hx
    rcases List.mem_cons.mp hx with h | h
    · subst h; rw [his]; rfl
    · rw [hio x (hSne x h)]; exact hwf.stackIdx x h
  · intro x i h
    rw [hN1]
    by_cases hx : x = v
    · subst hx
      rw [his] at h
      simp only [Option.some.injEq] at h
      omega
    · rw [hio x hx] at h
      have := hwf.idxBound x i h
      omega
  · intro x y i hx hy
    by_cases hxv : x = v <;> by_cases hyv : y = v
    · rw [hxv, hyv]
    · subst hxv
      rw [his] at hx
      rw [hio y hyv] at hy
      have := hwf.idxBound y i hy
      simp only [Option.some.injEq] at hx
      omega
    · subst hyv
      rw [his] at hy
      rw [hio x hxv] at hx
      have := hwf.idxBound x i hx
      simp only [Option.some.injEq] at hy
      omega
    · rw [hio x hxv] at hx
      rw [hio y hyv] at hy
      exact hwf.idxInj x y i hx hy
  · intro c hc x hx
    rw [hC1] at hc
    have hold := hwf.sccIdx c hc x hx
    have hxv : x ≠ v := by
      intro e; subst e; rw [hvnew] at hold; cases hold
    rw [hio x hxv]; exact hold
  · intro x hx hem
    rw [hS1] at hx
    rw [hem1 x] at hem
    obtain ⟨c, hc, hxc⟩ := hem
    rcases List.mem_cons.mp hx with h | h
    · subst h
      have := hwf.sccIdx c hc x hxc
      rw [hvnew] at this; cases this
    · exact hwf.stackNotEm x h ⟨c, hc, hxc⟩
  · intro x hs
    rw [hS1]
    by_cases hx : x = v
    · subst hx; exact Or.inl (List.mem_cons_self _ _)
    · rw [hio x hx] at hs
      rcases hwf.idxCases x hs with h | h
      · exact Or.inl (List.mem_cons_of_mem _ h)
      · exact Or.inr ((hem1 x).mpr h)
  · rw [hS1]
    cases hS : ts.S with
    | nil => exact List.chain'_singleton v
    | cons h t =>
      rw [List.chain'_cons]
      constructor
      · have hhS : h ∈ ts.S := by rw [hS]; exact List.mem_cons_self _ _
        obtain ⟨i, hi, hib⟩ := hSidx h hhS
        rw [hivv, hiv h (hSne h hhS), idxv_eq ts h i hi]
        omega
      · have hch : List.Chain' (fun a b => idxv ts b < idxv ts a) (h :: t) := by
          rw [← hS]; exact hwf.orderS
        refine chain_ext_mem _ _ (h :: t) ?_ hch
        intro a ha b hb hr
        have haS : a ∈ ts.S := by rw [hS]; exact ha
        have hbS : b ∈ ts.S := by rw [hS]; exact hb
        rw [hiv a (hSne a haS), hiv b (hSne b hbS)]
        exact hr
  · intro x hx y hy hle
    rw [hS1] at hx hy
    rcases List.mem_cons.mp hy with hyv | hyS
    · subst hyv
      rcases List.mem_cons.mp hx with hxv | hxS
      · subst hxv; exact Reach.refl x
      · exact hentry x hxS
    · rcases List.mem_cons.mp hx with hxv | hxS
      · subst hxv
        obtain ⟨i, hi, hib⟩ := hSidx y hyS
        rw [hivv, hiv y (hSne y hyS), idxv_eq ts y i hi] at hle
        omega
      · rw [hiv x (hSne x hxS), hiv y (hSne y hyS)] at hle
        exact hwf.reachS x hxS y hyS hle
  · intro x hx
    rw [hS1] at hx
    rcases List.mem_cons.mp hx with hxv | hxS
    · subst hxv
      rw [hlvv, hivv]
      refine ⟨le_refl _, x, ?_, ?_, Reach.refl x⟩
      · rw [hS1]; exact List.mem_cons_self _ _
      · rw [hivv]
    · rw [hlv x (hSne x hxS), hiv x (hSne x hxS)]
      obtain ⟨hle, y, hyS, hyidx, hreach⟩ := hwf.lowWit x hxS
      refine ⟨hle, y, ?_, ?_, hreach⟩
      · rw [hS1]; exact List.mem_cons_of_mem _ hyS
      · rw [hiv y (hSne y hyS)]; exact hyidx
  · intro c hc x hx t ht
    rw [hC1] at hc
    rw [hem1 t]
    exact hwf.emClosed c hc x hx t ht
  · intro c hc
    rw [hC1] at hc
    exact hwf.sccPair c hc
  · intro c hc
    rw [hC1] at hc
    exact hwf.sccMax c hc
  · intro x hx hxG
    rw [hS1] at hx
    have hxv : x ≠ v := fun e => hxG (e ▸ List.mem_cons_self v G)
    have hxS : x ∈ ts.S := by
      rcases List.mem_cons.mp hx with h | h
      · exact absurd h hxv
      · exact h
    have hxGo : x ∉ G := fun h => hxG (List.mem_cons_of_mem _ h)
    rw [hlv x hxv, hiv x hxv]
    exact hwf.blackStrict x hxS hxGo
  · intro x hx hxG t ht
    rw [hS1] at hx
    have hxv : x ≠ v := fun e => hxG (e ▸ List.mem_cons_self v G)
    have hxS : x ∈ ts.S := by
      rcases List.mem_cons.mp hx with h | h
      · exact absurd h hxv
      · exact h
    have hxGo : x ∉ G := fun h => hxG (List.mem_cons_of_mem _ h)
    obtain ⟨hind, hstk⟩ := hwf.blackTarg x hxS hxGo t ht
    have htv : t ≠ v := by
      intro e; subst e; rw [hvnew] at hind; cases hind
    constructor
    · rw [hio t htv]; exact hind
    · intro hts
      rw [hS1] at hts
      rcases List.mem_cons.mp hts with h | h
      · exact absurd h htv
      · rw [hlv x hxv, hiv t htv]; exact hstk h

/-- A lookup that misses after an `aset` missed before it too. -/
theorem aset_none_ne {a b : Type} [DecidableEq a] (d : List (a × b))
    (k : a) (v : b) (x : a) (h : alookup (aset d k v) x = none) :
    alookup d x = none ∧ x ≠ k := by
  have hxk : x ≠ k := by
    intro e
    rw [e, alookup_aset_self] at h
    cases h
  rw [alookup_aset_ne d k x v hxk] at h
  exact ⟨h, hxk⟩

/-- The frame of the initial push of a visit. -/
theorem tframe_push (ts ts1 : TarjanSt) (v : Nat)
    (hvnew : alookup ts.indices v = none)
    (hts1 : ts1 =
      { index := ts.index + 1,
        indices := aset ts.indices v ts.index,
        lowlink := aset ts.lowlink v ts.index,
        S := v :: ts.S,
        onstack := v :: ts.onstack,
        sccs := ts.sccs }) : TFrame ts ts1 := by
  have hI1 : ts1.indices = aset ts.indices v ts.index := by rw [hts1]
  have hS1 : ts1.S = v :: ts.S := by rw [hts1]
  have hC1 : ts1.sccs = ts.sccs := by rw [hts1]
  have hN1 : ts1.index = ts.index + 1 := by rw [hts1]
  refine ⟨?_, ?_, ?_, ?_, ?_⟩
  · rw [hN1]; omega
  · intro x i h
    have hxv : x ≠ v := by
      intro e; rw [e, hvnew] at h; cases h
    rw [hI1, alookup_aset_ne _ _ _ _ hxv]
    exact h
  · intro x i h
    rw [hI1] at h
    by_cases hxv : x = v
    · subst hxv
      rw [alookup_aset_self] at h
      simp only [Option.some.injEq] at h
      omega
    · rw [alookup_aset_ne _ _ _ _ hxv] at h
      exact Or.inl h
  · exact ⟨[], by rw [hC1]; rfl⟩
  · refine ⟨[v], by rw [hS1]; rfl, ?_⟩
    intro x hx
    rw [List.mem_singleton.mp hx]
    exact hvnew

/-- The frame of a pure lowlink update. -/
theorem tframe_setlow (ts : TarjanSt) (v nl : Nat) :
    TFrame ts { ts with lowlink := aset ts.lowlink v nl } :=
  ⟨le_refl _, fun _ _ h => h, fun _ _ h => Or.inl h, ⟨[], rfl⟩,
    ⟨[], rfl, by intro x hx; cases hx⟩⟩

/-- Popping a root's component emits a sound and maximal strongly
connected component and preserves the invariant, with the root turning
black by leaving the stack. -/
theorem twf_emit (A : FST) (G : List Nat) (ts2 tsE : TarjanSt) (v n0 : Nat)
    (P S0 : List Nat)
    (hwf2 : TWF A (v :: G) ts2)
    (hvidx : alookup ts2.indices v = some n0)
    (hG : ∀ g ∈ G, ∃ i, alookup ts2.indices g = some i ∧ i < n0)
    (hroot : lowv ts2 v = idxv ts2 v)
    (htd : ∀ t ∈ allTargetsSet A v, (alookup ts2.indices t).isSome ∧
      (t ∈ ts2.S → lowv ts2 v ≤ idxv ts2 t))
    (hacc : ∀ x ∈ ts2.S, n0 ≤ idxv ts2 x → lowv ts2 v ≤ lowv ts2 x)
    (hshape : ts2.S = P ++ v :: S0)
    (hPfresh : ∀ x ∈ P, n0 < idxv ts2 x)
    (hS0idx : ∀ x ∈ S0, idxv ts2 x < n0)
    (htsE : tsE = { ts2 with
      S := S0,
      onstack := ts2.onstack.filter (fun x => decide (x ∉ P ++ [v])),
      sccs := (P ++ [v]) :: ts2.sccs }) :
    TWF A G tsE ∧ TEmitted tsE v := by
  have hvidxv : idxv ts2 v = n0 := idxv_eq _ _ _ hvidx
  have hlowvv : lowv ts2 v = n0 := by rw [hroot, hvidxv]
  have hvS2 : v ∈ ts2.S := by
    rw [hshape]; exact List.mem_append_right _ (List.mem_cons_self _ _)
  have hmemS : ∀ x ∈ S0, x ∈ ts2.S := by
    intro x hx
    rw [hshape]
    exact List.mem_append_right _ (List.mem_cons_of_mem _ hx)
  have hnd : (P ++ v :: S0).Nodup := by rw [← hshape]; exact hwf2.nodupS
  have hvP : v ∉ P := by
    intro h
    exact (List.nodup_append.mp hnd).2.2 h (List.mem_cons_self _ _)
  have hvS0 : v ∉ S0 := by
    have := (List.nodup_append.mp hnd).2.1
    exact (List.nodup_cons.mp this).1
  have hPS0 : ∀ x ∈ P, x ∉ S0 := by
    intro x hx hxS0
    exact (List.nodup_append.mp hnd).2.2 hx (List.mem_cons_of_mem _ hxS0)
  have hndS0 : S0.Nodup := by
    have := (List.nodup_append.mp hnd).2.1
    exact (List.nodup_cons.mp this).2
  have hCstack : ∀ x ∈ P ++ [v], x ∈ ts2.S := by
    intro x hx
    rw [hshape]
    rcases List.mem_append.mp hx with h | h
    · exact List.mem_append_left _ h
    · rw [List.mem_singleton.mp h]
      exact List.mem_append_right _ (List.mem_cons_self _ _)
  have hCidx : ∀ x ∈ P ++ [v], n0 ≤ idxv ts2 x := by
    intro x hx
    rcases List.mem_append.mp hx with h | h
    · exact le_of_lt (hPfresh x h)
    · rw [List.mem_singleton.mp h, hvidxv]
  have hCG : ∀ x ∈ P ++ [v], x ∉ G := by
    intro x hx hxG
    obtain ⟨i, hi, hib⟩ := hG x hxG
    have := hCidx x hx
    rw [idxv_eq _ _ _ hi] at this
    omega
  have hSsplit : ∀ x ∈ ts2.S, x ∈ P ++ [v] ∨ x ∈ S0 := by
    intro x hx
    rw [hshape] at hx
    rcases List.mem_append.mp hx with h | h
    · exact Or.inl (List.mem_append_left _ h)
    · rcases List.mem_cons.mp h with h | h
      · exact Or.inl (List.mem_append_right _ (h ▸ List.mem_singleton_self _))
      · exact Or.inr h
  have hS0C : ∀ x ∈ S0, x ∉ P ++ [v] := by
    intro x hx hxC
    rcases List.mem_append.mp hxC with h | h
    · exact hPS0 x h hx
    · exact hvS0 (List.mem_singleton.mp h ▸ hx)
  have hCreachV : ∀ x ∈ P ++ [v], Reach A x v := by
    intro x hx
    exact stack_reaches_root A G v n0 ts2 hwf2 hvS2 hvidx hG x
      (hCstack x hx) (hCidx x hx)
  have hVreachC : ∀ x ∈ P ++ [v], Reach A v x := by
    intro x hx
    exact hwf2.reachS v hvS2 x (hCstack x hx) (by rw [hvidxv]; exact hCidx x hx)
  have hCscc : ∀ x ∈ P ++ [v], SCCeq A v x :=
    fun x hx => ⟨hVreachC x hx, hCreachV x hx⟩
  have hedge : ∀ x ∈ P ++ [v], ∀ t ∈ targetsOf A x,
      t ∈ P ++ [v] ∨ TEmitted ts2 t := by
    intro x hx t ht
    have hfacts : (alookup ts2.indices t).isSome ∧
        (t ∈ ts2.S → n0 ≤ idxv ts2 t) := by
      rcases List.mem_append.mp hx with hP | hv
      · have hxnG : x ∉ v :: G := by
          intro hmem
          rcases List.mem_cons.mp hmem with h | h
          · exact hvP (h ▸ hP)
          · exact hCG x hx h
        obtain ⟨hind, himp⟩ := hwf2.blackTarg x (hCstack x hx) hxnG t ht
        refine ⟨hind, fun hts => ?_⟩
        have h1 : lowv ts2 v ≤ lowv ts2 x :=
          hacc x (hCstack x hx) (hCidx x hx)
        have h2 := himp hts
        rw [hlowvv] at h1
        omega
      · rw [List.mem_singleton.mp hv] at ht
        obtain ⟨hind, himp⟩ := htd t (List.mem_dedup.mpr ht)
        refine ⟨hind, fun hts => ?_⟩
        have := himp hts
        rw [hlowvv] at this
        exact this
    obtain ⟨hind, himp⟩ := hfacts
    rcases hwf2.idxCases t hind with hts | hem
    · rcases hSsplit t hts with h | h
      · exact Or.inl h
      · have h1 := hS0idx t h
        have h2 := himp hts
        omega
    · exact Or.inr hem
  have hstay : ∀ a b, Reach A a b → (a ∈ P ++ [v] ∨ TEmitted ts2 a) →
      b ∈ P ++ [v] ∨ TEmitted ts2 b := by
    intro a b hr
    induction hr with
    | refl s => exact fun h => h
    | head s t u ht _ ih =>
      intro hs
      refine ih ?_
      rcases hs with hsC | hsEm
      · exact hedge s hsC t ht
      · obtain ⟨c, hc, hsc⟩ := hsEm
        exact Or.inr (hwf2.emClosed c hc s hsc t ht)
  have hCmax : ∀ x ∈ P ++ [v], ∀ z, SCCeq A x z → z ∈ P ++ [v] := by
    intro x hx z hscc
    have hvz : SCCeq A v z := sccEq_trans A v x z (hCscc x hx) hscc
    rcases hstay v z hvz.1
        (Or.inl (List.mem_append_right _ (List.mem_singleton_self _))) with
      hzC | hzEm
    · exact hzC
    · obtain ⟨c, hc, hzc⟩ := hzEm
      have hvc : v ∈ c := hwf2.sccMax c hc z hzc v (sccEq_symm A v z hvz)
      exact absurd ⟨c, hc, hvc⟩ (hwf2.stackNotEm v hvS2)
  have hSE : tsE.S = S0 := by rw [htsE]
  have hIE : tsE.indices = ts2.indices := by rw [htsE]
  have hLE : tsE.lowlink = ts2.lowlink := by rw [htsE]
  have hOE : tsE.onstack =
      ts2.onstack.filter (fun x => decide (x ∉ P ++ [v])) := by rw [htsE]
  have hCE : tsE.sccs = (P ++ [v]) :: ts2.sccs := by rw [htsE]
  have hNE : tsE.index = ts2.index := by rw [htsE]
  have hivE : ∀ x, idxv tsE x = idxv ts2 x := by
    intro x; unfold idxv; rw [hIE]
  have hlvE : ∀ x, lowv tsE x = lowv ts2 x := by
    intro x; unfold lowv; rw [hLE]
  have hemE : ∀ x, TEmitted tsE x ↔ (x ∈ P ++ [v] ∨ TEmitted ts2 x) := by
    intro x
    unfold TEmitted
    rw [hCE]
    constructor
    · rintro ⟨c, hc, hxc⟩
      rcases List.mem_cons.mp hc with h | h
      · exact Or.inl (h ▸ hxc)
      · exact Or.inr ⟨c, h, hxc⟩
    · rintro (h | ⟨c, hc, hxc⟩)
      · exact ⟨P ++ [v], List.mem_cons_self _ _, h⟩
      · exact ⟨c, List.mem_cons_of_mem _ hc, hxc⟩
  refine ⟨⟨?_, ?_, ?_, ?_, ?_, ?_, ?_, ?_, ?_, ?_, ?_, ?_, ?_, ?_, ?_, ?_⟩, ?_⟩
  · rw [hSE]; exact hndS0
  · intro x
    rw [hSE, hOE]
    rw [List.mem_filter]
    simp only [decide_eq_true_eq]
    constructor
    · rintro ⟨hon, hnC⟩
      rcases hSsplit x ((hwf2.onsync x).mp hon) with h | h
      · exact absurd h hnC
      · exact h
    · intro hxS0
      exact ⟨(hwf2.onsync x).mpr (hmemS x hxS0), hS0C x hxS0⟩
  · intro x hx
    rw [hSE] at hx
    rw [hIE]
    exact hwf2.stackIdx x (hmemS x hx)
  · intro x i h
    rw [hIE] at h
    rw [hNE]
    exact hwf2.idxBound x i h
  · intro x y i hx hy
    rw [hIE] at hx hy
    exact hwf2.idxInj x y i hx hy
  · intro c hc x hx
    rw [hCE] at hc
    rw [hIE]
    rcases List.mem_cons.mp hc with h | h
    · subst h
      exact hwf2.stackIdx x (hCstack x hx)
    · exact hwf2.sccIdx c h x hx
  · intro x hx hem
    rw [hSE] at hx
    rcases (hemE x).mp hem with h | h
    · exact hS0C x hx h
    · exact hwf2.stackNotEm x (hmemS x hx) h
  · intro x hs
    rw [hIE] at hs
    rw [hSE]
    rcases hwf2.idxCases x hs with h | h
    · rcases hSsplit x h with h2 | h2
      · exact Or.inr ((hemE x).mpr (Or.inl h2))
      · exact Or.inl h2
    · exact Or.inr ((hemE x).mpr (Or.inr h))
  · rw [hSE]
    have hch2 : List.Chain' (fun a b => idxv ts2 b < idxv ts2 a) ts2.S :=
      hwf2.orderS
    rw [hshape] at hch2
    have hch0 : List.Chain' (fun a b => idxv ts2 b < idxv ts2 a) S0 :=
      List.Chain'.tail (chain_suffix _ P _ hch2)
    refine chain_ext_mem _ _ S0 ?_ hch0
    intro a _ b _ hr
    rw [hivE a, hivE b]
    exact hr
  · intro x hx y hy hle
    rw [hSE] at hx hy
    rw [hivE x, hivE y] at hle
    exact hwf2.reachS x (hmemS x hx) y (hmemS y hy) hle
  · intro x hx
    rw [hSE] at hx
    rw [hlvE x, hivE x]
    obtain ⟨hle, y, hyS, hyidx, hreach⟩ := hwf2.lowWit x (hmemS x hx)
    refine ⟨hle, y, ?_, by rw [hivE y]; exact hyidx, hreach⟩
    rw [hSE]
    rcases hSsplit y hyS with h | h
    · have h1 := hCidx y h
      have h2 := hS0idx x hx
      omega
    · exact h
  · intro c hc x hx t ht
    rw [hCE] at hc
    rcases List.mem_cons.mp hc with h | h
    · subst h
      rcases hedge x hx t ht with h2 | h2
      · exact (hemE t).mpr (Or.inl h2)
      · exact (hemE t).mpr (Or.inr h2)
    · exact (hemE t).mpr (Or.inr (hwf2.emClosed c h x hx t ht))
  · intro c hc x hx y hy
    rw [hCE] at hc
    rcases List.mem_cons.mp hc with h | h
    · subst h
      exact sccEq_trans A x v y (sccEq_symm A v x (hCscc x hx)) (hCscc y hy)
    · exact hwf2.sccPair c h x hx y hy
  · intro c hc x hx z hz
    rw [hCE] at hc
    rcases List.mem_cons.mp hc with h | h
    · subst h
      exact hCmax x hx z hz
    · exact hwf2.sccMax c h x hx z hz
  · intro x hx hxG
    rw [hSE] at hx
    rw [hlvE x, hivE x]
    refine hwf2.blackStrict x (hmemS x hx) ?_
    intro hmem
    rcases List.mem_cons.mp hmem with h | h
    · exact hvS0 (h ▸ hx)
    · exact hxG h
  · intro x hx hxG t ht
    rw [hSE] at hx
    have hxnG : x ∉ v :: G := by
      intro hmem
      rcases List.mem_cons.mp hmem with h | h
      · exact hvS0 (h ▸ hx)
      · exact hxG h
    obtain ⟨hind, himp⟩ := hwf2.blackTarg x (hmemS x hx) hxnG t ht
    refine ⟨by rw [hIE]; exact hind, ?_⟩
    intro hts
    rw [hSE] at hts
    rw [hlvE x, hivE t]
    exact himp (hmemS t hts)
  · exact (hemE v).mpr (Or.inl (List.mem_append_right _
      (List.mem_singleton_self _)))

/-- Unfolding of one visit step. -/
theorem tarjanGo_visit_eq (A : FST) (fuel : Nat) (v : Nat) (ts : TarjanSt) :
    tarjanGo A (fuel + 1) (Sum.inl v) ts =
      (match tarjanGo A fuel (Sum.inr (allTargetsSet A v, v))
        { index := ts.index + 1,
          indices := aset ts.indices v ts.index,
          lowlink := aset ts.lowlink v ts.index,
          S := v :: ts.S,
          onstack := if v ∈ ts.onstack then ts.onstack else v :: ts.onstack,
          sccs := ts.sccs } with
      | none => none
      | some ts2 =>
        if lowv ts2 v = idxv ts2 v then
          some { ts2 with
            S := (popSccFrom v ts2.S).2,
            onstack := ts2.onstack.filter
              (fun x => decide (x ∉ (popSccFrom v ts2.S).1)),
            sccs := (popSccFrom v ts2.S).1 :: ts2.sccs }
        else some ts2) := rfl

/-- Unfolding of the empty target loop. -/
theorem tarjanGo_loopnil_eq (A : FST) (fuel : Nat) (v : Nat) (ts : TarjanSt) :
    tarjanGo A (fuel + 1) (Sum.inr ([], v)) ts = some ts := rfl

/-- Unfolding of one target-loop step. -/
theorem tarjanGo_loopcons_eq (A : FST) (fuel : Nat) (t : Nat)
    (rest : List Nat) (v : Nat) (ts : TarjanSt) :
    tarjanGo A (fuel + 1) (Sum.inr (t :: rest, v)) ts =
      (match alookup ts.indices t with
      | none =>
        (match tarjanGo A fuel (Sum.inl t) ts with
        | none => none
        | some ts' =>
          tarjanGo A fuel (Sum.inr (rest, v))
            { ts' with
              lowlink := aset ts'.lowlink v (min (lowv ts' v) (lowv ts' t)) })
      | some it =>
        if t ∈ ts.onstack then
          tarjanGo A fuel (Sum.inr (rest, v))
            { ts with lowlink := aset ts.lowlink v (min (lowv ts v) it) }
        else tarjanGo A fuel (Sum.inr (rest, v)) ts) := rfl

/-- Every stack state reaches the state whose target loop is running. -/
theorem all_stack_reaches (A : FST) (G : List Nat) (v n0 : Nat)
    (ts : TarjanSt) (hwf : TWF A (v :: G) ts) (hv : v ∈ ts.S)
    (hvidx : alookup ts.indices v = some n0)
    (hG : ∀ g ∈ G, ∃ i, alookup ts.indices g = some i ∧ i < n0) :
    ∀ x ∈ ts.S, Reach A x v := by
  intro x hx
  rcases le_or_lt (idxv ts x) n0 with h | h
  · exact hwf.reachS x hx v hv (by rw [idxv_eq ts v n0 hvidx]; exact h)
  · exact stack_reaches_root A G v n0 ts hwf hv hvidx hG x hx (le_of_lt h)

/-- The combined specification of Tarjan's recursion: a visit of an
undiscovered state and a target loop of a gray state each preserve the
invariant and establish their postconditions. -/
theorem tarjan_spec (A : FST) : ∀ fuel : Nat,
    (∀ v ts G out, tarjanGo A fuel (Sum.inl v) ts = some out →
      TWF A G ts → alookup ts.indices v = none →
      (∀ g ∈ G, (alookup ts.indices g).isSome) →
      (∀ x ∈ ts.S, Reach A x v) →
      VisitPost A G ts v out) ∧
    (∀ targs v n0 ts G out,
      tarjanGo A fuel (Sum.inr (targs, v)) ts = some out →
      TWF A (v :: G) ts → v ∈ ts.S → alookup ts.indices v = some n0 →
      (∀ g ∈ G, ∃ i, alookup ts.indices g = some i ∧ i < n0) →
      (∃ done, done ++ targs = allTargetsSet A v ∧ ∀ t ∈ done,
        (alookup ts.indices t).isSome ∧ (t ∈ ts.S → lowv ts v ≤ idxv ts t)) →
      (∀ x ∈ ts.S, n0 ≤ idxv ts x → lowv ts v ≤ lowv ts x) →
      LoopPost A G ts v n0 out) := by
  intro fuel
  induction fuel with
  | zero =>
    constructor
    · intro v ts G out h
      have he : tarjanGo A 0 (Sum.inl v) ts = none := rfl
      rw [he] at h
      cases h
    · intro targs v n0 ts G out h
      have he : tarjanGo A 0 (Sum.inr (targs, v)) ts = none := rfl
      rw [he] at h
      cases h
  | succ fuel ih =>
    obtain ⟨ihV, ihL⟩ := ih
    constructor
    · -- one visit
      intro v ts G out h hwf hvnew hGidx hentry
      rw [tarjanGo_visit_eq] at h
      have hvS : v ∉ ts.S := by
        intro hc
        have := hwf.stackIdx v hc
        rw [hvnew] at this
        cases this
      have hvon : v ∉ ts.onstack := fun hc => hvS ((hwf.onsync v).mp hc)
      rw [if_neg hvon] at h
      set ts1 : TarjanSt :=
        { index := ts.index + 1,
          indices := aset ts.indices v ts.index,
          lowlink := aset ts.lowlink v ts.index,
          S := v :: ts.S,
          onstack := v :: ts.onstack,
          sccs := ts.sccs } with hts1
      have hwf1 : TWF A (v :: G) ts1 := twf_push A G ts ts1 v hwf hvnew hentry hts1
      have hv1 : v ∈ ts1.S := List.mem_cons_self _ _
      have hvidx1 : alookup ts1.indices v = some ts.index :=
        alookup_aset_self _ _ _
      have hG1 : ∀ g ∈ G, ∃ i, alookup ts1.indices g = some i ∧ i < ts.index := by
        intro g hg
        obtain ⟨i, hi⟩ := Option.isSome_iff_exists.mp (hGidx g hg)
        have hgv : g ≠ v := by
          intro e; rw [e, hvnew] at hi; cases hi
        refine ⟨i, ?_, hwf.idxBound g i hi⟩
        show alookup (aset ts.indices v ts.index) g = some i
        rw [alookup_aset_ne _ _ _ _ hgv]
        exact hi
      have hdone1 : ∃ done, done ++ allTargetsSet A v = allTargetsSet A v ∧
          ∀ t ∈ done, (alookup ts1.indices t).isSome ∧
            (t ∈ ts1.S → lowv ts1 v ≤ idxv ts1 t) :=
        ⟨[], List.nil_append _, fun t ht => absurd ht (List.not_mem_nil t)⟩
      have hidx1old : ∀ x ∈ ts.S, idxv ts1 x = idxv ts x ∧ idxv ts x < ts.index := by
        intro x hx
        obtain ⟨i, hi⟩ := Option.isSome_iff_exists.mp (hwf.stackIdx x hx)
        have hxv : x ≠ v := fun e => hvS (e ▸ hx)
        constructor
        · unfold idxv
          show (alookup (aset ts.indices v ts.index) x).getD 0 = _
          rw [alookup_aset_ne _ _ _ _ hxv]
        · rw [idxv_eq ts x i hi]
          exact hwf.idxBound x i hi
      have hacc1 : ∀ x ∈ ts1.S, ts.index ≤ idxv ts1 x →
          lowv ts1 v ≤ lowv ts1 x := by
        intro x hx hge
        rcases List.mem_cons.mp hx with hxv | hxS
        · subst hxv; exact le_refl _
        · obtain ⟨he, hlt⟩ := hidx1old x hxS
          rw [he] at hge
          omega
      split at h
      · cases h
      · rename_i ts2 hloop
        have hpost : LoopPost A G ts1 v ts.index ts2 :=
          ihL (allTargetsSet A v) v ts.index ts1 G ts2 hloop hwf1 hv1 hvidx1
            hG1 hdone1 hacc1
        obtain ⟨pushed, hS2, hfresh1⟩ := hpost.frame.stackExt
        have hS2' : ts2.S = pushed ++ v :: ts.S := hS2
        have hvP : v ∉ pushed := by
          intro hvp
          have := hfresh1 v hvp
          rw [hvidx1] at this
          cases this
        have hfreshT : ∀ x ∈ pushed, alookup ts.indices x = none := by
          intro x hx
          exact (aset_none_ne ts.indices v ts.index x (hfresh1 x hx)).1
        have hPfresh : ∀ x ∈ pushed, ts.index < idxv ts2 x := by
          intro x hx
          have hxS2 : x ∈ ts2.S := by
            rw [hS2']; exact List.mem_append_left _ hx
          obtain ⟨i, hi⟩ :=
            Option.isSome_iff_exists.mp (hpost.wf.stackIdx x hxS2)
          rcases hpost.frame.idxNew x i hi with hold | hge
          · rw [hfresh1 x hx] at hold; cases hold
          · rw [idxv_eq ts2 x i hi]
            have h2 : ts1.index = ts.index + 1 := rfl
            omega
        have hS0idx : ∀ x ∈ ts.S, idxv ts2 x < ts.index := by
          intro x hx
          obtain ⟨i, hi⟩ := Option.isSome_iff_exists.mp (hwf.stackIdx x hx)
          have hxv : x ≠ v := fun e => hvS (e ▸ hx)
          have hi1 : alookup ts1.indices x = some i := by
            show alookup (aset ts.indices v ts.index) x = some i
            rw [alookup_aset_ne _ _ _ _ hxv]
            exact hi
          have hi2 := hpost.frame.idxMono x i hi1
          rw [idxv_eq ts2 x i hi2]
          exact hwf.idxBound x i hi
        have hG2 : ∀ g ∈ G, ∃ i, alookup ts2.indices g = some i ∧
            i < ts.index := by
          intro g hg
          obtain ⟨i, hi, hib⟩ := hG1 g hg
          exact ⟨i, hpost.frame.idxMono g i hi, hib⟩
        have hlowold : ∀ x, (alookup ts.indices x).isSome → x ≠ v →
            alookup ts2.lowlink x = alookup ts.lowlink x := by
          intro x hxi hxv
          obtain ⟨i, hi⟩ := Option.isSome_iff_exists.mp hxi
          have hi1 : alookup ts1.indices x = some i := by
            show alookup (aset ts.indices v ts.index) x = some i
            rw [alookup_aset_ne _ _ _ _ hxv]
            exact hi
          have h1 := hpost.lowFrame x (by rw [hi1]; rfl) hxv
          rw [h1]
          show alookup (aset ts.lowlink v ts.index) x = alookup ts.lowlink x
          rw [alookup_aset_ne _ _ _ _ hxv]
        split at h
        · -- the root test passed: emit
          rename_i hroot
          injection h with hout
          have hpop : popSccFrom v ts2.S = (pushed ++ [v], ts.S) := by
            rw [hS2']
            exact popSccFrom_eq v pushed ts.S hvP
          have htsE : out = { ts2 with
              S := ts.S,
              onstack := ts2.onstack.filter (fun x => decide (x ∉ pushed ++ [v])),
              sccs := (pushed ++ [v]) :: ts2.sccs } := by
            rw [← hout, hpop]
          obtain ⟨hwfE, hemv⟩ := twf_emit A G ts2 out v ts.index pushed ts.S
            hpost.wf hpost.vIdxKeep hG2 hroot hpost.targDone hpost.lowAcc
            hS2' hPfresh hS0idx htsE
          have hSout : out.S = ts.S := by rw [htsE]
          have hIout : out.indices = ts2.indices := by rw [htsE]
          have hLout : out.lowlink = ts2.lowlink := by rw [htsE]
          have hCout : out.sccs = (pushed ++ [v]) :: ts2.sccs := by rw [htsE]
          have hNout : out.index = ts2.index := by rw [htsE]
          refine ⟨hwfE, ?_, ?_, ?_, ?_⟩
          · obtain ⟨nw, hnw⟩ := hpost.frame.sccExt
            refine ⟨?_, ?_, ?_, ?_, ?_⟩
            · have h1 := hpost.frame.ctrMono
              have h2 : ts1.index = ts.index + 1 := rfl
              rw [hNout]
              omega
            · intro x i hxi
              have hxv : x ≠ v := by
                intro e; rw [e, hvnew] at hxi; cases hxi
              have hi1 : alookup ts1.indices x = some i := by
                show alookup (aset ts.indices v ts.index) x = some i
                rw [alookup_aset_ne _ _ _ _ hxv]
                exact hxi
              rw [hIout]
              exact hpost.frame.idxMono x i hi1
            · intro x i hxi
              rw [hIout] at hxi
              rcases hpost.frame.idxNew x i hxi with hold | hge
              · by_cases hxv : x = v
                · subst hxv
                  rw [hvidx1] at hold
                  simp only [Option.some.injEq] at hold
                  omega
                · rw [show alookup ts1.indices x = alookup ts.indices x from
                    alookup_aset_ne _ _ _ _ hxv] at hold
                  exact Or.inl hold
              · have h2 : ts1.index = ts.index + 1 := rfl
                omega
            · refine ⟨(pushed ++ [v]) :: nw, ?_⟩
              rw [hCout, hnw]
              rfl
            · refine ⟨[], ?_, fun x hx => absurd hx (List.not_mem_nil x)⟩
              rw [hSout]
              rfl
          · intro x hxi
            have hxv : x ≠ v := by
              intro e
              rw [e, hvnew] at hxi
              cases hxi
            rw [hLout]
            exact hlowold x hxi hxv
          · rw [hIout]
            exact hpost.vIdxKeep
          · refine Or.inl ⟨hSout, hemv, ?_⟩
            unfold lowv
            rw [hLout]
            show lowv ts2 v = ts.index
            rw [hroot, idxv_eq ts2 v ts.index hpost.vIdxKeep]
        · -- the root test failed: v stays on the stack
          rename_i hrootne
          obtain rfl := Option.some.inj h
          have hlowle := (hpost.wf.lowWit v hpost.vIn).1
          have hstrict : lowv ts2 v < idxv ts2 v := lt_of_le_of_ne hlowle hrootne
          refine ⟨?_, ?_, ?_, hpost.vIdxKeep, ?_⟩
          · refine { hpost.wf with blackStrict := ?_, blackTarg := ?_ }
            · intro x hx hxG
              by_cases hxv : x = v
              · subst hxv; exact hstrict
              · refine hpost.wf.blackStrict x hx ?_
                intro hmem
                rcases List.mem_cons.mp hmem with hh | hh
                · exact hxv hh
                · exact hxG hh
            · intro x hx hxG t ht
              by_cases hxv : x = v
              · subst hxv
                exact hpost.targDone t (List.mem_dedup.mpr ht)
              · refine hpost.wf.blackTarg x hx ?_ t ht
                intro hmem
                rcases List.mem_cons.mp hmem with hh | hh
                · exact hxv hh
                · exact hxG hh
          · exact tframe_trans ts ts1 ts2 (tframe_push ts ts1 v hvnew hts1)
              hpost.frame
          · intro x hxi
            have hxv : x ≠ v := by
              intro e; rw [e, hvnew] at hxi; cases hxi
            exact hlowold x hxi hxv
          · refine Or.inr ⟨pushed, hS2', hfreshT, ?_, hstrict⟩
            intro x hx
            refine hpost.lowAcc x (by rw [hS2']; exact List.mem_append_left _ hx) ?_
            have := hPfresh x hx
            omega
    · -- one target-loop step
      intro targs v n0 ts G out h hwf hvS hvidx hG hdone hacc
      have hn0lt : n0 < ts.index := hwf.idxBound v n0 hvidx
      obtain ⟨done, hdeq, hdf⟩ := hdone
      cases targs with
      | nil =>
        rw [tarjanGo_loopnil_eq] at h
        obtain rfl := Option.some.inj h
        have hdall : done = allTargetsSet A v := by
          rw [← hdeq, List.append_nil]
        exact ⟨hwf, tframe_refl ts, fun x _ _ => rfl, hvS, hvidx,
          fun t ht => hdf t (hdall ▸ ht), hacc⟩
      | cons t rest =>
        have htT : t ∈ allTargetsSet A v := by
          rw [← hdeq]
          exact List.mem_append_right _ (List.mem_cons_self _ _)
        have htvT : t ∈ targetsOf A v := List.mem_dedup.mp htT
        have hdeq2 : (done ++ [t]) ++ rest = allTargetsSet A v := by
          rw [← hdeq]
          exact (List.append_cons done t rest).symm
        rw [tarjanGo_loopcons_eq] at h
        split at h
        · -- t undiscovered: visit it
          rename_i hti
          split at h
          · cases h
          rename_i ts' hch
          have hGidxC : ∀ g ∈ v :: G, (alookup ts.indices g).isSome := by
            intro g hg
            rcases List.mem_cons.mp hg with hh | hh
            · rw [hh, hvidx]; rfl
            · obtain ⟨i, hi, _⟩ := hG g hh
              rw [hi]; rfl
          have hentryC : ∀ x ∈ ts.S, Reach A x t := by
            intro x hx
            exact reach_snoc A x v t
              (all_stack_reaches A G v n0 ts hwf hvS hvidx hG x hx) htvT
          have hpostC : VisitPost A (v :: G) ts t ts' :=
            ihV t ts (v :: G) ts' hch hwf hti hGidxC hentryC
          obtain ⟨pC, hSC, hfC⟩ := hpostC.frame.stackExt
          have hvts' : v ∈ ts'.S := by
            rw [hSC]; exact List.mem_append_right _ hvS
          have hlowv' : lowv ts' v = lowv ts v := by
            unfold lowv
            rw [hpostC.lowFrame v (by rw [hvidx]; rfl)]
          have hidxv' : alookup ts'.indices v = some n0 :=
            hpostC.frame.idxMono v n0 hvidx
          have hidxold : ∀ x, ∀ i, alookup ts.indices x = some i →
              idxv ts' x = idxv ts x := by
            intro x i hi
            rw [idxv_eq ts x i hi, idxv_eq ts' x i (hpostC.frame.idxMono x i hi)]
          have hlowoldC : ∀ x, (alookup ts.indices x).isSome →
              lowv ts' x = lowv ts x := by
            intro x hxi
            unfold lowv
            rw [hpostC.lowFrame x hxi]
          have hSmem : ∀ u, (alookup ts.indices u).isSome → u ∈ ts'.S →
              u ∈ ts.S := by
            intro u hui huS'
            rw [hSC] at huS'
            rcases List.mem_append.mp huS' with hh | hh
            · rw [hfC u hh] at hui; cases hui
            · exact hh
          set tsU : TarjanSt := { ts' with
            lowlink := aset ts'.lowlink v (min (lowv ts' v) (lowv ts' t)) }
            with htsU
          have hSU : tsU.S = ts'.S := by rw [htsU]
          have hIU : tsU.indices = ts'.indices := by rw [htsU]
          have hle2 : min (lowv ts' v) (lowv ts' t) ≤ idxv ts' v :=
            le_trans (min_le_left _ _) (hpostC.wf.lowWit v hvts').1
          have hwitU : ∃ y ∈ ts'.S,
              idxv ts' y = min (lowv ts' v) (lowv ts' t) ∧ Reach A v y := by
            rcases le_total (lowv ts' v) (lowv ts' t) with hmin | hmin
            · rw [min_eq_left hmin]
              obtain ⟨_, y, hyS, hyidx, hry⟩ := hpostC.wf.lowWit v hvts'
              exact ⟨y, hyS, hyidx, hry⟩
            · rcases hpostC.branch with ⟨_, _, hlowT⟩ | ⟨pC2, hshapeC, _, _, _⟩
              · have h3 : lowv ts v ≤ n0 := by
                  have h4 := (hwf.lowWit v hvS).1
                  rw [idxv_eq ts v n0 hvidx] at h4
                  exact h4
                rw [hlowv', hlowT] at hmin
                omega
              · rw [min_eq_right hmin]
                have htS' : t ∈ ts'.S := by
                  rw [hshapeC]
                  exact List.mem_append_right _ (List.mem_cons_self _ _)
                obtain ⟨_, y, hyS, hyidx, hry⟩ := hpostC.wf.lowWit t htS'
                exact ⟨y, hyS, hyidx, reach_trans A v t y
                  (Reach.head v t t htvT (Reach.refl t)) hry⟩
          have hwfU : TWF A (v :: G) tsU :=
            twf_update_low A (v :: G) ts' v _ hpostC.wf
              (List.mem_cons_self _ _) hle2 hwitU
          have hlvU : lowv tsU v = min (lowv ts' v) (lowv ts' t) := by
            unfold lowv
            show (alookup (aset ts'.lowlink v _) v).getD 0 = _
            rw [alookup_aset_self]
            rfl
          have hloU : ∀ x, x ≠ v → lowv tsU x = lowv ts' x := by
            intro x hxv
            unfold lowv
            show (alookup (aset ts'.lowlink v _) x).getD 0 = _
            rw [alookup_aset_ne _ _ _ _ hxv]
          have hivU : ∀ x, idxv tsU x = idxv ts' x := by
            intro x
            unfold idxv
            rw [hIU]
          have hdoneU : ∃ done2, done2 ++ rest = allTargetsSet A v ∧
              ∀ u ∈ done2, (alookup tsU.indices u).isSome ∧
                (u ∈ tsU.S → lowv tsU v ≤ idxv tsU u) := by
            refine ⟨done ++ [t], hdeq2, ?_⟩
            intro u hu
            rcases List.mem_append.mp hu with hud | hut
            · obtain ⟨hui, huimp⟩ := hdf u hud
              obtain ⟨i, hi⟩ := Option.isSome_iff_exists.mp hui
              constructor
              · rw [hIU, hpostC.frame.idxMono u i hi]
                rfl
              · intro huS
                have huts : u ∈ ts.S := hSmem u hui (hSU ▸ huS)
                have h1 := huimp huts
                rw [hlvU, hivU u, hidxold u i hi]
                calc min (lowv ts' v) (lowv ts' t) ≤ lowv ts' v :=
                    min_le_left _ _
                  _ = lowv ts v := hlowv'
                  _ ≤ idxv ts u := h1
            · rw [List.mem_singleton.mp hut]
              constructor
              · rw [hIU, hpostC.vIdx]
                rfl
              · intro htS
                have htS' : t ∈ ts'.S := hSU ▸ htS
                rw [hlvU, hivU t]
                calc min (lowv ts' v) (lowv ts' t) ≤ lowv ts' t :=
                    min_le_right _ _
                  _ ≤ idxv ts' t := (hpostC.wf.lowWit t htS').1
          have haccU : ∀ x ∈ tsU.S, n0 ≤ idxv tsU x →
              lowv tsU v ≤ lowv tsU x := by
            intro x hx hge
            by_cases hxv : x = v
            · subst hxv; exact le_refl _
            · rw [hloU x hxv, hlvU]
              have hxS' : x ∈ ts'.S := hSU ▸ hx
              have hgex : n0 ≤ idxv ts' x := by
                rw [← hivU x]; exact hge
              rw [hSC] at hxS'
              rcases List.mem_append.mp hxS' with hxp | hxold
              · rcases hpostC.branch with ⟨hSeq, _, _⟩ |
                  ⟨pC2, hshapeC, _, hlowC, _⟩
                · have hxm : x ∈ ts'.S := by
                    rw [hSC]; exact List.mem_append_left _ hxp
                  rw [hSeq] at hxm
                  obtain ⟨i, hi⟩ :=
                    Option.isSome_iff_exists.mp (hwf.stackIdx x hxm)
                  rw [hfC x hxp] at hi
                  cases hi
                · have hxS2 : x ∈ pC2 ++ t :: ts.S := by
                    rw [← hshapeC, hSC]
                    exact List.mem_append_left _ hxp
                  rcases List.mem_append.mp hxS2 with hxp2 | hxc
                  · calc min (lowv ts' v) (lowv ts' t) ≤ lowv ts' t :=
                        min_le_right _ _
                      _ ≤ lowv ts' x := hlowC x hxp2
                  · rcases List.mem_cons.mp hxc with hxt | hxts
                    · rw [hxt]
                      exact min_le_right _ _
                    · obtain ⟨i, hi⟩ :=
                        Option.isSome_iff_exists.mp (hwf.stackIdx x hxts)
                      rw [hfC x hxp] at hi
                      cases hi
              · obtain ⟨i, hi⟩ :=
                  Option.isSome_iff_exists.mp (hwf.stackIdx x hxold)
                have hgeo : n0 ≤ idxv ts x := by
                  rw [← hidxold x i hi]
                  exact hgex
                have h1 := hacc x hxold hgeo
                rw [hlowoldC x (by rw [hi]; rfl)]
                calc min (lowv ts' v) (lowv ts' t) ≤ lowv ts' v :=
                    min_le_left _ _
                  _ = lowv ts v := hlowv'
                  _ ≤ lowv ts x := h1
          have hGU : ∀ g ∈ G, ∃ i, alookup tsU.indices g = some i ∧ i < n0 := by
            intro g hg
            obtain ⟨i, hi, hib⟩ := hG g hg
            refine ⟨i, ?_, hib⟩
            rw [hIU]
            exact hpostC.frame.idxMono g i hi
          have hvU : v ∈ tsU.S := hSU ▸ hvts'
          have hvidxU : alookup tsU.indices v = some n0 := by
            rw [hIU]; exact hidxv'
          have hrec : LoopPost A G tsU v n0 out :=
            ihL rest v n0 tsU G out h hwfU hvU hvidxU hGU hdoneU haccU
          refine ⟨hrec.wf, ?_, ?_, hrec.vIn, hrec.vIdxKeep, hrec.targDone,
            hrec.lowAcc⟩
          · exact tframe_trans ts tsU out
              (tframe_trans ts ts' tsU hpostC.frame (tframe_setlow ts' v _))
              hrec.frame
          · intro x hxi hxv
            obtain ⟨i, hi⟩ := Option.isSome_iff_exists.mp hxi
            have h1 := hrec.lowFrame x (by
              rw [hIU, hpostC.frame.idxMono x i hi]
              rfl) hxv
            rw [h1]
            have h2 : alookup tsU.lowlink x = alookup ts'.lowlink x := by
              rw [htsU]
              show alookup (aset ts'.lowlink v _) x = _
              rw [alookup_aset_ne _ _ _ _ hxv]
            rw [h2]
            exact hpostC.lowFrame x hxi
        · -- t already discovered
          rename_i it hti
          split at h
          · -- t on the stack: take its index into v's lowlink
            rename_i hton
            have htS : t ∈ ts.S := (hwf.onsync t).mp hton
            set tsU : TarjanSt := { ts with
              lowlink := aset ts.lowlink v (min (lowv ts v) it) }
              with htsU
            have hSU : tsU.S = ts.S := by rw [htsU]
            have hIU : tsU.indices = ts.indices := by rw [htsU]
            have hle2 : min (lowv ts v) it ≤ idxv ts v :=
              le_trans (min_le_left _ _) (hwf.lowWit v hvS).1
            have hwitU : ∃ y ∈ ts.S,
                idxv ts y = min (lowv ts v) it ∧ Reach A v y := by
              rcases le_total (lowv ts v) it with hmin | hmin
              · rw [min_eq_left hmin]
                obtain ⟨_, y, hyS, hyidx, hry⟩ := hwf.lowWit v hvS
                exact ⟨y, hyS, hyidx, hry⟩
              · rw [min_eq_right hmin]
                exact ⟨t, htS, idxv_eq ts t it hti,
                  Reach.head v t t htvT (Reach.refl t)⟩
            have hwfU : TWF A (v :: G) tsU :=
              twf_update_low A (v :: G) ts v _ hwf (List.mem_cons_self _ _)
                hle2 hwitU
            have hlvU : lowv tsU v = min (lowv ts v) it := by
              unfold lowv
              show (alookup (aset ts.lowlink v _) v).getD 0 = _
              rw [alookup_aset_self]
              rfl
            have hloU : ∀ x, x ≠ v → lowv tsU x = lowv ts x := by
              intro x hxv
              unfold lowv
              show (alookup (aset ts.lowlink v _) x).getD 0 = _
              rw [alookup_aset_ne _ _ _ _ hxv]
            have hivU : ∀ x, idxv tsU x = idxv ts x := by
              intro x
              unfold idxv
              rw [hIU]
            have hdoneU : ∃ done2, done2 ++ rest = allTargetsSet A v ∧
                ∀ u ∈ done2, (alookup tsU.indices u).isSome ∧
                  (u ∈ tsU.S → lowv tsU v ≤ idxv tsU u) := by
              refine ⟨done ++ [t], hdeq2, ?_⟩
              intro u hu
              rcases List.mem_append.mp hu with hud | hut
              · obtain ⟨hui, huimp⟩ := hdf u hud
                refine ⟨by rw [hIU]; exact hui, ?_⟩
                intro huS
                rw [hlvU, hivU u]
                exact le_trans (min_le_left _ _) (huimp (hSU ▸ huS))
              · rw [List.mem_singleton.mp hut]
                refine ⟨by rw [hIU, hti]; rfl, ?_⟩
                intro _
                rw [hlvU, hivU t, idxv_eq ts t it hti]
                exact min_le_right _ _
            have haccU : ∀ x ∈ tsU.S, n0 ≤ idxv tsU x →
                lowv tsU v ≤ lowv tsU x := by
              intro x hx hge
              by_cases hxv : x = v
              · subst hxv; exact le_refl _
              · rw [hloU x hxv, hlvU]
                refine le_trans (min_le_left _ _) (hacc x (hSU ▸ hx) ?_)
                rw [← hivU x]
                exact hge
            have hGU : ∀ g ∈ G, ∃ i, alookup tsU.indices g = some i ∧
                i < n0 := by
              intro g hg
              rw [hIU]
              exact hG g hg
            have hvU : v ∈ tsU.S := hSU ▸ hvS
            have hvidxU : alookup tsU.indices v = some n0 := by
              rw [hIU]; exact hvidx
            have hrec : LoopPost A G tsU v n0 out :=
              ihL rest v n0 tsU G out h hwfU hvU hvidxU hGU hdoneU haccU
            refine ⟨hrec.wf, ?_, ?_, hrec.vIn, hrec.vIdxKeep, hrec.targDone,
              hrec.lowAcc⟩
            · exact tframe_trans ts tsU out (tframe_setlow ts v _) hrec.frame
            · intro x hxi hxv
              have h1 := hrec.lowFrame x (by rw [hIU]; exact hxi) hxv
              rw [h1]
              rw [htsU]
              show alookup (aset ts.lowlink v _) x = alookup ts.lowlink x
              rw [alookup_aset_ne _ _ _ _ hxv]
          · -- t discovered but already emitted: nothing changes
            rename_i hton
            have htnS : t ∉ ts.S := fun hc => hton ((hwf.onsync t).mpr hc)
            have hdoneU : ∃ done2, done2 ++ rest = allTargetsSet A v ∧
                ∀ u ∈ done2, (alookup ts.indices u).isSome ∧
                  (u ∈ ts.S → lowv ts v ≤ idxv ts u) := by
              refine ⟨done ++ [t], hdeq2, ?_⟩
              intro u hu
              rcases List.mem_append.mp hu with hud | hut
              · exact hdf u hud
              · rw [List.mem_singleton.mp hut]
                exact ⟨by rw [hti]; rfl, fun hc => absurd hc htnS⟩
            exact ihL rest v n0 ts G out h hwf hvS hvidx hG hdoneU hacc

/-- The components returned by `scc()` are exactly the strongly connected
components: pairwise mutually reachable and closed under mutual
reachability. -/
theorem sccFuel_spec (A : FST) (fuel : Nat) (comps : List (List Nat))
    (h : sccFuel A fuel = some comps) :
    (∀ c ∈ comps, ∀ x ∈ c, ∀ y ∈ c, SCCeq A x y) ∧
    (∀ c ∈ comps, ∀ x ∈ c, ∀ z, SCCeq A x z → z ∈ c) := by
  have hnone : ∀ l : List Nat, l.foldl (fun acc s =>
      match acc with
      | none => none
      | some ts =>
        if (alookup ts.indices s).isSome then some ts
        else tarjanGo A fuel (Sum.inl s) ts) none = none := by
    intro l
    induction l with
    | nil => rfl
    | cons s rest ih => exact ih
  have key : ∀ (l : List Nat) (acc : TarjanSt), TWF A [] acc → acc.S = [] →
      ∀ res, l.foldl (fun acc s =>
        match acc with
        | none => none
        | some ts =>
          if (alookup ts.indices s).isSome then some ts
          else tarjanGo A fuel (Sum.inl s) ts) (some acc) = some res →
      TWF A [] res ∧ res.S = [] := by
    intro l
    induction l with
    | nil =>
      intro acc hwf hS res hres
      obtain rfl := Option.some.inj hres
      exact ⟨hwf, hS⟩
    | cons s rest ih =>
      intro acc hwf hS res hres
      rw [List.foldl_cons] at hres
      by_cases hsi : (alookup acc.indices s).isSome
      · have hstep : (match some acc with
            | none => none
            | some ts =>
              if (alookup ts.indices s).isSome then some ts
              else tarjanGo A fuel (Sum.inl s) ts) = some acc := by
          show (if (alookup acc.indices s).isSome then some acc
            else tarjanGo A fuel (Sum.inl s) acc) = some acc
          rw [if_pos hsi]
        rw [hstep] at hres
        exact ih acc hwf hS res hres
      · have hsnone : alookup acc.indices s = none :=
          Option.not_isSome_iff_eq_none.mp hsi
        have hstep : (match some acc with
            | none => none
            | some ts =>
              if (alookup ts.indices s).isSome then some ts
              else tarjanGo A fuel (Sum.inl s) ts)
            = tarjanGo A fuel (Sum.inl s) acc := by
          show (if (alookup acc.indices s).isSome then some acc
            else tarjanGo A fuel (Sum.inl s) acc) = _
          rw [if_neg hsi]
        rw [hstep] at hres
        cases hgo : tarjanGo A fuel (Sum.inl s) acc with
        | none =>
          rw [hgo, hnone] at hres
          cases hres
        | some out =>
          rw [hgo] at hres
          have hpost : VisitPost A [] acc s out :=
            (tarjan_spec A fuel).1 s acc [] out hgo hwf hsnone
              (fun g hg => absurd hg (List.not_mem_nil g))
              (by intro x hx; rw [hS] at hx; cases hx)
          rcases hpost.branch with ⟨hSeq, _, _⟩ |
            ⟨pushed, hSout, hfresh, _, hstrict⟩
          · exact ih out hpost.wf (by rw [hSeq, hS]) res hres
          · exfalso
            have hvS : s ∈ out.S := by
              rw [hSout, hS]
              exact List.mem_append_right _ (List.mem_cons_self _ _)
            obtain ⟨hle, y, hyS, hyidx, _⟩ := hpost.wf.lowWit s hvS
            have hvidx : idxv out s = acc.index := idxv_eq _ _ _ hpost.vIdx
            rw [hS] at hSout
            rw [hSout] at hyS
            rcases List.mem_append.mp hyS with hyp | hyv
            · obtain ⟨i, hi⟩ :=
                Option.isSome_iff_exists.mp (hpost.wf.stackIdx y (by
                  rw [hSout]; exact List.mem_append_left _ hyp))
              rcases hpost.frame.idxNew y i hi with hold | hge
              · rw [hfresh y hyp] at hold
                cases hold
              · rw [idxv_eq out y i hi] at hyidx
                omega
            · rcases List.mem_cons.mp hyv with hh | hh
              · rw [hh] at hyidx
                omega
              · cases hh
  unfold sccFuel at h
  cases hfold : A.states.foldl (fun acc s =>
      match acc with
      | none => none
      | some ts =>
        if (alookup ts.indices s).isSome then some ts
        else tarjanGo A fuel (Sum.inl s) ts)
      (some { index := 0, indices := [], lowlink := [], S := [], onstack := [], sccs := [] }) with
  | none =>
    rw [hfold] at h
    cases h
  | some final =>
    rw [hfold] at h
    simp only [Option.map_some'] at h
    have hcomps : final.sccs = comps := Option.some.inj h
    have hwf0 : TWF A [] { index := 0, indices := [], lowlink := [], S := [], onstack := [], sccs := [] } := by
      refine ⟨?_, ?_, ?_, ?_, ?_, ?_, ?_, ?_, ?_, ?_, ?_, ?_, ?_, ?_, ?_, ?_⟩
      · exact List.nodup_nil
      · intro x; exact Iff.rfl
      · intro x hx; cases hx
      · intro x i hx; cases hx
      · intro x y i hx; cases hx
      · intro c hc; cases hc
      · intro x hx; cases hx
      · intro x hx; cases hx
      · exact List.chain'_nil
      · intro x hx; cases hx
      · intro x hx; cases hx
      · intro c hc; cases hc
      · intro c hc; cases hc
      · intro c hc; cases hc
      · intro x hx; cases hx
      · intro x hx; cases hx
    obtain ⟨hwfF, _⟩ := key A.states _ hwf0 rfl final hfold
    rw [← hcomps]
    exact ⟨hwfF.sccPair, hwfF.sccMax⟩

/-- C9: `push_weights` preserves the weighted language.  For every closed
finite-weight FST with duplicate-free finals whose `push_weights` run
completes, and every path from the initial state to a final state, the
total path weight (arc weights plus the final weight) is unchanged — also
when the initial state lies on a cycle, where the residual is distributed
over the initial component's exits and finals. -/
theorem C9_push_weights_preserves (A B : FST) (fuel : Nat)
    (hF : FiniteWeights A) (hC : Closed A) (hN : A.finalstates.Nodup)
    (hpw : pushWeightsFuel A fuel = some B)
    (p : List Step) (f : Nat)
    (hpath : IsPath A A.initialstate p f) (hf : f ∈ A.finalstates) :
    pathCost B p + finalweight B f = pathCost A p + finalweight A f :=
  C9_core A B fuel hF hC hN
    (fun comps hscc => (sccFuel_spec A fuel comps hscc).1)
    (fun comps hscc => (sccFuel_spec A fuel comps hscc).2)
    hpw p f hpath hf

theorem C9_witness :
    pathCost ((pushWeightsFuel Acyc 20).getD Acyc) [Step.mk 0 ["a"] 0]
        + finalweight ((pushWeightsFuel Acyc 20).getD Acyc) 1
      = pathCost Acyc [Step.mk 0 ["a"] 0] + finalweight Acyc 1 :=
  C9_push_weights_preserves Acyc ((pushWeightsFuel Acyc 20).getD Acyc) 20
    (by decide) (by decide) (by decide) rfl [Step.mk 0 ["a"] 0] 1
    ⟨rfl, Trs.mk 1 ["a"] 1, rfl, rfl⟩ (by decide)

end Pyfoma
